import Mathlib

/-!
Verification development for the TwentyFive board engine
(package `app`: the in-memory data model and the mutation engine).

The Go code mutates a single `BoardState` in place under a write lock and
then persists it; persistence I/O is not modelled here.  Every store-level
operation is embedded as a pure function
`BoardState → args → BoardState × Except BErr result`
whose first component is the in-memory state after the call returns with the
second component (so a state mutated before an error surfaces is visible,
exactly as in the Go code, where `withWrite` does not undo `lockFn`'s
partial effects).  Go slices become `List`s, in-place element assignment
becomes functional update, `Task.Clone`/`Category.Clone` are the identity on
values, and the random `NewID()` is threaded in as an explicit `gen`
argument.
-/

namespace TwentyFive

/-- Model of `TaskLink` (part of the data model). -/
structure TaskLink where
  text : String
  url : String
deriving DecidableEq

/-- Model of `ChecklistItem`. -/
structure ChecklistItem where
  text : String
  done : Bool
deriving DecidableEq

/-- Model of `Task`.  `Size` is a Go `int`, embedded as `Int`. -/
structure Task where
  id : String
  name : String
  description : String
  notes : String
  state : String
  size : Int
  links : List TaskLink
  checklist : List ChecklistItem
  urgent : Bool
  focused : Bool
  sourceId : String
  source : String
deriving DecidableEq

/-- The Go zero value `Task{}`. -/
def defaultTask : Task :=
  ⟨"", "", "", "", "", 0, [], [], false, false, "", ""⟩

/-- Model of `Category`. -/
structure Category where
  id : String
  name : String
  tasks : List Task
deriving DecidableEq

/-- The Go zero value `Category{}`. -/
def defaultCategory : Category := ⟨"", "", []⟩

/-- Model of `BoardState`, the aggregate root with its five containers. -/
structure BoardState where
  categories : List Category
  backburner : List Task
  archives : List Task
  categoryBackburner : List Category
  categoryArchives : List Category
deriving DecidableEq

/-- Constant `ColumnCapacity = 5` (sum of task sizes allowed per column). -/
def ColumnCapacity : Int := 5

/-- Constant `CategoryLimit = 5` (categories allowed on the active board). -/
def CategoryLimitN : Nat := 5

/-- Location kind string constant `LocationCategory`. -/
def LocationCategory : String := "category"

/-- Location kind string constant `LocationBackburner`. -/
def LocationBackburner : String := "backburner"

/-- Location kind string constant `LocationArchive`. -/
def LocationArchive : String := "archive"

/-- Location kind string constant `LocationCategoryBoard`. -/
def LocationCategoryBoard : String := "board"

/-- The typed errors of the engine.  Sentinel `errors.New` values become
constructors; `fmt.Errorf` wrappers keep their message, and the plain
`fmt.Errorf("task %s is not in archive", id)` in `DeleteTask` becomes
`notInArchive id`. -/
inductive BErr where
  | taskNotFound
  | categoryNotFound
  | capacityExceeded
  | invalidState (s : String)
  | invalidLocation
  | invalidTaskSize
  | invalidRequest (msg : String)
  | duplicateCategory
  | categoryLimit
  | notInArchive (id : String)
deriving DecidableEq

instance {ε α : Type} [DecidableEq ε] [DecidableEq α] : DecidableEq (Except ε α) := fun x y =>
  match x, y with
  | .ok a, .ok b =>
    if h : a = b then .isTrue (by rw [h]) else .isFalse (by intro hc; cases hc; exact h rfl)
  | .error e, .error f =>
    if h : e = f then .isTrue (by rw [h]) else .isFalse (by intro hc; cases hc; exact h rfl)
  | .ok _, .error _ => .isFalse (by intro hc; cases hc)
  | .error _, .ok _ => .isFalse (by intro hc; cases hc)

/-- Model of `ValidateTaskState`'s allowed-state check. -/
def validTaskState (s : String) : Bool :=
  s == "todo" || s == "doing" || s == "blocked" || s == "done" || s == "delegated"

/-- ASCII model of Go's `strings.TrimSpace` whitespace class. -/
def isSpaceChar (c : Char) : Bool :=
  c == ' ' || c == '\t' || c == '\n' || c == '\r'

/-- Model of `strings.TrimSpace` (restricted to ASCII whitespace, which is
all the claims exercise). -/
def trimSpace (s : String) : String :=
  String.mk (((s.data.dropWhile isSpaceChar).reverse.dropWhile isSpaceChar).reverse)

/-- Insert at index `i`, shifting the suffix right; appends at the end when
`i` is at or beyond the length.  This is the Go splice
`append(l[:i+1], l[i:]...)` / `copy` idiom used by the insert and restore
paths (which only reach it with `i ≤ length`). -/
def listInsertIdx {α : Type} : Nat → α → List α → List α
  | 0, a, l => a :: l
  | _ + 1, a, [] => [a]
  | n + 1, a, x :: l => x :: listInsertIdx n a l

/-- Functional form of a Go in-place update of element `i` of a slice
(no-op when out of bounds, which the call sites never are). -/
def listModify {α : Type} (f : α → α) : Nat → List α → List α
  | _, [] => []
  | 0, a :: l => f a :: l
  | n + 1, a :: l => a :: listModify f n l

/-- Model of `taskLocation` (container kind + address). -/
structure TaskLoc where
  kind : String
  categoryIndex : Nat
  taskIndex : Nat
deriving DecidableEq

/-- Model of `categoryLocation`. -/
structure CatLoc where
  kind : String
  index : Nat
deriving DecidableEq

/-- First index (and element) in a task list with the given ID — the Go
linear scans in `findTask`. -/
def findInTasks : List Task → String → Option (Nat × Task)
  | [], _ => none
  | t :: l, i =>
    if t.id == i then some (0, t)
    else (findInTasks l i).map (fun p => (p.1 + 1, p.2))

/-- First (category index, task index, task) whose task ID matches — the
nested loop at the top of `findTask`. -/
def findInCats : List Category → String → Option (Nat × Nat × Task)
  | [], _ => none
  | c :: l, i =>
    match findInTasks c.tasks i with
    | some (ti, t) => some (0, ti, t)
    | none => (findInCats l i).map (fun p => (p.1 + 1, p.2))

/-- Model of `findTask`: scan active categories, then backburner, then
archives; parked category containers are never scanned. -/
def findTask (s : BoardState) (id : String) : Except BErr (Task × TaskLoc) :=
  match findInCats s.categories id with
  | some (ci, ti, t) => .ok (t, ⟨LocationCategory, ci, ti⟩)
  | none =>
    match findInTasks s.backburner id with
    | some (i, t) => .ok (t, ⟨LocationBackburner, 0, i⟩)
    | none =>
      match findInTasks s.archives id with
      | some (i, t) => .ok (t, ⟨LocationArchive, 0, i⟩)
      | none => .error .taskNotFound

/-- Read the task a `findTask` pointer refers to (embedding glue for Go's
`*Task` into the live state). -/
def getTaskAt (s : BoardState) (loc : TaskLoc) : Option Task :=
  if loc.kind == LocationCategory then
    ((s.categories.get? loc.categoryIndex).map Category.tasks).bind
      (fun ts => ts.get? loc.taskIndex)
  else if loc.kind == LocationBackburner then s.backburner.get? loc.taskIndex
  else if loc.kind == LocationArchive then s.archives.get? loc.taskIndex
  else none

/-- Write through a `findTask` pointer (embedding glue for Go's in-place
mutation of the task `findTask` returned). -/
def setTaskAt (s : BoardState) (loc : TaskLoc) (t : Task) : BoardState :=
  if loc.kind == LocationCategory then
    let cats := listModify (fun c => { c with tasks := c.tasks.set loc.taskIndex t }) loc.categoryIndex s.categories
    { s with categories := cats }
  else if loc.kind == LocationBackburner then
    { s with backburner := s.backburner.set loc.taskIndex t }
  else if loc.kind == LocationArchive then
    { s with archives := s.archives.set loc.taskIndex t }
  else s

/-- The compaction half of `removeTask`: drop the element at the located
address. -/
def removeTaskAt (s : BoardState) (loc : TaskLoc) : BoardState :=
  if loc.kind == LocationCategory then
    let cats := listModify (fun c => { c with tasks := c.tasks.eraseIdx loc.taskIndex }) loc.categoryIndex s.categories
    { s with categories := cats }
  else if loc.kind == LocationBackburner then
    { s with backburner := s.backburner.eraseIdx loc.taskIndex }
  else if loc.kind == LocationArchive then
    { s with archives := s.archives.eraseIdx loc.taskIndex }
  else s

/-- Model of `removeTask`: find, extract, and return the prior address. -/
def removeTask (s : BoardState) (id : String) :
    Except BErr (Task × TaskLoc × BoardState) :=
  match findTask s id with
  | .ok (t, loc) => .ok (t, loc, removeTaskAt s loc)
  | .error _ => .error .taskNotFound

/-- Model of `restoreTask`: reinsert an extracted task at its prior address
(appending when the index is at or past the end, as the category branch
does explicitly). -/
def restoreTask (s : BoardState) (t : Task) (loc : TaskLoc) : BoardState :=
  if loc.kind == LocationCategory then
    let f := fun (c : Category) =>
      let ts := if loc.taskIndex ≥ c.tasks.length then c.tasks ++ [t] else listInsertIdx loc.taskIndex t c.tasks
      { c with tasks := ts }
    { s with categories := listModify f loc.categoryIndex s.categories }
  else if loc.kind == LocationBackburner then
    { s with backburner := listInsertIdx loc.taskIndex t s.backburner }
  else if loc.kind == LocationArchive then
    { s with archives := listInsertIdx loc.taskIndex t s.archives }
  else s

/-- Model of `findCategoryIndex` (first active category with the ID;
`none` for Go's `-1`). -/
def findCategoryIndex : List Category → String → Option Nat
  | [], _ => none
  | c :: l, i => if c.id == i then some 0 else (findCategoryIndex l i).map Nat.succ

/-- Model of `ensureCapacity`'s running loop: fails as soon as a prefix sum
of sizes exceeds `ColumnCapacity`. -/
def capacityScan : Int → List Task → Option BErr
  | _, [] => none
  | total, t :: l =>
    if total + t.size > ColumnCapacity then some .capacityExceeded
    else capacityScan (total + t.size) l

/-- Model of `ensureCapacity`. -/
def ensureCapacity (c : Category) : Option BErr :=
  capacityScan 0 c.tasks

/-- Model of `normalizeUrgent`: inside category `catIdx`, a task is urgent
iff its ID equals `urgentTaskID`. -/
def normalizeUrgent (s : BoardState) (catIdx : Nat) (urgentTaskID : String) :
    BoardState :=
  let f := fun (c : Category) =>
    { c with tasks := c.tasks.map (fun t => { t with urgent := t.id == urgentTaskID }) }
  { s with categories := listModify f catIdx s.categories }

/-- Model of `normalizeFocus`: only a task in an active category whose ID
equals the (non-empty) `focusedID` stays focused; everything else is
cleared. -/
def normalizeFocus (s : BoardState) (focusedID : String) : BoardState :=
  { categories := s.categories.map (fun c =>
      { c with tasks := c.tasks.map (fun t =>
          { t with focused := t.id == focusedID && focusedID != "" }) }),
    backburner := s.backburner.map (fun t => { t with focused := false }),
    archives := s.archives.map (fun t => { t with focused := false }),
    categoryBackburner := s.categoryBackburner.map (fun c =>
      { c with tasks := c.tasks.map (fun t => { t with focused := false }) }),
    categoryArchives := s.categoryArchives.map (fun c =>
      { c with tasks := c.tasks.map (fun t => { t with focused := false }) }) }

/-- Model of `clearFocus`: clear the focused flag in all five containers. -/
def clearFocus (s : BoardState) : BoardState :=
  { categories := s.categories.map (fun c =>
      { c with tasks := c.tasks.map (fun t => { t with focused := false }) }),
    backburner := s.backburner.map (fun t => { t with focused := false }),
    archives := s.archives.map (fun t => { t with focused := false }),
    categoryBackburner := s.categoryBackburner.map (fun c =>
      { c with tasks := c.tasks.map (fun t => { t with focused := false }) }),
    categoryArchives := s.categoryArchives.map (fun c =>
      { c with tasks := c.tasks.map (fun t => { t with focused := false }) }) }

/-- Model of `clearCategoryFocus`. -/
def clearCategoryFocus (c : Category) : Category :=
  { c with tasks := c.tasks.map (fun t => { t with focused := false }) }

/-- Model of `removeCategory`: scan board, then parked backburner, then
parked archives; extract and report the prior address. -/
def removeCategory (s : BoardState) (id : String) :
    Except BErr (Category × CatLoc × BoardState) :=
  match findCategoryIndex s.categories id with
  | some i =>
    .ok ((s.categories.get? i).getD defaultCategory, ⟨LocationCategoryBoard, i⟩,
      { s with categories := s.categories.eraseIdx i })
  | none =>
    match findCategoryIndex s.categoryBackburner id with
    | some i =>
      .ok ((s.categoryBackburner.get? i).getD defaultCategory, ⟨LocationBackburner, i⟩,
        { s with categoryBackburner := s.categoryBackburner.eraseIdx i })
    | none =>
      match findCategoryIndex s.categoryArchives id with
      | some i =>
        .ok ((s.categoryArchives.get? i).getD defaultCategory, ⟨LocationArchive, i⟩,
          { s with categoryArchives := s.categoryArchives.eraseIdx i })
      | none => .error .categoryNotFound

/-- Model of `restoreCategory`. -/
def restoreCategory (s : BoardState) (c : Category) (loc : CatLoc) : BoardState :=
  if loc.kind == LocationCategoryBoard then
    if loc.index ≥ s.categories.length then
      { s with categories := s.categories ++ [c] }
    else
      { s with categories := listInsertIdx loc.index c s.categories }
  else if loc.kind == LocationBackburner then
    { s with categoryBackburner := listInsertIdx loc.index c s.categoryBackburner }
  else if loc.kind == LocationArchive then
    { s with categoryArchives := listInsertIdx loc.index c s.categoryArchives }
  else s

/-- Model of the Go map `index[id] = i` built in `reorderTasks`: later
occurrences overwrite earlier ones, so lookups yield the LAST index. -/
def lastIndexOf : List String → String → Option Nat
  | [], _ => none
  | a :: l, x =>
    match lastIndexOf l x with
    | some k => some (k + 1)
    | none => if a == x then some 0 else none

/-- The filling loop of `reorderTasks`: place each task at
`index[task.ID]`, failing on a missing ID. -/
def fillReordered (index : String → Option Nat) :
    List Task → List Task → Except BErr (List Task)
  | acc, [] => .ok acc
  | acc, t :: l =>
    match index t.id with
    | some pos => fillReordered index (acc.set pos t) l
    | none => .error (.invalidRequest ("missing task id " ++ t.id))

/-- Model of `reorderTasks`: length check, then fill a zero-initialised
slice of the same length and (on success) replace the task sequence. -/
def reorderTasks (c : Category) (order : List String) : Except BErr (List Task) :=
  if order.length != c.tasks.length then
    .error (.invalidRequest "task order length mismatch")
  else
    fillReordered (lastIndexOf order) (List.replicate c.tasks.length defaultTask) c.tasks

/-- Model of `CreateTaskRequest`. -/
structure CreateTaskRequest where
  location : String
  categoryId : String
  position : Option Int
  task : Task
deriving DecidableEq

/-- Model of `CreateTaskRequest.Normalize`. -/
def createTaskReqNormalize (r : CreateTaskRequest) : CreateTaskRequest :=
  if r.location == "" then { r with location := LocationCategory } else r

/-- Model of `CreateTaskRequest.Validate`. -/
def createTaskReqValidate (r : CreateTaskRequest) : Option BErr :=
  if !validTaskState r.task.state then some (.invalidState r.task.state)
  else if r.task.size < 1 || r.task.size > 5 then some .invalidTaskSize
  else if r.location == LocationCategory then
    if r.categoryId == "" then
      some (.invalidRequest "categoryId required for category location")
    else none
  else if r.location == LocationBackburner || r.location == LocationArchive then none
  else some .invalidLocation

/-- Model of `TaskPatch`. -/
structure TaskPatch where
  name : Option String
  description : Option String
  notes : Option String
  state : Option String
  size : Option Int
  links : Option (List TaskLink)
  checklist : Option (List ChecklistItem)
  urgent : Option Bool
deriving DecidableEq

/-- The empty patch (all fields absent). -/
def emptyPatch : TaskPatch := ⟨none, none, none, none, none, none, none, none⟩

/-- The unconditional text-field assignments at the head of
`TaskPatch.Apply`. -/
def patchTextFields (p : TaskPatch) (t : Task) : Task :=
  let t := match p.name with | some v => { t with name := v } | none => t
  let t := match p.description with | some v => { t with description := v } | none => t
  match p.notes with | some v => { t with notes := v } | none => t

/-- The trailing assignments of `TaskPatch.Apply` (links, checklist,
urgent), reached only after state and size validated. -/
def patchTailFields (p : TaskPatch) (t : Task) : Task :=
  let t := match p.links with | some v => { t with links := v } | none => t
  let t := match p.checklist with | some v => { t with checklist := v } | none => t
  match p.urgent with | some v => { t with urgent := v } | none => t

/-- The size step of `TaskPatch.Apply` plus everything after it. -/
def applyPatchSize (p : TaskPatch) (t : Task) : Task × Option BErr :=
  match p.size with
  | some sz =>
    if sz < 1 || sz > 5 then (t, some .invalidTaskSize)
    else (patchTailFields p { t with size := sz }, none)
  | none => (patchTailFields p t, none)

/-- Model of `TaskPatch.Apply`.  On error the returned task carries exactly
the fields assigned before the failing validation (the Go method mutates
through the pointer as it goes). -/
def applyPatch (p : TaskPatch) (t0 : Task) : Task × Option BErr :=
  let t1 := patchTextFields p t0
  match p.state with
  | some st =>
    if validTaskState st then applyPatchSize p { t1 with state := st }
    else (t1, some (.invalidState st))
  | none => applyPatchSize p t1

/-- Model of `MoveTaskRequest`. -/
structure MoveTaskRequest where
  location : String
  categoryId : String
  position : Option Int
  sourceId : String
  source : String
deriving DecidableEq

/-- Model of `MoveTaskRequest.Normalize`. -/
def moveReqNormalize (r : MoveTaskRequest) : MoveTaskRequest :=
  if r.location == "" then { r with location := LocationCategory } else r

/-- Model of `MoveTaskRequest.Validate`. -/
def moveReqValidate (r : MoveTaskRequest) : Option BErr :=
  if r.location == LocationCategory then
    if r.categoryId == "" then
      some (.invalidRequest "categoryId required for category move")
    else none
  else if r.location == LocationBackburner || r.location == LocationArchive then none
  else some .invalidLocation

/-- Model of `MoveCategoryRequest`. -/
structure MoveCategoryRequest where
  location : String
  position : Option Int
deriving DecidableEq

/-- Model of `MoveCategoryRequest.Normalize`. -/
def moveCatReqNormalize (r : MoveCategoryRequest) : MoveCategoryRequest :=
  if r.location == "" then { r with location := LocationCategoryBoard } else r

/-- Model of `MoveCategoryRequest.Validate`. -/
def moveCatReqValidate (r : MoveCategoryRequest) : Option BErr :=
  if r.location == LocationCategoryBoard || r.location == LocationBackburner
      || r.location == LocationArchive then none
  else some .invalidLocation

/-- The shared Go idiom "insert index defaults to the end unless the given
position is within bounds" used by `insertTask`, `placeTask` and
`placeCategory`. -/
def insertIndexFor (pos : Option Int) (n : Nat) : Nat :=
  match pos with
  | some p => if 0 ≤ p && p ≤ (n : Int) then p.toNat else n
  | none => n

/-- The `case LocationCategory` arm of `BoardState.insertTask`: splice the
task in, re-check capacity (removing the splice on failure), then normalise
urgent/focus flags. -/
def insertTaskInCategory (s : BoardState) (task : Task) (req : CreateTaskRequest)
    (idx : Nat) : BoardState × Except BErr Task :=
  let cat := (s.categories.get? idx).getD defaultCategory
  let insertIndex := insertIndexFor req.position cat.tasks.length
  let newTasks := listInsertIdx insertIndex task cat.tasks
  match ensureCapacity { cat with tasks := newTasks } with
  | some e =>
    ({ s with categories := s.categories.set idx { cat with tasks := newTasks.eraseIdx insertIndex } },
      .error e)
  | none =>
    let s2 := { s with categories := s.categories.set idx { cat with tasks := newTasks } }
    let s3 := if task.urgent then normalizeUrgent s2 idx task.id else s2
    let s4 := if task.focused then normalizeFocus s3 task.id else s3
    (s4, .ok task)

/-- The local variable mutations at the head of `BoardState.insertTask`:
default the ID from `NewID()` (modelled by `gen`) and a zero size to 1. -/
def normalizedNewTask (gen : String) (t0 : Task) : Task :=
  let task := if t0.id == "" then { t0 with id := gen } else t0
  if task.size == 0 then { task with size := 1 } else task

/-- Model of `BoardState.insertTask`.  `gen` stands for the `NewID()`
draw. -/
def insertTask (gen : String) (s : BoardState) (req : CreateTaskRequest) :
    BoardState × Except BErr Task :=
  let task := normalizedNewTask gen req.task
  if task.size < 1 || task.size > 5 then (s, .error .invalidTaskSize)
  else if !validTaskState task.state then (s, .error (.invalidState task.state))
  else if req.location == LocationCategory then
    match findCategoryIndex s.categories req.categoryId with
    | none => (s, .error .categoryNotFound)
    | some idx => insertTaskInCategory s task req idx
  else if req.location == LocationBackburner then
    let task := { task with urgent := false, focused := false }
    ({ s with backburner := s.backburner ++ [task] }, .ok task)
  else if req.location == LocationArchive then
    let task := { task with urgent := false, focused := false }
    ({ s with archives := s.archives ++ [task] }, .ok task)
  else (s, .error .invalidLocation)

/-- The `case LocationCategory` arm of `BoardState.placeTask`: clear the
source fields, normalise urgent in the destination BEFORE splicing, splice,
and re-check capacity (removing only the splice on failure — the urgent
normalisation stays, exactly as in the source). -/
def placeTaskInCategory (s : BoardState) (task0 : Task) (dest : MoveTaskRequest)
    (idx : Nat) : BoardState × Option BErr :=
  let cat := (s.categories.get? idx).getD defaultCategory
  let insertIndex := insertIndexFor dest.position cat.tasks.length
  let task := { task0 with sourceId := "", source := "" }
  let s2 := if task.urgent then normalizeUrgent s idx task.id else normalizeUrgent s idx ""
  let cat2 := (s2.categories.get? idx).getD defaultCategory
  let newTasks := listInsertIdx insertIndex task cat2.tasks
  match ensureCapacity { cat2 with tasks := newTasks } with
  | some e =>
    ({ s2 with categories := s2.categories.set idx { cat2 with tasks := newTasks.eraseIdx insertIndex } },
      some e)
  | none =>
    ({ s2 with categories := s2.categories.set idx { cat2 with tasks := newTasks } }, none)

/-- Model of `BoardState.placeTask`. -/
def placeTask (s : BoardState) (task0 : Task) (dest0 : MoveTaskRequest) :
    BoardState × Option BErr :=
  let dest := moveReqNormalize dest0
  match moveReqValidate dest with
  | some e => (s, some e)
  | none =>
    let task := { task0 with focused := false }
    if dest.location == LocationCategory then
      match findCategoryIndex s.categories dest.categoryId with
      | none => (s, some .categoryNotFound)
      | some idx => placeTaskInCategory s task dest idx
    else if dest.location == LocationBackburner then
      let task := { task with urgent := false, focused := false, sourceId := dest.sourceId, source := dest.source }
      ({ s with backburner := s.backburner ++ [task] }, none)
    else if dest.location == LocationArchive then
      let task := { task with urgent := false, focused := false, sourceId := dest.sourceId, source := dest.source }
      ({ s with archives := s.archives ++ [task] }, none)
    else (s, some .invalidLocation)

/-- Model of `BoardState.placeCategory`. -/
def placeCategory (s : BoardState) (cat : Category) (dest : MoveCategoryRequest) :
    BoardState × Option BErr :=
  if dest.location == LocationCategoryBoard then
    if s.categories.length ≥ CategoryLimitN then (s, some .categoryLimit)
    else
      match ensureCapacity cat with
      | some e => (s, some e)
      | none =>
        let insertIndex := match dest.position with
          | some p => if 0 ≤ p && p ≤ (s.categories.length : Int) then p.toNat
                      else s.categories.length
          | none => s.categories.length
        ({ s with categories := listInsertIdx insertIndex cat s.categories }, none)
  else if dest.location == LocationBackburner then
    ({ s with categoryBackburner := s.categoryBackburner ++ [clearCategoryFocus cat] }, none)
  else if dest.location == LocationArchive then
    ({ s with categoryArchives := s.categoryArchives ++ [clearCategoryFocus cat] }, none)
  else (s, some .invalidLocation)

/-- Model of `Store.CreateTask` (request normalisation and validation,
then `insertTask` under the write lock). -/
def createTaskOp (gen : String) (s : BoardState) (req0 : CreateTaskRequest) :
    BoardState × Except BErr Task :=
  let req := createTaskReqNormalize req0
  match createTaskReqValidate req with
  | some e => (s, .error e)
  | none => insertTask gen s req

/-- Model of `Store.UpdateTask`.  The patch writes through the `findTask`
pointer as it is applied, so a failing validation or the final capacity
check leaves the already-assigned fields (and the urgent normalisation) in
the state. -/
def updateTaskOp (s : BoardState) (id : String) (p : TaskPatch) :
    BoardState × Except BErr Task :=
  match findTask s id with
  | .error e => (s, .error e)
  | .ok (t, loc) =>
    let r := applyPatch p t
    let s1 := setTaskAt s loc r.1
    match r.2 with
    | some e => (s1, .error e)
    | none =>
      let s2 :=
        if loc.kind == LocationCategory then
          if r.1.urgent then normalizeUrgent s1 loc.categoryIndex r.1.id
          else normalizeUrgent s1 loc.categoryIndex ""
        else s1
      if loc.kind == LocationCategory then
        match ensureCapacity ((s2.categories.get? loc.categoryIndex).getD defaultCategory) with
        | some e => (s2, .error e)
        | none => (s2, .ok ((getTaskAt s2 loc).getD defaultTask))
      else (s2, .ok ((getTaskAt s2 loc).getD defaultTask))

/-- The source auto-population step of `Store.MoveTask`: when parking to
backburner/archive without an explicit source, record the source category's
ID and name (read from the state AFTER removal, as the source does). -/
def autoSource (s1 : BoardState) (loc : TaskLoc) (dest : MoveTaskRequest) :
    MoveTaskRequest :=
  if (dest.location == LocationBackburner || dest.location == LocationArchive)
      && dest.sourceId == "" then
    if loc.kind == LocationCategory then
      let cat := (s1.categories.get? loc.categoryIndex).getD defaultCategory
      { dest with sourceId := cat.id, source := cat.name }
    else dest
  else dest

/-- Model of `Store.MoveTask`: remove, auto-populate source fields when
parking from a category, place, and restore the extracted task on any
placement failure. -/
def moveTaskOp (s : BoardState) (id : String) (dest : MoveTaskRequest) :
    BoardState × Except BErr Task :=
  match removeTask s id with
  | .error e => (s, .error e)
  | .ok (task, loc, s1) =>
    match placeTask s1 task (autoSource s1 loc dest) with
    | (s2, some e) => (restoreTask s2 task loc, .error e)
    | (s2, none) => (s2, .ok task)

/-- Model of `Store.DeleteTask`: only a task found in the flat archives may
be removed. -/
def deleteTaskOp (s : BoardState) (id : String) : BoardState × Except BErr Unit :=
  match findTask s id with
  | .error e => (s, .error e)
  | .ok (_, loc) =>
    if loc.kind != LocationArchive then (s, .error (.notInArchive id))
    else
      match removeTask s id with
      | .ok (_, _, s1) => (s1, .ok ())
      | .error e => (s, .error e)

/-- Model of `Store.RenameCategory`: trim, reject empty, check the new name
against all three category containers (skipping the category itself), then
rename the first matching ACTIVE category. -/
def renameCategoryOp (s : BoardState) (id name0 : String) :
    BoardState × Except BErr Category :=
  let name := trimSpace name0
  if name == "" then (s, .error (.invalidRequest "name cannot be empty"))
  else if s.categories.any (fun c => c.name == name && c.id != id) then
    (s, .error .duplicateCategory)
  else if s.categoryBackburner.any (fun c => c.name == name && c.id != id) then
    (s, .error .duplicateCategory)
  else if s.categoryArchives.any (fun c => c.name == name && c.id != id) then
    (s, .error .duplicateCategory)
  else
    match findCategoryIndex s.categories id with
    | some i =>
      let s1 := { s with categories := listModify (fun c => { c with name := name }) i s.categories }
      (s1, .ok ((s1.categories.get? i).getD defaultCategory))
    | none => (s, .error .categoryNotFound)

/-- Model of `Store.CreateCategory`: trim, reject empty, reject duplicate
names in any container, enforce the board ceiling, append a fresh empty
category (its `NewID()` passed as `gen`). -/
def createCategoryOp (gen : String) (s : BoardState) (name0 : String) :
    BoardState × Except BErr Category :=
  let name := trimSpace name0
  if name == "" then (s, .error (.invalidRequest "name required"))
  else if s.categories.any (fun c => c.name == name) then (s, .error .duplicateCategory)
  else if s.categoryBackburner.any (fun c => c.name == name) then (s, .error .duplicateCategory)
  else if s.categoryArchives.any (fun c => c.name == name) then (s, .error .duplicateCategory)
  else if s.categories.length ≥ CategoryLimitN then (s, .error .categoryLimit)
  else
    let cat : Category := ⟨gen, name, []⟩
    ({ s with categories := s.categories ++ [cat] }, .ok cat)

/-- Model of `Store.MoveCategory`: validate the destination, remove the
category from whichever container holds it, place it, and restore it at its
prior address on any placement failure. -/
def moveCategoryOp (s : BoardState) (id : String) (dest0 : MoveCategoryRequest) :
    BoardState × Except BErr Category :=
  let dest := moveCatReqNormalize dest0
  match moveCatReqValidate dest with
  | some e => (s, .error e)
  | none =>
    match removeCategory s id with
    | .error e => (s, .error e)
    | .ok (cat, loc, s1) =>
      match placeCategory s1 cat dest with
      | (s2, some e) => (restoreCategory s2 cat loc, .error e)
      | (s2, none) => (s2, .ok cat)

/-- The loop body of `Store.ReorderCategoryTasks`: rewrite the first active
category with the given ID, returning the updated list and category. -/
def reorderInCats : List Category → String → List String →
    Except BErr (List Category × Category)
  | [], _, _ => .error .categoryNotFound
  | c :: l, id, order =>
    if c.id == id then
      match reorderTasks c order with
      | .ok ts => .ok ({ c with tasks := ts } :: l, { c with tasks := ts })
      | .error e => .error e
    else
      match reorderInCats l id order with
      | .ok (l2, found) => .ok (c :: l2, found)
      | .error e => .error e

/-- Model of `Store.ReorderCategoryTasks`. -/
def reorderCategoryTasksOp (s : BoardState) (id : String) (order : List String) :
    BoardState × Except BErr Category :=
  match reorderInCats s.categories id order with
  | .ok (cats, found) => ({ s with categories := cats }, .ok found)
  | .error e => (s, .error e)

/-- Model of `Store.SetFocused`: an empty ID clears all focus; otherwise
the task is located (categories, backburner, archives), focus is cleared
board-wide, and that one task is focused — wherever it lives. -/
def setFocusedOp (s : BoardState) (taskID : String) : BoardState × Except BErr Task :=
  if taskID == "" then (clearFocus s, .ok defaultTask)
  else
    match findTask s taskID with
    | .error e => (s, .error e)
    | .ok (_, loc) =>
      let s1 := clearFocus s
      let t2 := { (getTaskAt s1 loc).getD defaultTask with focused := true }
      (setTaskAt s1 loc t2, .ok t2)

/-! ## Derived invariant notions -/

/-- Sum of the size points of a task list. -/
def taskSizesSum (ts : List Task) : Int := (ts.map Task.size).sum

/-- Points currently used inside one category. -/
def catPoints (c : Category) : Int := taskSizesSum c.tasks

/-- The capacity invariant of the active board: every active category's
point sum is within `ColumnCapacity`. -/
def capacityOK (s : BoardState) : Prop :=
  ∀ c ∈ s.categories, catPoints c ≤ ColumnCapacity

/-- Every task stored in an active category has a non-negative size (a
consequence of the documented `size ∈ [1,5]` data-model invariant). -/
def activeSizesNonneg (s : BoardState) : Prop :=
  ∀ c ∈ s.categories, ∀ t ∈ c.tasks, 0 ≤ t.size

/-- Number of focused tasks in a flat task list. -/
def tasksFocusedCount (ts : List Task) : Nat := ts.countP (fun t => t.focused)

/-- Number of focused tasks nested in a category list. -/
def catsFocusedCount (cs : List Category) : Nat :=
  (cs.map (fun c => tasksFocusedCount c.tasks)).sum

/-- Number of focused tasks across all five containers. -/
def focusedCount (s : BoardState) : Nat :=
  catsFocusedCount s.categories + tasksFocusedCount s.backburner
    + tasksFocusedCount s.archives + catsFocusedCount s.categoryBackburner
    + catsFocusedCount s.categoryArchives

/-- No task parked inside `CategoryBackburner` or `CategoryArchives` is
focused. -/
def parkedUnfocused (s : BoardState) : Prop :=
  (∀ c ∈ s.categoryBackburner, ∀ t ∈ c.tasks, t.focused = false) ∧
  (∀ c ∈ s.categoryArchives, ∀ t ∈ c.tasks, t.focused = false)

/-- The tasks sitting in active categories, flattened. -/
def activeTasks (s : BoardState) : List Task :=
  (s.categories.map Category.tasks).flatten

/-- The ID the engine will give the task of a create request (`NewID()`
modelled by `gen`). -/
def effTaskId (gen : String) (req : CreateTaskRequest) : String :=
  if req.task.id == "" then gen else req.task.id

/-! ## List-level lemmas -/

theorem listInsertIdx_length {α : Type} (i : Nat) (a : α) (l : List α) :
    (listInsertIdx i a l).length = l.length + 1 := by
  induction i generalizing l with
  | zero => cases l <;> simp [listInsertIdx]
  | succ n ih => cases l <;> simp [listInsertIdx, ih]

theorem listInsertIdx_eraseIdx {α : Type} (i : Nat) (a : α) (l : List α)
    (h : i ≤ l.length) : (listInsertIdx i a l).eraseIdx i = l := by
  induction i generalizing l with
  | zero => cases l <;> simp [listInsertIdx, List.eraseIdx]
  | succ n ih =>
    cases l with
    | nil => simp at h
    | cons x xs =>
      simp only [listInsertIdx, List.eraseIdx]
      rw [ih]
      simpa using h

theorem listInsertIdx_of_ge {α : Type} (i : Nat) (a : α) (l : List α)
    (h : l.length ≤ i) : listInsertIdx i a l = l ++ [a] := by
  induction i generalizing l with
  | zero =>
    cases l with
    | nil => simp [listInsertIdx]
    | cons x xs => simp at h
  | succ n ih =>
    cases l with
    | nil => simp [listInsertIdx]
    | cons x xs =>
      simp only [listInsertIdx, List.cons_append, List.cons.injEq, true_and]
      exact ih xs (by simpa using h)

theorem listInsertIdx_get_self {α : Type} (i : Nat) (a : α) (l : List α)
    (h : i ≤ l.length) : (listInsertIdx i a l).get? i = some a := by
  induction i generalizing l with
  | zero => cases l <;> simp [listInsertIdx]
  | succ n ih =>
    cases l with
    | nil => simp at h
    | cons x xs =>
      simp only [listInsertIdx, List.get?]
      exact ih xs (by simpa using h)

theorem eraseIdx_listInsertIdx_self {α : Type} (i : Nat) (a : α) (l : List α)
    (h : l.get? i = some a) : listInsertIdx i a (l.eraseIdx i) = l := by
  induction i generalizing l with
  | zero =>
    cases l with
    | nil => simp at h
    | cons x xs =>
      simp only [List.get?] at h
      cases h
      simp [listInsertIdx, List.eraseIdx]
  | succ n ih =>
    cases l with
    | nil => simp at h
    | cons x xs =>
      simp only [List.get?] at h
      simp [listInsertIdx, List.eraseIdx, ih xs h]

theorem listModify_length {α : Type} (f : α → α) (i : Nat) (l : List α) :
    (listModify f i l).length = l.length := by
  induction i generalizing l with
  | zero => cases l <;> simp [listModify]
  | succ n ih => cases l <;> simp [listModify, ih]

theorem listModify_get_self {α : Type} (f : α → α) (i : Nat) (l : List α) (a : α)
    (h : l.get? i = some a) : (listModify f i l).get? i = some (f a) := by
  induction i generalizing l with
  | zero =>
    cases l with
    | nil => simp at h
    | cons x xs =>
      rw [List.get?_cons_zero] at h
      cases h
      rfl
  | succ n ih =>
    cases l with
    | nil => simp at h
    | cons x xs =>
      rw [List.get?_cons_succ] at h
      show (listModify f n xs).get? n = some (f a)
      exact ih xs h

theorem listModify_get_ne {α : Type} (f : α → α) (i j : Nat) (l : List α)
    (h : j ≠ i) : (listModify f i l).get? j = l.get? j := by
  induction i generalizing l j with
  | zero =>
    cases l with
    | nil => simp [listModify]
    | cons x xs =>
      cases j with
      | zero => exact absurd rfl h
      | succ m => rfl
  | succ n ih =>
    cases l with
    | nil => simp [listModify]
    | cons x xs =>
      cases j with
      | zero => rfl
      | succ m =>
        show (listModify f n xs).get? m = xs.get? m
        exact ih m xs (fun hc => h (by rw [hc]))

theorem listModify_eq_set {α : Type} (f : α → α) (i : Nat) (l : List α) (a : α)
    (h : l.get? i = some a) : listModify f i l = l.set i (f a) := by
  induction i generalizing l with
  | zero =>
    cases l with
    | nil => simp at h
    | cons x xs =>
      rw [List.get?_cons_zero] at h
      cases h
      rfl
  | succ n ih =>
    cases l with
    | nil => simp at h
    | cons x xs =>
      rw [List.get?_cons_succ] at h
      show x :: listModify f n xs = x :: xs.set n (f a)
      rw [ih xs h]

theorem list_set_self {α : Type} (i : Nat) (l : List α) (a : α)
    (h : l.get? i = some a) : l.set i a = l := by
  induction i generalizing l with
  | zero =>
    cases l with
    | nil => simp at h
    | cons x xs =>
      rw [List.get?_cons_zero] at h
      cases h
      rfl
  | succ n ih =>
    cases l with
    | nil => simp at h
    | cons x xs =>
      rw [List.get?_cons_succ] at h
      show x :: xs.set n a = x :: xs
      rw [ih xs h]


/-! ## Find-scan characterisations -/

theorem findInTasks_some {ts : List Task} {id : String} {i : Nat} {t : Task}
    (h : findInTasks ts id = some (i, t)) : ts.get? i = some t ∧ t.id = id := by
  induction ts generalizing i with
  | nil => simp [findInTasks] at h
  | cons x xs ih =>
    by_cases hx : (x.id == id) = true
    · rw [findInTasks, if_pos hx] at h
      simp only [Option.some.injEq, Prod.mk.injEq] at h
      obtain ⟨h1, h2⟩ := h
      subst h1
      subst h2
      exact ⟨rfl, by simpa using hx⟩
    · rw [findInTasks, if_neg hx, Option.map_eq_some'] at h
      obtain ⟨⟨j, u⟩, hj, he⟩ := h
      simp only [Prod.mk.injEq] at he
      obtain ⟨h1, h2⟩ := he
      subst h1
      subst h2
      exact ih hj

theorem findInTasks_none {ts : List Task} {id : String}
    (h : findInTasks ts id = none) : ∀ t ∈ ts, t.id ≠ id := by
  induction ts with
  | nil => simp
  | cons x xs ih =>
    intro t ht
    by_cases hx : (x.id == id) = true
    · rw [findInTasks, if_pos hx] at h
      exact absurd h (by simp)
    · rw [findInTasks, if_neg hx] at h
      rcases List.mem_cons.mp ht with h1 | h2
      · subst h1
        simpa using hx
      · exact ih (by simpa using h) t h2

theorem findInTasks_none_of {ts : List Task} {id : String}
    (h : ∀ t ∈ ts, t.id ≠ id) : findInTasks ts id = none := by
  induction ts with
  | nil => rfl
  | cons x xs ih =>
    have hx : (x.id == id) = false := by
      simpa using h x (by simp)
    rw [findInTasks, if_neg (by simp [hx]), ih (fun t ht => h t (by simp [ht]))]
    rfl

theorem findInCats_some {cs : List Category} {id : String} {ci ti : Nat} {t : Task}
    (h : findInCats cs id = some (ci, ti, t)) :
    ∃ c, cs.get? ci = some c ∧ c.tasks.get? ti = some t ∧ t.id = id := by
  induction cs generalizing ci with
  | nil => simp [findInCats] at h
  | cons x xs ih =>
    match hx : findInTasks x.tasks id with
    | some (j, u) =>
      rw [findInCats] at h
      rw [hx] at h
      simp only [Option.some.injEq, Prod.mk.injEq] at h
      obtain ⟨h1, h2, h3⟩ := h
      subst h1
      subst h2
      subst h3
      obtain ⟨g1, g2⟩ := findInTasks_some hx
      exact ⟨x, rfl, g1, g2⟩
    | none =>
      rw [findInCats] at h
      rw [hx, Option.map_eq_some'] at h
      obtain ⟨⟨cj, p⟩, hj, he⟩ := h
      simp only [Prod.mk.injEq] at he
      obtain ⟨h1, h2⟩ := he
      subst h1
      subst h2
      obtain ⟨c, g1, g2, g3⟩ := ih hj
      exact ⟨c, g1, g2, g3⟩

theorem findInCats_none {cs : List Category} {id : String}
    (h : findInCats cs id = none) : ∀ c ∈ cs, ∀ t ∈ c.tasks, t.id ≠ id := by
  induction cs with
  | nil => simp
  | cons x xs ih =>
    intro c hc
    match hx : findInTasks x.tasks id with
    | some p =>
      rw [findInCats] at h
      rw [hx] at h
      exact absurd h (by simp)
    | none =>
      rw [findInCats] at h
      rw [hx] at h
      rcases List.mem_cons.mp hc with h1 | h2
      · subst h1
        exact findInTasks_none hx
      · exact ih (by simpa using h) c h2

theorem findInCats_none_of {cs : List Category} {id : String}
    (h : ∀ c ∈ cs, ∀ t ∈ c.tasks, t.id ≠ id) : findInCats cs id = none := by
  induction cs with
  | nil => rfl
  | cons x xs ih =>
    have hx : findInTasks x.tasks id = none :=
      findInTasks_none_of (h x (by simp))
    rw [findInCats]
    rw [hx, ih (fun c hc => h c (by simp [hc]))]
    rfl

theorem findCategoryIndex_some {cs : List Category} {id : String} {i : Nat}
    (h : findCategoryIndex cs id = some i) :
    ∃ c, cs.get? i = some c ∧ c.id = id := by
  induction cs generalizing i with
  | nil => simp [findCategoryIndex] at h
  | cons x xs ih =>
    by_cases hx : (x.id == id) = true
    · rw [findCategoryIndex, if_pos hx] at h
      simp only [Option.some.injEq] at h
      subst h
      exact ⟨x, rfl, by simpa using hx⟩
    · rw [findCategoryIndex, if_neg hx, Option.map_eq_some'] at h
      obtain ⟨j, hj, he⟩ := h
      subst he
      obtain ⟨c, g1, g2⟩ := ih hj
      exact ⟨c, g1, g2⟩

theorem findCategoryIndex_none {cs : List Category} {id : String}
    (h : findCategoryIndex cs id = none) : ∀ c ∈ cs, c.id ≠ id := by
  induction cs with
  | nil => simp
  | cons x xs ih =>
    intro c hc
    by_cases hx : (x.id == id) = true
    · rw [findCategoryIndex, if_pos hx] at h
      exact absurd h (by simp)
    · rw [findCategoryIndex, if_neg hx] at h
      rcases List.mem_cons.mp hc with h1 | h2
      · subst h1
        simpa using hx
      · exact ih (by simpa using h) c h2

theorem findCategoryIndex_none_of {cs : List Category} {id : String}
    (h : ∀ c ∈ cs, c.id ≠ id) : findCategoryIndex cs id = none := by
  induction cs with
  | nil => rfl
  | cons x xs ih =>
    have hx : (x.id == id) = false := by
      simpa using h x (by simp)
    rw [findCategoryIndex, if_neg (by simp [hx]), ih (fun c hc => h c (by simp [hc]))]
    rfl

/-! ## Capacity-scan lemmas -/

theorem taskSizesSum_nil : taskSizesSum [] = 0 := rfl

theorem taskSizesSum_cons (t : Task) (ts : List Task) :
    taskSizesSum (t :: ts) = t.size + taskSizesSum ts := by
  simp [taskSizesSum]

theorem taskSizesSum_append (l1 l2 : List Task) :
    taskSizesSum (l1 ++ l2) = taskSizesSum l1 + taskSizesSum l2 := by
  simp [taskSizesSum]

theorem capacityScan_none_sum {l : List Task} {a : Int}
    (h : capacityScan a l = none) (hle : a ≤ ColumnCapacity) :
    a + taskSizesSum l ≤ ColumnCapacity := by
  induction l generalizing a with
  | nil => simpa [taskSizesSum] using hle
  | cons t ts ih =>
    rw [capacityScan] at h
    by_cases hgt : a + t.size > ColumnCapacity
    · rw [if_pos hgt] at h
      exact absurd h (by simp)
    · rw [if_neg hgt] at h
      have h2 := ih h (by omega)
      rw [taskSizesSum_cons]
      omega

theorem capacityScan_some_of {l : List Task} {a : Int}
    (hnn : ∀ t ∈ l, 0 ≤ t.size) (hle : a ≤ ColumnCapacity)
    (hgt : a + taskSizesSum l > ColumnCapacity) :
    capacityScan a l = some .capacityExceeded := by
  induction l generalizing a with
  | nil =>
    rw [taskSizesSum_nil] at hgt
    omega
  | cons t ts ih =>
    rw [capacityScan]
    by_cases hc : a + t.size > ColumnCapacity
    · rw [if_pos hc]
    · rw [if_neg hc]
      rw [taskSizesSum_cons] at hgt
      exact ih (fun u hu => hnn u (by simp [hu])) (by omega) (by omega)

theorem capacityScan_some_err {l : List Task} {total : Int} {e : BErr}
    (h : capacityScan total l = some e) : e = .capacityExceeded := by
  induction l generalizing total with
  | nil => simp [capacityScan] at h
  | cons t ts ih =>
    rw [capacityScan] at h
    by_cases hc : total + t.size > ColumnCapacity
    · rw [if_pos hc] at h
      simp only [Option.some.injEq] at h
      exact h.symm
    · rw [if_neg hc] at h
      exact ih h

theorem ensureCapacity_none_points {c : Category}
    (h : ensureCapacity c = none) : catPoints c ≤ ColumnCapacity := by
  have h2 := capacityScan_none_sum (l := c.tasks) (a := 0) h (by norm_num [ColumnCapacity])
  simpa [catPoints] using h2

theorem ensureCapacity_some_of {c : Category}
    (hnn : ∀ t ∈ c.tasks, 0 ≤ t.size) (hgt : catPoints c > ColumnCapacity) :
    ensureCapacity c = some .capacityExceeded := by
  have h2 := capacityScan_some_of (l := c.tasks) (a := 0) hnn
    (by norm_num [ColumnCapacity]) (by simpa [catPoints] using hgt)
  simpa [ensureCapacity] using h2

/-! ## findTask-level characterisations -/

theorem findTask_ok_spec {s : BoardState} {id : String} {t : Task} {loc : TaskLoc}
    (h : findTask s id = .ok (t, loc)) :
    getTaskAt s loc = some t ∧ t.id = id ∧
      (loc.kind = LocationCategory ∨ loc.kind = LocationBackburner ∨ loc.kind = LocationArchive) := by
  match hc : findInCats s.categories id with
  | some (ci, ti, u) =>
    simp only [findTask, hc, Except.ok.injEq, Prod.mk.injEq] at h
    obtain ⟨h1, h2⟩ := h
    subst h1
    subst h2
    obtain ⟨c, g1, g2, g3⟩ := findInCats_some hc
    refine ⟨?_, g3, Or.inl rfl⟩
    simp only [List.get?_eq_getElem?] at g1 g2
    simp [getTaskAt, LocationCategory, LocationBackburner, LocationArchive,
      List.get?_eq_getElem?, g1, g2]
  | none =>
    match hb : findInTasks s.backburner id with
    | some (i, u) =>
      simp only [findTask, hc, hb, Except.ok.injEq, Prod.mk.injEq] at h
      obtain ⟨h1, h2⟩ := h
      subst h1
      subst h2
      obtain ⟨g1, g2⟩ := findInTasks_some hb
      refine ⟨?_, g2, Or.inr (Or.inl rfl)⟩
      simp only [List.get?_eq_getElem?] at g1
      simp [getTaskAt, LocationCategory, LocationBackburner, LocationArchive,
        List.get?_eq_getElem?, g1]
    | none =>
      match ha : findInTasks s.archives id with
      | some (i, u) =>
        simp only [findTask, hc, hb, ha, Except.ok.injEq, Prod.mk.injEq] at h
        obtain ⟨h1, h2⟩ := h
        subst h1
        subst h2
        obtain ⟨g1, g2⟩ := findInTasks_some ha
        refine ⟨?_, g2, Or.inr (Or.inr rfl)⟩
        simp only [List.get?_eq_getElem?] at g1
        simp [getTaskAt, LocationCategory, LocationBackburner, LocationArchive,
          List.get?_eq_getElem?, g1]
      | none =>
        simp only [findTask, hc, hb, ha] at h
        exact Except.noConfusion h

theorem findTask_error_spec {s : BoardState} {id : String} {e : BErr}
    (h : findTask s id = .error e) : e = .taskNotFound := by
  match hc : findInCats s.categories id with
  | some (ci, ti, u) =>
    simp only [findTask, hc] at h
    exact Except.noConfusion h
  | none =>
    match hb : findInTasks s.backburner id with
    | some (i, u) =>
      simp only [findTask, hc, hb] at h
      exact Except.noConfusion h
    | none =>
      match ha : findInTasks s.archives id with
      | some (i, u) =>
        simp only [findTask, hc, hb, ha] at h
        exact Except.noConfusion h
      | none =>
        simp only [findTask, hc, hb, ha, Except.error.injEq] at h
        exact h.symm

theorem findTask_not_found_of {s : BoardState} {id : String}
    (hact : ∀ c ∈ s.categories, ∀ t ∈ c.tasks, t.id ≠ id)
    (hbb : ∀ t ∈ s.backburner, t.id ≠ id)
    (har : ∀ t ∈ s.archives, t.id ≠ id) :
    findTask s id = .error .taskNotFound := by
  simp only [findTask, findInCats_none_of hact, findInTasks_none_of hbb,
    findInTasks_none_of har]

/-! ## Concrete fixtures used by witnesses and counterexamples -/

/-- A small well-formed task for concrete boards. -/
def mkTask (i : String) (sz : Int) : Task :=
  { defaultTask with id := i, name := i, state := "todo", size := sz }

/-- Board with one active category, one backburner task and two archived
tasks. -/
def arcBoard : BoardState :=
  ⟨[⟨"c1", "One", [mkTask "a" 2]⟩], [mkTask "b" 1],
    [mkTask "d" 1, mkTask "e" 2], [], []⟩

/-- Board where moving `"a"` (size 3) into `"c2"` (already holding 4
points) must fail the capacity check; `"d"` is urgent in `"c2"`. -/
def capBoard : BoardState :=
  ⟨[⟨"c1", "One", [mkTask "a" 3, mkTask "b" 2]⟩,
    ⟨"c2", "Two", [{ mkTask "d" 4 with urgent := true }]⟩], [], [], [], []⟩

/-- Board whose only occurrence of task `"h"` is inside a parked category. -/
def parkedBoard : BoardState :=
  ⟨[], [], [], [⟨"p1", "Alpha", [mkTask "h" 1]⟩], []⟩

/-! ## Claim C8 -/

/-- C8: `DeleteTask(id)` permanently removes the task iff it currently
resides in the flat archives container; a task found in an active category
or the backburner yields the "not archived" error and the state is
unchanged; an ID not held by any scanned container yields `TaskNotFound`
with the state unchanged. -/
theorem C8_delete_only_from_archives (s : BoardState) (id : String) :
    (∀ t loc, findTask s id = .ok (t, loc) → loc.kind = LocationArchive →
        deleteTaskOp s id = ({ s with archives := s.archives.eraseIdx loc.taskIndex }, .ok ())) ∧
    (∀ t loc, findTask s id = .ok (t, loc) → loc.kind ≠ LocationArchive →
        deleteTaskOp s id = (s, .error (.notInArchive id))) ∧
    ((∀ c ∈ s.categories, ∀ t ∈ c.tasks, t.id ≠ id) →
      (∀ t ∈ s.backburner, t.id ≠ id) → (∀ t ∈ s.archives, t.id ≠ id) →
        deleteTaskOp s id = (s, .error .taskNotFound)) := by
  refine ⟨?_, ?_, ?_⟩
  · intro t loc h hk
    have hkb : (loc.kind != LocationArchive) = false := by
      rw [hk]
      simp
    simp only [deleteTaskOp, h, hkb, Bool.false_eq_true, if_neg, ite_false,
      removeTask, removeTaskAt, hk]
    simp [LocationArchive, LocationCategory, LocationBackburner]
  · intro t loc h hk
    have hkb : (loc.kind != LocationArchive) = true := by
      simpa using hk
    simp only [deleteTaskOp, h, hkb, ite_true]
  · intro hact hbb har
    have hf := findTask_not_found_of hact hbb har
    simp only [deleteTaskOp, hf]

/-- C8 witness: the three branches of `C8_delete_only_from_archives`
exercised on `arcBoard`. -/
theorem C8_delete_only_from_archives_witness :
    deleteTaskOp arcBoard "e" = ({ arcBoard with archives := arcBoard.archives.eraseIdx 1 }, .ok ()) ∧
    deleteTaskOp arcBoard "a" = (arcBoard, .error (.notInArchive "a")) ∧
    deleteTaskOp arcBoard "zz" = (arcBoard, .error .taskNotFound) :=
  ⟨(C8_delete_only_from_archives arcBoard "e").1 (mkTask "e" 2)
      ⟨LocationArchive, 0, 1⟩ (by decide) rfl,
   (C8_delete_only_from_archives arcBoard "a").2.1 (mkTask "a" 2)
      ⟨LocationCategory, 0, 0⟩ (by decide) (by decide),
   (C8_delete_only_from_archives arcBoard "zz").2.2 (by decide) (by decide) (by decide)⟩

/-! ## Claim C9 -/

/-- C9: a task ID that lives only inside a parked category (in
`CategoryBackburner` or `CategoryArchives`) is invisible to task lookup:
`UpdateTask`, `MoveTask`, `DeleteTask` and `SetFocused` (with a non-empty
ID, the empty string being the documented clear-focus sentinel) all return
`TaskNotFound` and leave the board unchanged. -/
theorem C9_parked_tasks_invisible (s : BoardState) (id : String) (p : TaskPatch)
    (dest : MoveTaskRequest)
    (hne : id ≠ "")
    (hact : ∀ c ∈ s.categories, ∀ t ∈ c.tasks, t.id ≠ id)
    (hbb : ∀ t ∈ s.backburner, t.id ≠ id)
    (har : ∀ t ∈ s.archives, t.id ≠ id)
    (hpark : ∃ c ∈ s.categoryBackburner ++ s.categoryArchives, ∃ t ∈ c.tasks, t.id = id) :
    updateTaskOp s id p = (s, .error .taskNotFound) ∧
    moveTaskOp s id dest = (s, .error .taskNotFound) ∧
    deleteTaskOp s id = (s, .error .taskNotFound) ∧
    setFocusedOp s id = (s, .error .taskNotFound) := by
  have hf := findTask_not_found_of hact hbb har
  refine ⟨?_, ?_, ?_, ?_⟩
  · simp only [updateTaskOp, hf]
  · simp only [moveTaskOp, removeTask, hf]
  · simp only [deleteTaskOp, hf]
  · have hb : (id == "") = false := by simpa using hne
    simp only [setFocusedOp, hb, Bool.false_eq_true, if_neg, ite_false, hf]

/-- C9 witness: all four operations on the parked-only task ID `"h"`. -/
theorem C9_parked_tasks_invisible_witness :
    updateTaskOp parkedBoard "h" emptyPatch = (parkedBoard, .error .taskNotFound) ∧
    moveTaskOp parkedBoard "h" ⟨"backburner", "", none, "", ""⟩ = (parkedBoard, .error .taskNotFound) ∧
    deleteTaskOp parkedBoard "h" = (parkedBoard, .error .taskNotFound) ∧
    setFocusedOp parkedBoard "h" = (parkedBoard, .error .taskNotFound) :=
  C9_parked_tasks_invisible parkedBoard "h" emptyPatch ⟨"backburner", "", none, "", ""⟩
    (by decide) (by decide) (by decide) (by decide) (by decide)

/-! ## Claim C10 -/

/-- C10 counterexample: for a category ID held only by a parked category,
(1) an all-whitespace new name yields `invalidRequest`, not
`CategoryNotFound` and not `DuplicateCategory`; (2) renaming to the parked
category's own current name — which does equal "some category's name" —
yields `CategoryNotFound`, not `DuplicateCategory` (the name scan skips the
category with the same ID). -/
theorem C10_rename_parked_counterexample :
    (renameCategoryOp parkedBoard "p1" " ").2 = .error (.invalidRequest "name cannot be empty") ∧
    (renameCategoryOp parkedBoard "p1" "Alpha").2 = .error .categoryNotFound ∧
    (∃ c ∈ parkedBoard.categoryBackburner, c.name = "Alpha") := by
  refine ⟨by decide, by decide, ?_⟩
  exact ⟨⟨"p1", "Alpha", [mkTask "h" 1]⟩, by decide, rfl⟩

/-- C10 (amended): for an ID held only off-board, `RenameCategory` fails —
with `InvalidRequest` when the trimmed name is empty, with
`DuplicateCategory` when the trimmed name equals the name of a category
with a DIFFERENT ID in any of the three category containers, and with
`CategoryNotFound` otherwise (in particular when the name only matches the
parked category itself) — and the state is unchanged in every case. -/
theorem C10_rename_parked_amended (s : BoardState) (id name : String)
    (hb : findCategoryIndex s.categories id = none)
    (hpark : ∃ c ∈ s.categoryBackburner ++ s.categoryArchives, c.id = id) :
    (trimSpace name = "" →
      renameCategoryOp s id name = (s, .error (.invalidRequest "name cannot be empty"))) ∧
    (trimSpace name ≠ "" →
      ((∃ c ∈ s.categories ++ s.categoryBackburner ++ s.categoryArchives,
          c.name = trimSpace name ∧ c.id ≠ id) →
        renameCategoryOp s id name = (s, .error .duplicateCategory)) ∧
      ((∀ c ∈ s.categories ++ s.categoryBackburner ++ s.categoryArchives,
          ¬(c.name = trimSpace name ∧ c.id ≠ id)) →
        renameCategoryOp s id name = (s, .error .categoryNotFound))) := by
  have hprop : ∀ c : Category,
      ((fun c => c.name == trimSpace name && c.id != id) c = true) ↔
        (c.name = trimSpace name ∧ c.id ≠ id) := by
    intro c
    simp [Bool.and_eq_true, beq_iff_eq, bne_iff_ne]
  constructor
  · intro he
    have hbe : (trimSpace name == "") = true := by simpa using he
    simp only [renameCategoryOp, hbe, ite_true]
  · intro hne
    have hbe : (trimSpace name == "") = false := by simpa using hne
    constructor
    · intro hdup
      obtain ⟨c, hc, hcp⟩ := hdup
      have hcb := (hprop c).mpr hcp
      by_cases h1 : (s.categories.any (fun c => c.name == trimSpace name && c.id != id)) = true
      · simp only [renameCategoryOp, hbe, Bool.false_eq_true, if_neg, ite_false, h1, ite_true]
      · by_cases h2 : (s.categoryBackburner.any (fun c => c.name == trimSpace name && c.id != id)) = true
        · simp only [Bool.not_eq_true] at h1
          simp only [renameCategoryOp, hbe, h1, h2, Bool.false_eq_true, if_neg, ite_false, ite_true]
        · have h3 : (s.categoryArchives.any (fun c => c.name == trimSpace name && c.id != id)) = true := by
            rcases List.mem_append.mp hc with hc12 | hc4
            · rcases List.mem_append.mp hc12 with hc1 | hc3
              · exact absurd (List.any_eq_true.mpr ⟨c, hc1, hcb⟩) h1
              · exact absurd (List.any_eq_true.mpr ⟨c, hc3, hcb⟩) h2
            · exact List.any_eq_true.mpr ⟨c, hc4, hcb⟩
          simp only [Bool.not_eq_true] at h1 h2
          simp only [renameCategoryOp, hbe, h1, h2, h3, Bool.false_eq_true, if_neg, ite_false, ite_true]
    · intro hnodup
      have hanyf : ∀ l : List Category, (∀ c ∈ l, ¬(c.name = trimSpace name ∧ c.id ≠ id)) →
          (l.any (fun c => c.name == trimSpace name && c.id != id)) = false := by
        intro l hl
        rw [List.any_eq_false]
        intro c hc hx
        exact hl c hc ((hprop c).mp hx)
      have h1 := hanyf s.categories (fun c hc => hnodup c (by simp [hc]))
      have h2 := hanyf s.categoryBackburner (fun c hc => hnodup c (by simp [hc]))
      have h3 := hanyf s.categoryArchives (fun c hc => hnodup c (by simp [hc]))
      simp only [renameCategoryOp, hbe, h1, h2, h3, Bool.false_eq_true, if_neg, ite_false, hb]


/-- C10 witness for the amended theorem: both failure classes on a parked
category, with the board unchanged. -/
theorem C10_rename_parked_amended_witness :
    renameCategoryOp parkedBoard "p1" " " = (parkedBoard, .error (.invalidRequest "name cannot be empty")) ∧
    renameCategoryOp parkedBoard "p1" "Beta" = (parkedBoard, .error .categoryNotFound) :=
  ⟨(C10_rename_parked_amended parkedBoard "p1" " " (by decide)
      ⟨⟨"p1", "Alpha", [mkTask "h" 1]⟩, by decide, rfl⟩).1 (by decide),
   ((C10_rename_parked_amended parkedBoard "p1" "Beta" (by decide)
      ⟨⟨"p1", "Alpha", [mkTask "h" 1]⟩, by decide, rfl⟩).2 (by decide)).2 (by decide)⟩

/-! ## getTaskAt destructuring -/

theorem getTaskAt_category {s : BoardState} {loc : TaskLoc} {t : Task}
    (h : getTaskAt s loc = some t) (hk : loc.kind = LocationCategory) :
    ∃ c, s.categories.get? loc.categoryIndex = some c ∧
      c.tasks.get? loc.taskIndex = some t := by
  simp only [getTaskAt, hk, LocationCategory, LocationBackburner, LocationArchive] at h
  rw [if_pos (by simp)] at h
  cases hcg : s.categories.get? loc.categoryIndex with
  | none =>
    rw [hcg] at h
    simp at h
  | some c =>
    rw [hcg] at h
    simp only [Option.map_some', Option.bind_eq_bind, Option.some_bind] at h
    exact ⟨c, rfl, h⟩

theorem getTaskAt_backburner {s : BoardState} {loc : TaskLoc} {t : Task}
    (h : getTaskAt s loc = some t) (hk : loc.kind = LocationBackburner) :
    s.backburner.get? loc.taskIndex = some t := by
  simp only [getTaskAt, hk, LocationCategory, LocationBackburner, LocationArchive] at h
  rw [if_neg (by simp), if_pos (by simp)] at h
  exact h

theorem getTaskAt_archive {s : BoardState} {loc : TaskLoc} {t : Task}
    (h : getTaskAt s loc = some t) (hk : loc.kind = LocationArchive) :
    s.archives.get? loc.taskIndex = some t := by
  simp only [getTaskAt, hk, LocationCategory, LocationBackburner, LocationArchive] at h
  rw [if_neg (by simp), if_neg (by simp), if_pos (by simp)] at h
  exact h

/-! ## Claim C4 -/

/-- A patch that only renames (never touches the urgent flag). -/
def namePatch : TaskPatch := { emptyPatch with name := some "zz" }

/-- Board with one active category holding non-urgent `"e"` and urgent
`"f"`. -/
def urgBoard : BoardState :=
  ⟨[⟨"c3", "Three", [mkTask "e" 1, { mkTask "f" 1 with urgent := true }]⟩], [], [], [], []⟩

/-- C4 counterexample: updating task `"e"` (not urgent before or after the
patch, and the patch does not mention the urgent field) succeeds and CLEARS
the urgent flag of the other task `"f"` in the same category — the claim
said other tasks' urgent flags are unchanged. -/
theorem C4_urgent_frame_counterexample :
    (updateTaskOp urgBoard "e" namePatch).2 = .ok { mkTask "e" 1 with name := "zz" } ∧
    namePatch.urgent = none ∧
    ((urgBoard.categories.headD defaultCategory).tasks.getD 1 defaultTask).urgent = true ∧
    (((updateTaskOp urgBoard "e" namePatch).1.categories.headD defaultCategory).tasks.getD 1
        defaultTask).urgent = false := by
  refine ⟨by decide, rfl, by decide, by decide⟩

/-- C4 (amended): when `UpdateTask` patches a task found in an active
category and the task is NOT urgent after the patch, the operation runs
`normalizeUrgent` with an empty ID over that category: EVERY task in the
category ends with `urgent = (its ID == "")` — i.e. cleared for every
task with a non-empty ID, whether or not it was urgent before.  Other
categories and the other containers are untouched. -/
theorem C4_update_urgent_normalizes (s : BoardState) (id : String) (p : TaskPatch)
    (t : Task) (loc : TaskLoc)
    (hf : findTask s id = .ok (t, loc))
    (hkind : loc.kind = LocationCategory)
    (hpe : (applyPatch p t).2 = none)
    (hnu : (applyPatch p t).1.urgent = false) :
    (∀ c', (updateTaskOp s id p).1.categories.get? loc.categoryIndex = some c' →
        ∀ x ∈ c'.tasks, x.urgent = (x.id == "")) ∧
    (∀ j, j ≠ loc.categoryIndex →
        (updateTaskOp s id p).1.categories.get? j = s.categories.get? j) ∧
    (updateTaskOp s id p).1.backburner = s.backburner ∧
    (updateTaskOp s id p).1.archives = s.archives ∧
    (updateTaskOp s id p).1.categoryBackburner = s.categoryBackburner ∧
    (updateTaskOp s id p).1.categoryArchives = s.categoryArchives := by
  have hkb : (loc.kind == LocationCategory) = true := by
    rw [hkind]
    simp
  obtain ⟨hget, -, -⟩ := findTask_ok_spec hf
  obtain ⟨c, hcg, hct⟩ := getTaskAt_category hget hkind
  have hfst : (updateTaskOp s id p).1 =
      normalizeUrgent (setTaskAt s loc (applyPatch p t).1) loc.categoryIndex "" := by
    simp only [updateTaskOp, hf, hpe, hnu, hkb, Bool.false_eq_true, if_neg, ite_true, ite_false]
    cases hcap : ensureCapacity (((normalizeUrgent (setTaskAt s loc (applyPatch p t).1)
        loc.categoryIndex "").categories.get? loc.categoryIndex).getD defaultCategory) with
    | none => rfl
    | some e => rfl
  have hset : setTaskAt s loc (applyPatch p t).1 = { s with categories := listModify (fun c => { c with tasks := c.tasks.set loc.taskIndex (applyPatch p t).1 }) loc.categoryIndex s.categories } := by
    simp only [setTaskAt, hkb, ite_true]
  rw [hfst, hset]
  simp only [normalizeUrgent]
  refine ⟨?_, ?_, trivial, trivial, trivial, trivial⟩
  · intro c' hc' x hx
    have h1 : (listModify (fun c => { c with tasks := c.tasks.set loc.taskIndex (applyPatch p t).1 }) loc.categoryIndex s.categories).get? loc.categoryIndex = some { c with tasks := c.tasks.set loc.taskIndex (applyPatch p t).1 } :=
      listModify_get_self _ _ _ _ hcg
    rw [listModify_get_self _ _ _ _ h1] at hc'
    injection hc' with hc2
    subst hc2
    simp only [List.mem_map] at hx
    obtain ⟨y, hy, hxy⟩ := hx
    subst hxy
    rfl
  · intro j hj
    rw [listModify_get_ne _ _ _ _ hj, listModify_get_ne _ _ _ _ hj]

/-! ## Claim C5 support -/

theorem get?_lt {α : Type} {l : List α} {i : Nat} {a : α}
    (h : l.get? i = some a) : i < l.length := by
  rcases List.get?_eq_some.mp h with ⟨hl, -⟩
  exact hl

theorem listModify_get_i {α : Type} (f : α → α) (i : Nat) (l : List α) :
    (listModify f i l).get? i = (l.get? i).map f := by
  cases hg : l.get? i with
  | some a =>
    rw [listModify_get_self f i l a hg]
    rfl
  | none =>
    cases hg2 : (listModify f i l).get? i with
    | none => rfl
    | some b =>
      have h1 : i < (listModify f i l).length := get?_lt hg2
      rw [listModify_length] at h1
      have h2 : l.get? i ≠ none := by
        intro hc
        rw [List.get?_eq_none] at hc
        omega
      exact absurd hg h2

theorem get_append_singleton {α : Type} (l : List α) (a : α) :
    (l ++ [a]).get? l.length = some a := by
  induction l with
  | nil => rfl
  | cons x xs ih => exact ih

theorem insertIndexFor_le (pos : Option Int) (n : Nat) : insertIndexFor pos n ≤ n := by
  cases pos with
  | none => exact Nat.le_refl n
  | some p =>
    simp only [insertIndexFor]
    by_cases hg : (0 ≤ p && p ≤ (n : Int)) = true
    · rw [if_pos hg]
      simp only [Bool.and_eq_true, decide_eq_true_eq] at hg
      exact Int.toNat_le.mpr hg.2
    · rw [if_neg hg]

theorem removeTask_eq_of_find {s : BoardState} {id : String} {t : Task} {loc : TaskLoc}
    (hf : findTask s id = .ok (t, loc)) :
    removeTask s id = .ok (t, loc, removeTaskAt s loc) := by
  simp only [removeTask, hf]

/-- Error results of `placeTaskInCategory` leave the state exactly
urgent-normalised (the splice is rolled back; the normalisation is not). -/
theorem placeTaskInCategory_error {s : BoardState} {task0 : Task} {dest : MoveTaskRequest}
    {idx : Nat} {s2 : BoardState} {e : BErr} {c : Category}
    (hidx : s.categories.get? idx = some c)
    (h : placeTaskInCategory s task0 dest idx = (s2, some e)) :
    ∃ u, s2 = normalizeUrgent s idx u := by
  simp only [placeTaskInCategory] at h
  set u := if task0.urgent then task0.id else "" with hu
  have hs2n : (if task0.urgent = true then normalizeUrgent s idx task0.id
      else normalizeUrgent s idx "") = normalizeUrgent s idx u := by
    cases hub : task0.urgent <;> simp [hu, hub]
  rw [hs2n] at h
  set c2 : Category := { c with tasks := c.tasks.map (fun t => { t with urgent := t.id == u }) } with hc2
  have hcat2g : (normalizeUrgent s idx u).categories.get? idx = some c2 := by
    simp only [normalizeUrgent]
    have hls := listModify_get_self
      (fun c => { c with tasks := c.tasks.map (fun t => { t with urgent := t.id == u }) })
      idx s.categories c hidx
    rw [hc2]
    exact hls
  simp only [hidx, hcat2g, Option.getD_some] at h
  have hc2len : c2.tasks.length = c.tasks.length := by
    rw [hc2]
    simp
  have hk : insertIndexFor dest.position c.tasks.length ≤ c2.tasks.length := by
    rw [hc2len]
    exact insertIndexFor_le _ _
  split at h
  next e2 hcap =>
    refine ⟨u, ?_⟩
    have h1 := congrArg Prod.fst h
    simp only at h1
    rw [listInsertIdx_eraseIdx _ _ _ hk] at h1
    rw [list_set_self _ _ _ hcat2g] at h1
    exact h1.symm
  next hcap =>
    exact absurd (congrArg Prod.snd h) (by simp)

theorem placeTask_error_state {s : BoardState} {task : Task} {dest0 : MoveTaskRequest}
    {s2 : BoardState} {e : BErr}
    (h : placeTask s task dest0 = (s2, some e)) :
    s2 = s ∨ ∃ idx u, s2 = normalizeUrgent s idx u := by
  simp only [placeTask] at h
  cases hv : moveReqValidate (moveReqNormalize dest0) with
  | some e2 =>
    rw [hv] at h
    exact Or.inl (congrArg Prod.fst h).symm
  | none =>
    rw [hv] at h
    by_cases hl1 : ((moveReqNormalize dest0).location == TwentyFive.LocationCategory) = true
    · rw [if_pos hl1] at h
      cases hfi : findCategoryIndex s.categories (moveReqNormalize dest0).categoryId with
      | none =>
        rw [hfi] at h
        exact Or.inl (congrArg Prod.fst h).symm
      | some idx =>
        rw [hfi] at h
        obtain ⟨c, hc, -⟩ := findCategoryIndex_some hfi
        obtain ⟨u, hu⟩ := placeTaskInCategory_error hc h
        exact Or.inr ⟨idx, u, hu⟩
    · rw [if_neg hl1] at h
      by_cases hl2 : ((moveReqNormalize dest0).location == TwentyFive.LocationBackburner) = true
      · rw [if_pos hl2] at h
        exact absurd (congrArg Prod.snd h) (by simp)
      · rw [if_neg hl2] at h
        by_cases hl3 : ((moveReqNormalize dest0).location == TwentyFive.LocationArchive) = true
        · rw [if_pos hl3] at h
          exact absurd (congrArg Prod.snd h) (by simp)
        · rw [if_neg hl3] at h
          exact Or.inl (congrArg Prod.fst h).symm

theorem restoreTask_get_cat {s : BoardState} {t : Task} {loc : TaskLoc} {c2 : Category}
    (hk : loc.kind = LocationCategory)
    (hc : s.categories.get? loc.categoryIndex = some c2)
    (hti : loc.taskIndex ≤ c2.tasks.length) :
    getTaskAt (restoreTask s t loc) loc = some t := by
  have hkb : (loc.kind == LocationCategory) = true := by rw [hk]; simp
  simp only [restoreTask, hkb, ite_true, getTaskAt]
  rw [listModify_get_self _ _ _ _ hc]
  simp only [Option.map_some', Option.bind_eq_bind, Option.some_bind]
  by_cases hge : loc.taskIndex ≥ c2.tasks.length
  · rw [if_pos hge]
    have : loc.taskIndex = c2.tasks.length := Nat.le_antisymm hti hge
    rw [this]
    exact get_append_singleton _ _
  · rw [if_neg hge]
    exact listInsertIdx_get_self _ _ _ hti

theorem restoreTask_get_bb {s : BoardState} {t : Task} {loc : TaskLoc}
    (hk : loc.kind = LocationBackburner)
    (hti : loc.taskIndex ≤ s.backburner.length) :
    getTaskAt (restoreTask s t loc) loc = some t := by
  have hkb : (loc.kind == LocationBackburner) = true := by rw [hk]; simp
  have hkc : (loc.kind == LocationCategory) = false := by rw [hk]; simp [LocationBackburner, LocationCategory]
  simp only [restoreTask, hkc, Bool.false_eq_true, if_neg, ite_false, hkb, ite_true, getTaskAt]
  exact listInsertIdx_get_self _ _ _ hti

theorem restoreTask_get_ar {s : BoardState} {t : Task} {loc : TaskLoc}
    (hk : loc.kind = LocationArchive)
    (hti : loc.taskIndex ≤ s.archives.length) :
    getTaskAt (restoreTask s t loc) loc = some t := by
  have hka : (loc.kind == LocationArchive) = true := by rw [hk]; simp
  have hkc : (loc.kind == LocationCategory) = false := by rw [hk]; simp [LocationArchive, LocationCategory]
  have hkbb : (loc.kind == LocationBackburner) = false := by rw [hk]; simp [LocationArchive, LocationBackburner]
  simp only [restoreTask, hkc, hkbb, Bool.false_eq_true, if_neg, ite_false, hka, ite_true, getTaskAt]
  exact listInsertIdx_get_self _ _ _ hti

/-! ## Claim C5 -/

/-- C5: whenever `MoveTask` fails the capacity check, the moved task is
found again at its exact original container and index (as reported by the
original `findTask`) holding its exact original field values. -/
theorem C5_move_capacity_restores (s : BoardState) (id : String) (dest : MoveTaskRequest)
    (herr : (moveTaskOp s id dest).2 = .error .capacityExceeded) :
    ∃ t loc, findTask s id = .ok (t, loc) ∧
      getTaskAt (moveTaskOp s id dest).1 loc = some t := by
  match hf : findTask s id with
  | .error e =>
    have hre : removeTask s id = .error .taskNotFound := by simp [removeTask, hf]
    simp only [moveTaskOp, hre] at herr
    exact absurd herr (by simp [findTask_error_spec hf])
  | .ok (t, loc) =>
    have hre := removeTask_eq_of_find hf
    refine ⟨t, loc, rfl, ?_⟩
    cases hp : placeTask (removeTaskAt s loc) t (autoSource (removeTaskAt s loc) loc dest) with
    | mk s2 oe =>
      cases oe with
      | none =>
        simp only [moveTaskOp, hre, hp] at herr
        exact absurd herr (by simp)
      | some e =>
        simp only [moveTaskOp, hre, hp] at herr ⊢
        obtain ⟨hget, hid, hkinds⟩ := findTask_ok_spec hf
        have hshape := placeTask_error_state hp
        rcases hkinds with hk | hk | hk
        · -- the task came from an active category
          obtain ⟨c, hcg, hct⟩ := getTaskAt_category hget hk
          have hkb : (loc.kind == LocationCategory) = true := by rw [hk]; simp
          set E : Category := { c with tasks := c.tasks.eraseIdx loc.taskIndex } with hE
          have hrm : (removeTaskAt s loc).categories.get? loc.categoryIndex = some E := by
            simp only [removeTaskAt, hkb, ite_true]
            have hls := listModify_get_self
              (fun c => { c with tasks := c.tasks.eraseIdx loc.taskIndex })
              loc.categoryIndex s.categories c hcg
            rw [hE]
            exact hls
          have hlt : loc.taskIndex < c.tasks.length := get?_lt hct
          have hElen : E.tasks.length = c.tasks.length - 1 := by
            rw [hE]
            simp [List.length_eraseIdx, hlt]
          rcases hshape with heq | ⟨idx, u, heq⟩
          · rw [heq]
            exact restoreTask_get_cat hk hrm (by omega)
          · rw [heq]
            by_cases hji : loc.categoryIndex = idx
            · have hg2 : (normalizeUrgent (removeTaskAt s loc) idx u).categories.get? loc.categoryIndex =
                  some { E with tasks := E.tasks.map (fun t => { t with urgent := t.id == u }) } := by
                simp only [normalizeUrgent]
                rw [hji]
                rw [hji] at hrm
                exact listModify_get_self _ _ _ _ hrm
              refine restoreTask_get_cat hk hg2 ?_
              simp only [List.length_map, hE]
              rw [List.length_eraseIdx, if_pos hlt]
              omega
            · have hg2 : (normalizeUrgent (removeTaskAt s loc) idx u).categories.get? loc.categoryIndex = some E := by
                simp only [normalizeUrgent]
                rw [listModify_get_ne _ _ _ _ hji]
                exact hrm
              exact restoreTask_get_cat hk hg2 (by omega)
        · -- the task came from the backburner
          have hbg := getTaskAt_backburner hget hk
          have hlt : loc.taskIndex < s.backburner.length := get?_lt hbg
          have hkc : (loc.kind == LocationCategory) = false := by
            rw [hk]
            simp [LocationBackburner, LocationCategory]
          have hkbb : (loc.kind == LocationBackburner) = true := by rw [hk]; simp
          have hrm : (removeTaskAt s loc).backburner = s.backburner.eraseIdx loc.taskIndex := by
            simp only [removeTaskAt, hkc, Bool.false_eq_true, if_neg, ite_false, hkbb, ite_true]
          have hs2bb : s2.backburner = (removeTaskAt s loc).backburner := by
            rcases hshape with heq | ⟨idx, u, heq⟩
            · rw [heq]
            · rw [heq]
              rfl
          refine restoreTask_get_bb hk ?_
          rw [hs2bb, hrm, List.length_eraseIdx]
          rw [if_pos hlt]
          omega
        · -- the task came from the archives
          have hag := getTaskAt_archive hget hk
          have hlt : loc.taskIndex < s.archives.length := get?_lt hag
          have hkc : (loc.kind == LocationCategory) = false := by
            rw [hk]
            simp [LocationArchive, LocationCategory]
          have hkbb : (loc.kind == LocationBackburner) = false := by
            rw [hk]
            simp [LocationArchive, LocationBackburner]
          have hka : (loc.kind == LocationArchive) = true := by rw [hk]; simp
          have hrm : (removeTaskAt s loc).archives = s.archives.eraseIdx loc.taskIndex := by
            simp only [removeTaskAt, hkc, hkbb, Bool.false_eq_true, if_neg, ite_false, hka, ite_true]
          have hs2ar : s2.archives = (removeTaskAt s loc).archives := by
            rcases hshape with heq | ⟨idx, u, heq⟩
            · rw [heq]
            · rw [heq]
              rfl
          refine restoreTask_get_ar hk ?_
          rw [hs2ar, hrm, List.length_eraseIdx]
          rw [if_pos hlt]
          omega

/-- C5 witness: moving `"a"` (size 3) into the full category `"c2"` fails
the capacity check and the task is found again at its original address. -/
theorem C5_move_capacity_restores_witness :
    ∃ t loc, findTask capBoard "a" = .ok (t, loc) ∧
      getTaskAt (moveTaskOp capBoard "a" ⟨"category", "c2", none, "", ""⟩).1 loc = some t :=
  C5_move_capacity_restores capBoard "a" ⟨"category", "c2", none, "", ""⟩ (by decide)

/-! ## Reorder machinery (claim C7) -/

theorem get?_set_self_of_lt {α : Type} {l : List α} {i : Nat} (a : α)
    (h : i < l.length) : (l.set i a).get? i = some a := by
  rw [List.get?_eq_getElem?]
  exact List.getElem?_set_self h

theorem lastIndexOf_get {l : List String} {x : String} {k : Nat}
    (h : lastIndexOf l x = some k) : l.get? k = some x := by
  induction l generalizing k with
  | nil => simp [lastIndexOf] at h
  | cons a l ih =>
    rw [lastIndexOf] at h
    cases hl : lastIndexOf l x with
    | some k2 =>
      rw [hl] at h
      injection h with h1
      subst h1
      exact ih hl
    | none =>
      rw [hl] at h
      by_cases ha : (a == x) = true
      · rw [if_pos ha] at h
        injection h with h1
        subst h1
        rw [List.get?_cons_zero]
        exact congrArg some (by simpa using ha)
      · rw [if_neg ha] at h
        exact Option.noConfusion h

theorem lastIndexOf_isSome_of_mem {l : List String} {x : String}
    (h : x ∈ l) : ∃ k, lastIndexOf l x = some k := by
  induction l with
  | nil => simp at h
  | cons a l ih =>
    rw [lastIndexOf]
    cases hl : lastIndexOf l x with
    | some k2 => exact ⟨k2 + 1, rfl⟩
    | none =>
      rcases List.mem_cons.mp h with h1 | h2
      · subst h1
        exact ⟨0, by simp⟩
      · obtain ⟨k, hk⟩ := ih h2
        rw [hk] at hl
        exact Option.noConfusion hl

theorem lastIndexOf_nodup {l : List String} {x : String} {k : Nat}
    (hnd : l.Nodup) (h : l.get? k = some x) : lastIndexOf l x = some k := by
  obtain ⟨k2, hk2⟩ := lastIndexOf_isSome_of_mem (List.get?_mem h)
  have h2 := lastIndexOf_get hk2
  have : k = k2 := List.get?_inj (get?_lt h) hnd (by rw [h, h2])
  subst this
  exact hk2

theorem find_by_id {ts : List Task} (hnd : (ts.map Task.id).Nodup) {t : Task}
    (ht : t ∈ ts) : ts.find? (fun x => x.id == t.id) = some t := by
  induction ts with
  | nil => simp at ht
  | cons y ys ih =>
    by_cases hy : (y.id == t.id) = true
    · rw [List.find?_cons_of_pos (p := fun x => x.id == t.id) ys hy]
      have hyt : y = t :=
        List.inj_on_of_nodup_map hnd (by simp) (by exact ht) (by simpa using hy)
      rw [hyt]
    · rw [List.find?_cons_of_neg (p := fun x => x.id == t.id) ys hy]
      rcases List.mem_cons.mp ht with h1 | h2
      · exact absurd (by rw [h1]; simp) hy
      · exact ih (by simpa using (List.map_cons Task.id y ys ▸ hnd).of_cons) h2

theorem fillReordered_length {index : String → Option Nat} {ts acc r : List Task}
    (h : fillReordered index acc ts = .ok r) : r.length = acc.length := by
  induction ts generalizing acc with
  | nil =>
    rw [fillReordered] at h
    injection h with h1
    rw [← h1]
  | cons t ts ih =>
    rw [fillReordered] at h
    cases hi : index t.id with
    | some k =>
      rw [hi] at h
      have h2 := ih h
      rwa [List.length_set] at h2
    | none =>
      rw [hi] at h
      exact Except.noConfusion h

theorem fillReordered_ok_mem {index : String → Option Nat} {ts acc r : List Task}
    (h : fillReordered index acc ts = .ok r) : ∀ t ∈ ts, ∃ k, index t.id = some k := by
  induction ts generalizing acc with
  | nil => simp
  | cons t ts ih =>
    rw [fillReordered] at h
    cases hi : index t.id with
    | some k =>
      rw [hi] at h
      intro u hu
      rcases List.mem_cons.mp hu with h1 | h2
      · subst h1
        exact ⟨k, hi⟩
      · exact ih h u h2
    | none =>
      rw [hi] at h
      exact Except.noConfusion h

theorem fillReordered_ok_of {index : String → Option Nat} {ts : List Task}
    (h : ∀ t ∈ ts, ∃ k, index t.id = some k) (acc : List Task) :
    ∃ r, fillReordered index acc ts = .ok r := by
  induction ts generalizing acc with
  | nil => exact ⟨acc, rfl⟩
  | cons t ts ih =>
    obtain ⟨k, hk⟩ := h t (by simp)
    rw [fillReordered, hk]
    exact ih (fun u hu => h u (by simp [hu])) (acc.set k t)

theorem fillReordered_error_shape {index : String → Option Nat} {ts acc : List Task}
    {e : BErr} (h : fillReordered index acc ts = .error e) :
    ∃ m, e = .invalidRequest m := by
  induction ts generalizing acc with
  | nil =>
    rw [fillReordered] at h
    exact Except.noConfusion h
  | cons t ts ih =>
    rw [fillReordered] at h
    cases hi : index t.id with
    | some k =>
      rw [hi] at h
      exact ih h
    | none =>
      rw [hi] at h
      injection h with h1
      exact ⟨_, h1.symm⟩

theorem fillReordered_get_untouched {index : String → Option Nat} {ts acc r : List Task}
    {j : Nat} (h : fillReordered index acc ts = .ok r)
    (hnone : ∀ t ∈ ts, index t.id ≠ some j) :
    r.get? j = acc.get? j := by
  induction ts generalizing acc with
  | nil =>
    rw [fillReordered] at h
    injection h with h1
    rw [← h1]
  | cons t ts ih =>
    rw [fillReordered] at h
    cases hi : index t.id with
    | none =>
      rw [hi] at h
      exact Except.noConfusion h
    | some k =>
      rw [hi] at h
      have hne : k ≠ j := fun hc => hnone t (by simp) (hc ▸ hi)
      rw [ih h (fun u hu => hnone u (by simp [hu]))]
      exact List.get?_set_ne _ _ hne

theorem fillReordered_get_hit {index : String → Option Nat} {ts acc r : List Task}
    {j : Nat} {t : Task} (h : fillReordered index acc ts = .ok r)
    (ht : t ∈ ts) (hj : index t.id = some j) (hjlen : j < acc.length)
    (huniq : ∀ u ∈ ts, index u.id = some j → u = t) :
    r.get? j = some t := by
  revert h ht hjlen huniq
  induction ts generalizing acc with
  | nil =>
    intro h ht hjlen huniq
    simp at ht
  | cons x ts ih =>
    intro h ht hjlen huniq
    rw [fillReordered] at h
    cases hi : index x.id with
    | none =>
      rw [hi] at h
      exact Except.noConfusion h
    | some k =>
      rw [hi] at h
      by_cases hxin : ∃ u ∈ ts, index u.id = some j
      · obtain ⟨u, hu, hju⟩ := hxin
        have hut : u = t := huniq u (by simp [hu]) hju
        subst hut
        exact ih h hu (by rwa [List.length_set])
          (fun v hv hjv => huniq v (by simp [hv]) hjv)
      · push_neg at hxin
        have hxt : x = t := by
          rcases List.mem_cons.mp ht with h1 | h2
          · exact h1.symm
          · exact absurd hj (hxin t h2)
        subst hxt
        have hkj : k = j := by
          rw [hj] at hi
          injection hi with h1
          exact h1.symm
        subst hkj
        rw [fillReordered_get_untouched h (fun u hu => hxin u hu)]
        exact get?_set_self_of_lt x hjlen

theorem reorderTasks_ok_spec {c : Category} {order : List String} {r : List Task}
    (hnd : (c.tasks.map Task.id).Nodup)
    (h : reorderTasks c order = .ok r) :
    r.length = c.tasks.length ∧ order.Perm (c.tasks.map Task.id) ∧ r.Perm c.tasks ∧
    ∀ j oid, order.get? j = some oid →
      r.get? j = c.tasks.find? (fun x => x.id == oid) := by
  rw [reorderTasks] at h
  by_cases hlen : (order.length != c.tasks.length) = true
  · rw [if_pos hlen] at h
    exact Except.noConfusion h
  · rw [if_neg hlen] at h
    have hlen2 : order.length = c.tasks.length := by simpa using hlen
    have hrl : r.length = c.tasks.length := by
      have h2 := fillReordered_length h
      rwa [List.length_replicate] at h2
    have hids := fillReordered_ok_mem h
    have hsub : (c.tasks.map Task.id) ⊆ order := by
      intro oid hm
      obtain ⟨t, ht, hte⟩ := List.mem_map.mp hm
      obtain ⟨k, hk⟩ := hids t ht
      have h3 := lastIndexOf_get hk
      rw [hte] at h3
      exact List.get?_mem h3
    have hperm : (c.tasks.map Task.id).Perm order :=
      (List.subperm_of_subset hnd hsub).perm_of_length_le (by simp [hlen2])
    have hond : order.Nodup := hperm.nodup hnd
    have hpoint : ∀ j oid, order.get? j = some oid →
        r.get? j = c.tasks.find? (fun x => x.id == oid) := by
      intro j oid hoj
      have hmem : oid ∈ (c.tasks.map Task.id) := hperm.mem_iff.mpr (List.get?_mem hoj)
      obtain ⟨t, ht, hte⟩ := List.mem_map.mp hmem
      have hfind : c.tasks.find? (fun x => x.id == oid) = some t := by
        rw [← hte]
        exact find_by_id hnd ht
      rw [hfind]
      have hli : lastIndexOf order t.id = some j :=
        lastIndexOf_nodup hond (by rw [hte]; exact hoj)
      refine fillReordered_get_hit h ht hli ?_ ?_
      · rw [List.length_replicate, ← hlen2]
        exact get?_lt hoj
      · intro u hu hju
        have h2 := lastIndexOf_get hju
        rw [hoj] at h2
        injection h2 with h3
        exact List.inj_on_of_nodup_map hnd hu ht (by rw [hte, ← h3])
    refine ⟨hrl, hperm.symm, ?_, hpoint⟩
    have hrmap : r = order.map
        (fun oid => (c.tasks.find? (fun x => x.id == oid)).getD defaultTask) := by
      apply List.ext
      intro n
      cases hon : order.get? n with
      | some oid =>
        rw [List.get?_map, hon]
        have hmem : oid ∈ (c.tasks.map Task.id) := hperm.mem_iff.mpr (List.get?_mem hon)
        obtain ⟨t, ht, hte⟩ := List.mem_map.mp hmem
        have hfind : c.tasks.find? (fun x => x.id == oid) = some t := by
          rw [← hte]
          exact find_by_id hnd ht
        rw [hpoint n oid hon, hfind]
        simp [hfind]
      | none =>
        rw [List.get?_map, hon]
        have hn : order.length ≤ n := List.get?_eq_none.mp hon
        have h4 : r.length ≤ n := by
          rw [hrl, ← hlen2]
          exact hn
        rw [List.get?_eq_none.mpr h4]
        rfl
    have hmapeq : (c.tasks.map Task.id).map
        (fun oid => (c.tasks.find? (fun x => x.id == oid)).getD defaultTask) = c.tasks := by
      rw [List.map_map]
      have h5 : ∀ t ∈ c.tasks,
          ((fun oid => (c.tasks.find? (fun x => x.id == oid)).getD defaultTask) ∘ Task.id) t
            = (fun t => t) t := by
        intro t ht
        show (c.tasks.find? (fun x => x.id == t.id)).getD defaultTask = t
        rw [find_by_id hnd ht]
        rfl
      rw [List.map_congr_left h5]
      simp
    rw [hrmap]
    refine List.Perm.trans (hperm.symm.map _) ?_
    rw [hmapeq]

theorem reorderTasks_ok_of_perm {c : Category} {order : List String}
    (hperm : order.Perm (c.tasks.map Task.id)) :
    ∃ r, reorderTasks c order = .ok r := by
  rw [reorderTasks]
  have hlen : order.length = c.tasks.length := by simpa using hperm.length_eq
  rw [if_neg (by simp [hlen])]
  apply fillReordered_ok_of
  intro t ht
  exact lastIndexOf_isSome_of_mem (hperm.mem_iff.mpr (List.mem_map_of_mem _ ht))

theorem reorderTasks_error_shape {c : Category} {order : List String} {e : BErr}
    (h : reorderTasks c order = .error e) : ∃ m, e = .invalidRequest m := by
  rw [reorderTasks] at h
  by_cases hlen : (order.length != c.tasks.length) = true
  · rw [if_pos hlen] at h
    injection h with h1
    exact ⟨_, h1.symm⟩
  · rw [if_neg hlen] at h
    exact fillReordered_error_shape h

theorem reorderInCats_none {cats : List Category} {id : String} {o : List String}
    (h : findCategoryIndex cats id = none) :
    reorderInCats cats id o = .error .categoryNotFound := by
  induction cats with
  | nil => rfl
  | cons c l ih =>
    rw [findCategoryIndex] at h
    by_cases hc : (c.id == id) = true
    · rw [if_pos hc] at h
      exact Option.noConfusion h
    · rw [if_neg hc] at h
      rw [reorderInCats, if_neg hc]
      have hl : findCategoryIndex l id = none := by
        cases hfp : findCategoryIndex l id with
        | none => rfl
        | some k =>
          rw [hfp] at h
          simp at h
      rw [ih hl]

theorem reorderInCats_found {cats : List Category} {id : String} {o : List String}
    {ci : Nat} {c : Category}
    (hci : findCategoryIndex cats id = some ci) (hc : cats.get? ci = some c) :
    reorderInCats cats id o = (match reorderTasks c o with
      | .ok ts => .ok (cats.set ci { c with tasks := ts }, { c with tasks := ts })
      | .error e => .error e) := by
  induction cats generalizing ci with
  | nil => simp [findCategoryIndex] at hci
  | cons x l ih =>
    rw [findCategoryIndex] at hci
    by_cases hx : (x.id == id) = true
    · rw [if_pos hx] at hci
      injection hci with h1
      subst h1
      rw [List.get?_cons_zero] at hc
      injection hc with h2
      subst h2
      rw [reorderInCats, if_pos hx]
      cases hr : reorderTasks x o with
      | ok ts => rfl
      | error e => rfl
    · rw [if_neg hx] at hci
      cases hfp : findCategoryIndex l id with
      | none =>
        rw [hfp] at hci
        simp at hci
      | some k =>
        rw [hfp] at hci
        simp only [Option.map_some', Option.some.injEq] at hci
        subst hci
        rw [List.get?_cons_succ] at hc
        rw [reorderInCats, if_neg hx, ih hfp hc]
        cases hr : reorderTasks c o with
        | ok ts => rfl
        | error e => rfl

/-! ## Claim C7 -/

/-- C7: `ReoCategoryTasks(id, o)` succeeds iff a category with
that ID sits on the active board and `o` is exactly a permutation of
its current task IDs; on success the category's sequence is rewritten so
the task whose ID is `o[i]` sits at position `i` (all other state
untouched), and on failure the state is unchanged and the error is
`CategoryNotFound` (ID not on the board) or an invalid-request error. -/
theorem C7_reorder_exact_permutation (s : BoardState) (id : String) (order : List String)
    (hnd : ∀ c ∈ s.categories, (c.tasks.map Task.id).Nodup) :
    ((∃ cat, (reorderCategoryTasksOp s id order).2 = .ok cat) ↔
      (∃ ci c, findCategoryIndex s.categories id = some ci ∧
        s.categories.get? ci = some c ∧ order.Perm (c.tasks.map Task.id))) ∧
    (∀ ci c cat, findCategoryIndex s.categories id = some ci →
      s.categories.get? ci = some c →
      (reorderCategoryTasksOp s id order).2 = .ok cat →
        (reorderCategoryTasksOp s id order).1 =
          { s with categories := s.categories.set ci { c with tasks := cat.tasks } } ∧
        cat.id = c.id ∧ cat.name = c.name ∧ cat.tasks.Perm c.tasks ∧
        (∀ j oid, order.get? j = some oid →
          cat.tasks.get? j = c.tasks.find? (fun x => x.id == oid))) ∧
    (∀ e, (reorderCategoryTasksOp s id order).2 = .error e →
      (reorderCategoryTasksOp s id order).1 = s ∧
      ((e = .categoryNotFound ∧ findCategoryIndex s.categories id = none) ∨
        ∃ m, e = .invalidRequest m)) := by
  cases hci : findCategoryIndex s.categories id with
  | none =>
    have hr := reorderInCats_none (o := order) hci
    refine ⟨⟨?_, ?_⟩, ?_, ?_⟩
    · rintro ⟨cat, hcat⟩
      simp only [reorderCategoryTasksOp, hr] at hcat
      exact absurd hcat (by simp)
    · rintro ⟨ci, c, hcieq, -⟩
      exact Option.noConfusion hcieq
    · intro ci c cat hcieq
      exact absurd hcieq (by simp)
    · intro e he
      simp only [reorderCategoryTasksOp, hr] at he
      injection he with h1
      refine ⟨?_, Or.inl ⟨h1.symm, rfl⟩⟩
      simp [reorderCategoryTasksOp, hr]
  | some ci =>
    obtain ⟨c, hc, hcid⟩ := findCategoryIndex_some hci
    have hr := reorderInCats_found (o := order) hci hc
    have hndc := hnd c (List.get?_mem hc)
    cases hrt : reorderTasks c order with
    | ok ts =>
      rw [hrt] at hr
      obtain ⟨hrl, hperm, hrperm, hpoint⟩ := reorderTasks_ok_spec hndc hrt
      refine ⟨⟨?_, ?_⟩, ?_, ?_⟩
      · rintro -
        exact ⟨ci, c, rfl, hc, hperm⟩
      · rintro -
        exact ⟨{ c with tasks := ts }, by simp [reorderCategoryTasksOp, hr]⟩
      · intro ci2 c2 cat hci2 hc2 hcat
        injection hci2 with h1
        subst h1
        rw [hc] at hc2
        injection hc2 with h2
        subst h2
        simp only [reorderCategoryTasksOp, hr] at hcat ⊢
        injection hcat with h3
        subst h3
        exact ⟨rfl, rfl, rfl, hrperm, hpoint⟩
      · intro e he
        simp only [reorderCategoryTasksOp, hr] at he
        exact absurd he (by simp)
    | error e2 =>
      rw [hrt] at hr
      obtain ⟨m, hm⟩ := reorderTasks_error_shape hrt
      refine ⟨⟨?_, ?_⟩, ?_, ?_⟩
      · rintro ⟨cat, hcat⟩
        simp only [reorderCategoryTasksOp, hr] at hcat
        exact absurd hcat (by simp)
      · rintro ⟨ci2, c2, hci2, hc2, hperm2⟩
        injection hci2 with h1
        subst h1
        rw [hc] at hc2
        injection hc2 with h2
        subst h2
        obtain ⟨r, hr2⟩ := reorderTasks_ok_of_perm hperm2
        rw [hrt] at hr2
        exact Except.noConfusion hr2
      · intro ci2 c2 cat hci2 hc2 hcat
        simp only [reorderCategoryTasksOp, hr] at hcat
        exact absurd hcat (by simp)
      · intro e he
        simp only [reorderCategoryTasksOp, hr] at he
        injection he with h1
        subst h1
        refine ⟨?_, Or.inr ⟨m, hm⟩⟩
        simp [reorderCategoryTasksOp, hr]

/-- C7 witness: reordering `"c1"`'s tasks by the permutation
`["b","a"]` succeeds, and the invalid order `["b","b"]` (holding a
duplicate) leaves the board unchanged. -/
theorem C7_reorder_exact_permutation_witness :
    (∃ cat, (reorderCategoryTasksOp capBoard "c1" ["b", "a"]).2 = .ok cat) ∧
    (reorderCategoryTasksOp capBoard "c1" ["b", "b"]).1 = capBoard :=
  ⟨((C7_reorder_exact_permutation capBoard "c1" ["b", "a"] (by decide)).1).mpr
      ⟨0, ⟨"c1", "One", [mkTask "a" 3, mkTask "b" 2]⟩, by decide, by decide, by decide⟩,
   ((C7_reorder_exact_permutation capBoard "c1" ["b", "b"] (by decide)).2.2
      (.invalidRequest "missing task id a") (by decide)).1⟩

/-! ## Category-count lemmas (claim C6) -/

theorem normalizeUrgent_cats_len (s : BoardState) (i : Nat) (u : String) :
    (normalizeUrgent s i u).categories.length = s.categories.length := by
  simp [normalizeUrgent, listModify_length]

theorem setTaskAt_cats_len (s : BoardState) (loc : TaskLoc) (t : Task) :
    (setTaskAt s loc t).categories.length = s.categories.length := by
  simp only [setTaskAt]
  split
  · simp [listModify_length]
  · split
    · rfl
    · split
      · rfl
      · rfl

theorem removeTaskAt_cats_len (s : BoardState) (loc : TaskLoc) :
    (removeTaskAt s loc).categories.length = s.categories.length := by
  simp only [removeTaskAt]
  split
  · simp [listModify_length]
  · split
    · rfl
    · split
      · rfl
      · rfl

theorem restoreTask_cats_len (s : BoardState) (t : Task) (loc : TaskLoc) :
    (restoreTask s t loc).categories.length = s.categories.length := by
  simp only [restoreTask]
  split
  · simp [listModify_length]
  · split
    · rfl
    · split
      · rfl
      · rfl

theorem normalizeFocus_cats_len (s : BoardState) (fid : String) :
    (normalizeFocus s fid).categories.length = s.categories.length := by
  simp [normalizeFocus]

theorem clearFocus_cats_len (s : BoardState) :
    (clearFocus s).categories.length = s.categories.length := by
  simp [clearFocus]

theorem placeTaskInCategory_cats_len (s : BoardState) (task : Task)
    (d : MoveTaskRequest) (idx : Nat) :
    (placeTaskInCategory s task d idx).1.categories.length = s.categories.length := by
  have hn : ∀ u, (normalizeUrgent s idx u).categories.length = s.categories.length :=
    fun u => normalizeUrgent_cats_len s idx u
  simp only [placeTaskInCategory]
  split
  · dsimp only
    rw [List.length_set]
    split
    · exact hn _
    · exact hn _
  · dsimp only
    rw [List.length_set]
    split
    · exact hn _
    · exact hn _

theorem insertTaskInCategory_cats_len (s : BoardState) (task : Task)
    (req : CreateTaskRequest) (idx : Nat) :
    (insertTaskInCategory s task req idx).1.categories.length = s.categories.length := by
  simp only [insertTaskInCategory]
  split
  · dsimp only
    exact List.length_set _ _ _
  · dsimp only
    by_cases hu : task.urgent = true
    · rw [if_pos hu]
      by_cases hf : task.focused = true
      · rw [if_pos hf, normalizeFocus_cats_len, normalizeUrgent_cats_len]
        exact List.length_set _ _ _
      · rw [if_neg hf, normalizeUrgent_cats_len]
        exact List.length_set _ _ _
    · rw [if_neg hu]
      by_cases hf : task.focused = true
      · rw [if_pos hf, normalizeFocus_cats_len]
        exact List.length_set _ _ _
      · rw [if_neg hf]
        exact List.length_set _ _ _

theorem insertTask_cases (gen : String) (s : BoardState) (req : CreateTaskRequest) :
    (∃ e, insertTask gen s req = (s, .error e)) ∨
    (∃ idx, findCategoryIndex s.categories req.categoryId = some idx ∧
        insertTask gen s req = insertTaskInCategory s (normalizedNewTask gen req.task) req idx) ∨
    (∃ t2, t2.focused = false ∧
      insertTask gen s req = ({ s with backburner := s.backburner ++ [t2] }, .ok t2)) ∨
    (∃ t2, t2.focused = false ∧
      insertTask gen s req = ({ s with archives := s.archives ++ [t2] }, .ok t2)) := by
  simp only [insertTask]
  split
  · exact Or.inl ⟨_, rfl⟩
  · split
    · exact Or.inl ⟨_, rfl⟩
    · split
      · split
        · exact Or.inl ⟨_, rfl⟩
        · rename_i idx heq
          exact Or.inr (Or.inl ⟨idx, heq, rfl⟩)
      · split
        · exact Or.inr (Or.inr (Or.inl ⟨_, rfl, rfl⟩))
        · split
          · exact Or.inr (Or.inr (Or.inr ⟨_, rfl, rfl⟩))
          · exact Or.inl ⟨_, rfl⟩

theorem placeTask_cases (s : BoardState) (task0 : Task) (d : MoveTaskRequest) :
    (∃ e, placeTask s task0 d = (s, some e)) ∨
    (∃ task idx, findCategoryIndex s.categories (moveReqNormalize d).categoryId = some idx ∧
        placeTask s task0 d = placeTaskInCategory s task (moveReqNormalize d) idx) ∨
    (∃ t2, t2.focused = false ∧
      placeTask s task0 d = ({ s with backburner := s.backburner ++ [t2] }, none)) ∨
    (∃ t2, t2.focused = false ∧
      placeTask s task0 d = ({ s with archives := s.archives ++ [t2] }, none)) := by
  simp only [placeTask]
  split
  · exact Or.inl ⟨_, rfl⟩
  · split
    · split
      · exact Or.inl ⟨_, rfl⟩
      · rename_i idx heq
        exact Or.inr (Or.inl ⟨_, idx, heq, rfl⟩)
    · split
      · exact Or.inr (Or.inr (Or.inl ⟨_, rfl, rfl⟩))
      · split
        · exact Or.inr (Or.inr (Or.inr ⟨_, rfl, rfl⟩))
        · exact Or.inl ⟨_, rfl⟩

theorem placeTask_cats_len (s : BoardState) (task : Task) (d : MoveTaskRequest) :
    (placeTask s task d).1.categories.length = s.categories.length := by
  rcases placeTask_cases s task d with ⟨e, heq⟩ | ⟨t2, idx, -, heq⟩ | ⟨t2, -, heq⟩ | ⟨t2, -, heq⟩
  · rw [heq]
  · rw [heq]
    exact placeTaskInCategory_cats_len s t2 _ idx
  · rw [heq]
  · rw [heq]

theorem insertTask_cats_len (gen : String) (s : BoardState) (req : CreateTaskRequest) :
    (insertTask gen s req).1.categories.length = s.categories.length := by
  rcases insertTask_cases gen s req with ⟨e, heq⟩ | ⟨idx, -, heq⟩ | ⟨t2, -, heq⟩ | ⟨t2, -, heq⟩
  · rw [heq]
  · rw [heq]
    exact insertTaskInCategory_cats_len s _ req idx
  · rw [heq]
  · rw [heq]

theorem createTaskOp_cats_len (gen : String) (s : BoardState) (req : CreateTaskRequest) :
    (createTaskOp gen s req).1.categories.length = s.categories.length := by
  simp only [createTaskOp]
  split
  · rfl
  · exact insertTask_cats_len gen s _

theorem updateTaskOp_cases (s : BoardState) (id : String) (p : TaskPatch) :
    (∃ e, updateTaskOp s id p = (s, .error e)) ∨
    (∃ t loc, findTask s id = .ok (t, loc) ∧
      (∃ s2 res, updateTaskOp s id p = (s2, res) ∧
        (s2 = setTaskAt s loc (applyPatch p t).1 ∨
          ∃ u, s2 = normalizeUrgent (setTaskAt s loc (applyPatch p t).1) loc.categoryIndex u))) := by
  simp only [updateTaskOp]
  split
  · exact Or.inl ⟨_, rfl⟩
  · rename_i t loc heq
    refine Or.inr ⟨t, loc, heq, ?_⟩
    split
    · exact ⟨_, _, rfl, Or.inl rfl⟩
    · by_cases hk : (loc.kind == LocationCategory) = true
      · simp only [hk, ite_true]
        by_cases hu : (applyPatch p t).1.urgent = true
        · simp only [hu, ite_true]
          split
          · exact ⟨_, _, rfl, Or.inr ⟨_, rfl⟩⟩
          · exact ⟨_, _, rfl, Or.inr ⟨_, rfl⟩⟩
        · simp only [hu, ite_false]
          split
          · exact ⟨_, _, rfl, Or.inr ⟨_, rfl⟩⟩
          · exact ⟨_, _, rfl, Or.inr ⟨_, rfl⟩⟩
      · have hkb : (loc.kind == LocationCategory) = false := by simpa using hk
        simp only [hkb, Bool.false_eq_true, if_neg, ite_false]
        exact ⟨_, _, rfl, Or.inl rfl⟩

theorem updateTaskOp_cats_len (s : BoardState) (id : String) (p : TaskPatch) :
    (updateTaskOp s id p).1.categories.length = s.categories.length := by
  rcases updateTaskOp_cases s id p with ⟨e, heq⟩ | ⟨t, loc, -, s2, res, heq, hs2⟩
  · rw [heq]
  · rw [heq]
    rcases hs2 with hs2 | ⟨u, hs2⟩
    · rw [hs2]
      exact setTaskAt_cats_len s loc _
    · rw [hs2, normalizeUrgent_cats_len, setTaskAt_cats_len]

theorem moveTaskOp_cats_len (s : BoardState) (id : String) (dest : MoveTaskRequest) :
    (moveTaskOp s id dest).1.categories.length = s.categories.length := by
  cases hf : findTask s id with
  | error e => simp [moveTaskOp, removeTask, hf]
  | ok pr =>
    obtain ⟨t, loc⟩ := pr
    have hre := removeTask_eq_of_find hf
    cases hp : placeTask (removeTaskAt s loc) t (autoSource (removeTaskAt s loc) loc dest) with
    | mk s2 oe =>
      have h2 : s2.categories.length = (removeTaskAt s loc).categories.length := by
        have h3 := placeTask_cats_len (removeTaskAt s loc) t (autoSource (removeTaskAt s loc) loc dest)
        rw [hp] at h3
        exact h3
      cases oe with
      | none =>
        simp only [moveTaskOp, hre, hp]
        rw [h2, removeTaskAt_cats_len]
      | some e =>
        simp only [moveTaskOp, hre, hp]
        rw [restoreTask_cats_len, h2, removeTaskAt_cats_len]

theorem deleteTaskOp_cats_len (s : BoardState) (id : String) :
    (deleteTaskOp s id).1.categories.length = s.categories.length := by
  simp only [deleteTaskOp]
  split
  · rfl
  · rename_i t loc heq
    split
    · rfl
    · rw [removeTask_eq_of_find heq]
      exact removeTaskAt_cats_len s loc

theorem renameCategoryOp_cats_len (s : BoardState) (id name : String) :
    (renameCategoryOp s id name).1.categories.length = s.categories.length := by
  simp only [renameCategoryOp]
  split
  · rfl
  · split
    · rfl
    · split
      · rfl
      · split
        · rfl
        · split
          · dsimp only
            exact listModify_length _ _ _
          · rfl

theorem reorderCategoryTasksOp_cats_len (s : BoardState) (id : String) (order : List String) :
    (reorderCategoryTasksOp s id order).1.categories.length = s.categories.length := by
  simp only [reorderCategoryTasksOp]
  split
  · rename_i cats found heq
    dsimp only
    cases hci : findCategoryIndex s.categories id with
    | none =>
      rw [reorderInCats_none (o := order) hci] at heq
      exact Except.noConfusion heq
    | some ci =>
      obtain ⟨c, hc, -⟩ := findCategoryIndex_some hci
      rw [reorderInCats_found (o := order) hci hc] at heq
      cases hrt : reorderTasks c order with
      | ok ts =>
        rw [hrt] at heq
        injection heq with h3
        have h4 := congrArg Prod.fst h3
        simp only at h4
        rw [← h4]
        exact List.length_set _ _ _
      | error e =>
        rw [hrt] at heq
        exact Except.noConfusion heq
  · rfl

theorem setFocusedOp_cats_len (s : BoardState) (id : String) :
    (setFocusedOp s id).1.categories.length = s.categories.length := by
  simp only [setFocusedOp]
  split
  · exact clearFocus_cats_len s
  · split
    · rfl
    · rename_i pr heq
      obtain ⟨t, loc⟩ := pr
      dsimp only
      rw [setTaskAt_cats_len, clearFocus_cats_len]

theorem restore_insert_list {α : Type} (l : List α) (i : Nat) (a : α)
    (h : l.get? i = some a) :
    (if i ≥ (l.eraseIdx i).length then (l.eraseIdx i) ++ [a]
      else listInsertIdx i a (l.eraseIdx i)) = l := by
  have h1 := eraseIdx_listInsertIdx_self i a l h
  by_cases hge : i ≥ (l.eraseIdx i).length
  · rw [if_pos hge, ← listInsertIdx_of_ge _ _ _ hge]
    exact h1
  · rw [if_neg hge]
    exact h1

theorem removeCategory_spec {s : BoardState} {id : String} {cat : Category}
    {loc : CatLoc} {s1 : BoardState}
    (h : removeCategory s id = .ok (cat, loc, s1)) :
    (loc.kind = LocationCategoryBoard ∧ cat.id = id ∧ s.categories.get? loc.index = some cat ∧
      s1 = { s with categories := s.categories.eraseIdx loc.index }) ∨
    (loc.kind = LocationBackburner ∧ cat.id = id ∧ s.categoryBackburner.get? loc.index = some cat ∧
      s1 = { s with categoryBackburner := s.categoryBackburner.eraseIdx loc.index }) ∨
    (loc.kind = LocationArchive ∧ cat.id = id ∧ s.categoryArchives.get? loc.index = some cat ∧
      s1 = { s with categoryArchives := s.categoryArchives.eraseIdx loc.index }) := by
  simp only [removeCategory] at h
  cases h1 : findCategoryIndex s.categories id with
  | some i =>
    rw [h1] at h
    obtain ⟨c, hc, hcid⟩ := findCategoryIndex_some h1
    injection h with h2
    injection h2 with h3 h4
    injection h4 with h5 h6
    subst h3
    subst h5
    subst h6
    rw [hc]
    exact Or.inl ⟨rfl, hcid, rfl, rfl⟩
  | none =>
    rw [h1] at h
    cases h2 : findCategoryIndex s.categoryBackburner id with
    | some i =>
      rw [h2] at h
      obtain ⟨c, hc, hcid⟩ := findCategoryIndex_some h2
      injection h with h3
      injection h3 with h4 h5
      injection h5 with h6 h7
      subst h4
      subst h6
      subst h7
      exact Or.inr (Or.inl ⟨rfl, by rw [hc]; exact hcid, by rw [hc]; rfl, rfl⟩)
    | none =>
      rw [h2] at h
      cases h3 : findCategoryIndex s.categoryArchives id with
      | some i =>
        rw [h3] at h
        obtain ⟨c, hc, hcid⟩ := findCategoryIndex_some h3
        injection h with h4
        injection h4 with h5 h6
        injection h6 with h7 h8
        subst h5
        subst h7
        subst h8
        exact Or.inr (Or.inr ⟨rfl, by rw [hc]; exact hcid, by rw [hc]; rfl, rfl⟩)
      | none =>
        rw [h3] at h
        exact Except.noConfusion h

theorem restoreCategory_undo {s : BoardState} {id : String} {cat : Category}
    {loc : CatLoc} {s1 : BoardState}
    (h : removeCategory s id = .ok (cat, loc, s1)) :
    restoreCategory s1 cat loc = s := by
  rcases removeCategory_spec h with ⟨hk, -, hg, hs⟩ | ⟨hk, -, hg, hs⟩ | ⟨hk, -, hg, hs⟩
  · have hkb : (loc.kind == LocationCategoryBoard) = true := by rw [hk]; simp
    subst hs
    simp only [restoreCategory, hkb, ite_true]
    have h2 := restore_insert_list s.categories loc.index cat hg
    by_cases hge : loc.index ≥ (s.categories.eraseIdx loc.index).length
    · rw [if_pos hge] at h2 ⊢
      rw [h2]
    · rw [if_neg hge] at h2 ⊢
      rw [h2]
  · have hkc : (loc.kind == LocationCategoryBoard) = false := by
      rw [hk]
      simp [LocationBackburner, LocationCategoryBoard]
    have hkb : (loc.kind == LocationBackburner) = true := by rw [hk]; simp
    subst hs
    simp only [restoreCategory, hkc, Bool.false_eq_true, if_neg, ite_false, hkb, ite_true]
    have h2 := eraseIdx_listInsertIdx_self loc.index cat s.categoryBackburner hg
    rw [h2]
  · have hkc : (loc.kind == LocationCategoryBoard) = false := by
      rw [hk]
      simp [LocationArchive, LocationCategoryBoard]
    have hkb : (loc.kind == LocationBackburner) = false := by
      rw [hk]
      simp [LocationArchive, LocationBackburner]
    have hka : (loc.kind == LocationArchive) = true := by rw [hk]; simp
    subst hs
    simp only [restoreCategory, hkc, hkb, Bool.false_eq_true, if_neg, ite_false, hka, ite_true]
    have h2 := eraseIdx_listInsertIdx_self loc.index cat s.categoryArchives hg
    rw [h2]

theorem placeCategory_error_state {s : BoardState} {cat : Category}
    {d : MoveCategoryRequest} {s2 : BoardState} {e : BErr}
    (h : placeCategory s cat d = (s2, some e)) : s2 = s := by
  simp only [placeCategory] at h
  split at h
  · split at h
    · exact (congrArg Prod.fst h).symm
    · split at h
      · exact (congrArg Prod.fst h).symm
      · exact absurd (congrArg Prod.snd h) (by simp)
  · split at h
    · exact absurd (congrArg Prod.snd h) (by simp)
    · split at h
      · exact absurd (congrArg Prod.snd h) (by simp)
      · exact (congrArg Prod.fst h).symm

theorem moveCategoryOp_error_unchanged {s : BoardState} {id : String}
    {dest : MoveCategoryRequest} {s2 : BoardState} {e : BErr}
    (h : moveCategoryOp s id dest = (s2, .error e)) : s2 = s := by
  simp only [moveCategoryOp] at h
  split at h
  · exact (congrArg Prod.fst h).symm
  · split at h
    · exact (congrArg Prod.fst h).symm
    · rename_i cat loc s1 heq
      split at h
      · rename_i s3 e2 heq2
        have hs3 : s3 = s1 := placeCategory_error_state heq2
        have h4 := (congrArg Prod.fst h).symm
        simp only at h4
        rw [h4, hs3]
        exact restoreCategory_undo heq
      · exact absurd (congrArg Prod.snd h) (by simp)

theorem createCategoryOp_cats_len_le (gen : String) (s : BoardState) (name : String)
    (hle : s.categories.length ≤ CategoryLimitN) :
    (createCategoryOp gen s name).1.categories.length ≤ CategoryLimitN := by
  simp only [createCategoryOp]
  split
  · exact hle
  · split
    · exact hle
    · split
      · exact hle
      · split
        · exact hle
        · split
          · exact hle
          · rename_i hlim
            have h2 : s.categories.length < CategoryLimitN := by
              simpa using hlim
            show (s.categories ++ [(⟨gen, trimSpace name, []⟩ : Category)]).length ≤ CategoryLimitN
            simp only [List.length_append, List.length_cons, List.length_nil]
            omega

theorem restoreCategory_cats_len_le {s : BoardState} {cat : Category} {loc : CatLoc} {n : Nat}
    (h : s.categories.length + 1 ≤ n) :
    (restoreCategory s cat loc).categories.length ≤ n := by
  simp only [restoreCategory]
  split
  · split
    · show (s.categories ++ [cat]).length ≤ n
      simp only [List.length_append, List.length_cons, List.length_nil]
      omega
    · show (listInsertIdx loc.index cat s.categories).length ≤ n
      rw [listInsertIdx_length]
      omega
  · split
    · show s.categories.length ≤ n
      omega
    · split
      · show s.categories.length ≤ n
        omega
      · show s.categories.length ≤ n
        omega

theorem moveCategoryOp_cats_len_le (s : BoardState) (id : String)
    (dest : MoveCategoryRequest) (hle : s.categories.length ≤ CategoryLimitN) :
    (moveCategoryOp s id dest).1.categories.length ≤ CategoryLimitN := by
  simp only [moveCategoryOp]
  split
  · exact hle
  · split
    · exact hle
    · rename_i cat loc s1 heq
      have hs1len : s1.categories.length ≤ s.categories.length := by
        rcases removeCategory_spec heq with ⟨-, -, -, hs⟩ | ⟨-, -, -, hs⟩ | ⟨-, -, -, hs⟩
        · rw [hs]
          show (s.categories.eraseIdx loc.index).length ≤ s.categories.length
          rw [List.length_eraseIdx]
          split <;> omega
        · rw [hs]
        · rw [hs]
      split
      · rename_i s3 e2 heq2
        have hs3 : s3 = s1 := placeCategory_error_state heq2
        show (restoreCategory s3 cat loc).categories.length ≤ CategoryLimitN
        rw [hs3, restoreCategory_undo heq]
        exact hle
      · rename_i s3 heq2
        show s3.categories.length ≤ CategoryLimitN
        simp only [placeCategory] at heq2
        split at heq2
        · split at heq2
          · exact absurd (congrArg Prod.snd heq2) (by simp)
          · split at heq2
            · exact absurd (congrArg Prod.snd heq2) (by simp)
            · rename_i hlim x hcap
              have h4 := (congrArg Prod.fst heq2).symm
              simp only at h4
              rw [h4]
              show (listInsertIdx _ cat s1.categories).length ≤ CategoryLimitN
              rw [listInsertIdx_length]
              have h5 : s1.categories.length < CategoryLimitN := by simpa using hlim
              omega
        · split at heq2
          · have h4 := (congrArg Prod.fst heq2).symm
            simp only at h4
            rw [h4]
            exact le_trans hs1len hle
          · split at heq2
            · have h4 := (congrArg Prod.fst heq2).symm
              simp only at h4
              rw [h4]
              exact le_trans hs1len hle
            · exact absurd (congrArg Prod.snd heq2) (by simp)

theorem createCategoryOp_at_limit {gen : String} {s : BoardState} {name : String}
    (hne : (trimSpace name == "") = false)
    (h1 : s.categories.any (fun c => c.name == trimSpace name) = false)
    (h2 : s.categoryBackburner.any (fun c => c.name == trimSpace name) = false)
    (h3 : s.categoryArchives.any (fun c => c.name == trimSpace name) = false)
    (hlim : s.categories.length ≥ CategoryLimitN) :
    createCategoryOp gen s name = (s, .error .categoryLimit) := by
  simp only [createCategoryOp]
  split
  · rename_i hc
    rw [hne] at hc
    exact Bool.noConfusion hc
  · split
    · rename_i hc
      rw [h1] at hc
      exact Bool.noConfusion hc
    · split
      · rename_i hc
        rw [h2] at hc
        exact Bool.noConfusion hc
      · split
        · rename_i hc
          rw [h3] at hc
          exact Bool.noConfusion hc
        · rfl

theorem moveCategoryOp_parked_at_limit {s : BoardState} {id : String}
    {dest : MoveCategoryRequest} {cat : Category} {loc : CatLoc} {s1 : BoardState}
    (hv : moveCatReqValidate (moveCatReqNormalize dest) = none)
    (hloc : (moveCatReqNormalize dest).location = LocationCategoryBoard)
    (hnb : findCategoryIndex s.categories id = none)
    (hrc : removeCategory s id = .ok (cat, loc, s1))
    (hlim : s.categories.length ≥ CategoryLimitN) :
    moveCategoryOp s id dest = (s, .error .categoryLimit) := by
  have hs1 : s1.categories = s.categories := by
    rcases removeCategory_spec hrc with ⟨-, hid, hg, -⟩ | ⟨-, -, -, hs⟩ | ⟨-, -, -, hs⟩
    · exfalso
      have hmem : cat ∈ s.categories := List.get?_mem hg
      exact findCategoryIndex_none hnb cat hmem hid
    · rw [hs]
    · rw [hs]
  have hb : ((moveCatReqNormalize dest).location == LocationCategoryBoard) = true := by
    rw [hloc]
    simp
  have hlim1 : s1.categories.length ≥ CategoryLimitN := by
    rw [hs1]
    exact hlim
  have hplace : placeCategory s1 cat (moveCatReqNormalize dest) = (s1, some .categoryLimit) := by
    simp only [placeCategory, hb, ite_true, if_pos hlim1]
  simp only [moveCategoryOp, hv, hrc, hplace]
  rw [restoreCategory_undo hrc]

/-- A board whose active board is at the five-category ceiling, with a sixth
category parked in the category backburner. -/
def fiveBoard : BoardState :=
  ⟨[⟨"c1", "N1", []⟩, ⟨"c2", "N2", []⟩, ⟨"c3", "N3", []⟩, ⟨"c4", "N4", []⟩,
    ⟨"c5", "N5", []⟩], [], [], [⟨"p6", "Zeta", []⟩], []⟩

/-- C6 counterexample.  With the active board already holding five
categories, MoveCategory of an on-board category to a board position
succeeds (the category is removed before the limit check) and reorders the
Categories sequence, and CreateCategory with a name already in use fails
with DuplicateCategory rather than CategoryLimit. -/
theorem C6_category_ceiling_counterexample :
    fiveBoard.categories.length = CategoryLimitN ∧
    (moveCategoryOp fiveBoard "c1" ⟨LocationCategoryBoard, some 4⟩).2 =
      .ok ⟨"c1", "N1", []⟩ ∧
    (moveCategoryOp fiveBoard "c1" ⟨LocationCategoryBoard, some 4⟩).1.categories.map
      Category.id = ["c2", "c3", "c4", "c5", "c1"] ∧
    (createCategoryOp "z9" fiveBoard "N1").2 = .error .duplicateCategory := by
  refine ⟨rfl, rfl, rfl, rfl⟩

/-- C6 (amended).  Every operation preserves the five-category ceiling on
the active board; CreateCategory attempted at the ceiling with a fresh,
non-empty trimmed name fails with CategoryLimit leaving the state
unchanged; and MoveCategory to the board of a category that is NOT
currently on the active board fails with CategoryLimit at the ceiling,
leaving the state unchanged.  (An on-board category may still be
repositioned at the ceiling, and a duplicate name reports
DuplicateCategory first — see the counterexample.) -/
theorem C6_category_ceiling_amended (s : BoardState) (gen id name : String)
    (req : CreateTaskRequest) (p : TaskPatch) (mreq : MoveTaskRequest)
    (dest : MoveCategoryRequest) (order : List String)
    (hle : s.categories.length ≤ CategoryLimitN) :
    (createTaskOp gen s req).1.categories.length ≤ CategoryLimitN ∧
    (updateTaskOp s id p).1.categories.length ≤ CategoryLimitN ∧
    (moveTaskOp s id mreq).1.categories.length ≤ CategoryLimitN ∧
    (deleteTaskOp s id).1.categories.length ≤ CategoryLimitN ∧
    (createCategoryOp gen s name).1.categories.length ≤ CategoryLimitN ∧
    (renameCategoryOp s id name).1.categories.length ≤ CategoryLimitN ∧
    (moveCategoryOp s id dest).1.categories.length ≤ CategoryLimitN ∧
    (reorderCategoryTasksOp s id order).1.categories.length ≤ CategoryLimitN ∧
    (setFocusedOp s id).1.categories.length ≤ CategoryLimitN ∧
    (s.categories.length = CategoryLimitN →
      ((trimSpace name == "") = false →
        (∀ c ∈ s.categories, ¬c.name = trimSpace name) →
        (∀ c ∈ s.categoryBackburner, ¬c.name = trimSpace name) →
        (∀ c ∈ s.categoryArchives, ¬c.name = trimSpace name) →
        createCategoryOp gen s name = (s, .error .categoryLimit)) ∧
      (∀ cat loc s1,
        moveCatReqValidate (moveCatReqNormalize dest) = none →
        (moveCatReqNormalize dest).location = LocationCategoryBoard →
        findCategoryIndex s.categories id = none →
        removeCategory s id = .ok (cat, loc, s1) →
        moveCategoryOp s id dest = (s, .error .categoryLimit))) := by
  refine ⟨?_, ?_, ?_, ?_, ?_, ?_, ?_, ?_, ?_, ?_⟩
  · rw [createTaskOp_cats_len]
    exact hle
  · rw [updateTaskOp_cats_len]
    exact hle
  · rw [moveTaskOp_cats_len]
    exact hle
  · rw [deleteTaskOp_cats_len]
    exact hle
  · exact createCategoryOp_cats_len_le gen s name hle
  · rw [renameCategoryOp_cats_len]
    exact hle
  · exact moveCategoryOp_cats_len_le s id dest hle
  · rw [reorderCategoryTasksOp_cats_len]
    exact hle
  · rw [setFocusedOp_cats_len]
    exact hle
  · intro hlim
    constructor
    · intro hne hc1 hc2 hc3
      refine createCategoryOp_at_limit hne ?_ ?_ ?_ (le_of_eq hlim.symm)
      · simp only [List.any_eq_false, beq_iff_eq]
        exact hc1
      · simp only [List.any_eq_false, beq_iff_eq]
        exact hc2
      · simp only [List.any_eq_false, beq_iff_eq]
        exact hc3
    · intro cat loc s1 hv hloc hnb hrc
      exact moveCategoryOp_parked_at_limit hv hloc hnb hrc (le_of_eq hlim.symm)

theorem C6_category_ceiling_amended_witness :
    fiveBoard.categories.length ≤ CategoryLimitN ∧
    createCategoryOp "z9" fiveBoard "Omega" = (fiveBoard, .error .categoryLimit) ∧
    moveCategoryOp fiveBoard "p6" ⟨LocationCategoryBoard, none⟩ =
      (fiveBoard, .error .categoryLimit) := by
  have h := C6_category_ceiling_amended fiveBoard "z9" "p6" "Omega"
    ⟨LocationBackburner, "", none, defaultTask⟩ emptyPatch
    ⟨LocationBackburner, "", none, "", ""⟩ ⟨LocationCategoryBoard, none⟩ []
    (by decide)
  have h10 := h.2.2.2.2.2.2.2.2.2 (by decide)
  refine ⟨by decide, ?_, ?_⟩
  · exact h10.1 (by decide) (by decide) (by decide) (by decide)
  · exact h10.2 ⟨"p6", "Zeta", []⟩ ⟨LocationBackburner, 0⟩
      { fiveBoard with categoryBackburner := [] } (by decide) (by decide)
      (by decide) (by decide)

/-! ## Claim C1: atomicity on error -/

theorem insertTaskInCategory_error_unchanged {s : BoardState} {task : Task}
    {req : CreateTaskRequest} {idx : Nat} {c : Category} {s2 : BoardState} {e : BErr}
    (hg : s.categories.get? idx = some c)
    (h : insertTaskInCategory s task req idx = (s2, .error e)) : s2 = s := by
  simp only [insertTaskInCategory, hg, Option.getD_some] at h
  split at h
  · have h4 := congrArg Prod.fst h
    simp only at h4
    rw [← h4]
    rw [listInsertIdx_eraseIdx _ _ _ (insertIndexFor_le req.position c.tasks.length)]
    show { s with categories := s.categories.set idx c } = s
    rw [list_set_self idx s.categories c hg]
  · exact absurd (congrArg Prod.snd h) (by simp)

theorem createTaskOp_error_unchanged {gen : String} {s : BoardState}
    {req : CreateTaskRequest} {s2 : BoardState} {e : BErr}
    (h : createTaskOp gen s req = (s2, .error e)) : s2 = s := by
  simp only [createTaskOp] at h
  split at h
  · exact (congrArg Prod.fst h).symm
  · rcases insertTask_cases gen s (createTaskReqNormalize req) with
      ⟨e2, heq⟩ | ⟨idx, hci, heq⟩ | ⟨t2, -, heq⟩ | ⟨t2, -, heq⟩
    · rw [heq] at h
      exact (congrArg Prod.fst h).symm
    · rw [heq] at h
      obtain ⟨c, hc, -⟩ := findCategoryIndex_some hci
      exact insertTaskInCategory_error_unchanged hc h
    · rw [heq] at h
      exact absurd (congrArg Prod.snd h) (by simp)
    · rw [heq] at h
      exact absurd (congrArg Prod.snd h) (by simp)

theorem deleteTaskOp_error_unchanged {s : BoardState} {id : String}
    {s2 : BoardState} {e : BErr}
    (h : deleteTaskOp s id = (s2, .error e)) : s2 = s := by
  simp only [deleteTaskOp] at h
  split at h
  · exact (congrArg Prod.fst h).symm
  · split at h
    · exact (congrArg Prod.fst h).symm
    · split at h
      · exact absurd (congrArg Prod.snd h) (by simp)
      · exact (congrArg Prod.fst h).symm

theorem renameCategoryOp_error_unchanged {s : BoardState} {id name : String}
    {s2 : BoardState} {e : BErr}
    (h : renameCategoryOp s id name = (s2, .error e)) : s2 = s := by
  simp only [renameCategoryOp] at h
  split at h
  · exact (congrArg Prod.fst h).symm
  · split at h
    · exact (congrArg Prod.fst h).symm
    · split at h
      · exact (congrArg Prod.fst h).symm
      · split at h
        · exact (congrArg Prod.fst h).symm
        · split at h
          · exact absurd (congrArg Prod.snd h) (by simp)
          · exact (congrArg Prod.fst h).symm

theorem createCategoryOp_error_unchanged {gen : String} {s : BoardState}
    {name : String} {s2 : BoardState} {e : BErr}
    (h : createCategoryOp gen s name = (s2, .error e)) : s2 = s := by
  simp only [createCategoryOp] at h
  split at h
  · exact (congrArg Prod.fst h).symm
  · split at h
    · exact (congrArg Prod.fst h).symm
    · split at h
      · exact (congrArg Prod.fst h).symm
      · split at h
        · exact (congrArg Prod.fst h).symm
        · split at h
          · exact (congrArg Prod.fst h).symm
          · exact absurd (congrArg Prod.snd h) (by simp)

theorem reorderCategoryTasksOp_error_unchanged {s : BoardState} {id : String}
    {order : List String} {s2 : BoardState} {e : BErr}
    (h : reorderCategoryTasksOp s id order = (s2, .error e)) : s2 = s := by
  simp only [reorderCategoryTasksOp] at h
  split at h
  · exact absurd (congrArg Prod.snd h) (by simp)
  · exact (congrArg Prod.fst h).symm

theorem setFocusedOp_error_unchanged {s : BoardState} {id : String}
    {s2 : BoardState} {e : BErr}
    (h : setFocusedOp s id = (s2, .error e)) : s2 = s := by
  simp only [setFocusedOp] at h
  split at h
  · exact absurd (congrArg Prod.snd h) (by simp)
  · split at h
    · exact (congrArg Prod.fst h).symm
    · exact absurd (congrArg Prod.snd h) (by simp)

/-- Patch raising the size of a task to 4 points. -/
def sizePatch : TaskPatch := { emptyPatch with size := some 4 }

/-- Move request targeting active category `"c2"`. -/
def mvToC2 : MoveTaskRequest := ⟨LocationCategory, "c2", none, "", ""⟩

/-- C1 counterexample.  Two operations are NOT atomic on error.
UpdateTask("a", size := 4) fails the capacity check of `"c1"` (4 + 2 > 5)
yet leaves the patched size written through the findTask pointer; and
MoveTask("a" → "c2") fails the capacity check of `"c2"` (4 + 3 > 5) yet
leaves the destination's urgent-normalisation applied (`"d"` loses its
urgent flag), even though the moved task itself is restored. -/
theorem C1_atomicity_counterexample :
    (updateTaskOp capBoard "a" sizePatch).2 = .error .capacityExceeded ∧
    (updateTaskOp capBoard "a" sizePatch).1 ≠ capBoard ∧
    (updateTaskOp capBoard "a" sizePatch).1.categories =
      [⟨"c1", "One", [{ mkTask "a" 3 with size := 4 }, mkTask "b" 2]⟩,
       ⟨"c2", "Two", [{ mkTask "d" 4 with urgent := true }]⟩] ∧
    (moveTaskOp capBoard "a" mvToC2).2 = .error .capacityExceeded ∧
    (moveTaskOp capBoard "a" mvToC2).1 ≠ capBoard ∧
    (moveTaskOp capBoard "a" mvToC2).1.categories =
      [⟨"c1", "One", [mkTask "a" 3, mkTask "b" 2]⟩,
       ⟨"c2", "Two", [mkTask "d" 4]⟩] := by
  refine ⟨by decide, by decide, by decide, by decide, by decide, by decide⟩

/-- C1 (amended).  The seven operations other than UpdateTask and MoveTask
are atomic on error: whenever CreateTask, DeleteTask, CreateCategory,
RenameCategory, MoveCategory, ReorderCategoryTasks or SetFocused returns an
error, the returned board state is exactly the input state.  (UpdateTask
can leave a partially applied patch and MoveTask can leave the destination
category's urgent-normalisation behind — see the counterexample.) -/
theorem C1_atomicity_amended (s : BoardState) (gen id name : String)
    (req : CreateTaskRequest) (dest : MoveCategoryRequest) (order : List String) :
    (∀ s2 e, createTaskOp gen s req = (s2, .error e) → s2 = s) ∧
    (∀ s2 e, deleteTaskOp s id = (s2, .error e) → s2 = s) ∧
    (∀ s2 e, createCategoryOp gen s name = (s2, .error e) → s2 = s) ∧
    (∀ s2 e, renameCategoryOp s id name = (s2, .error e) → s2 = s) ∧
    (∀ s2 e, moveCategoryOp s id dest = (s2, .error e) → s2 = s) ∧
    (∀ s2 e, reorderCategoryTasksOp s id order = (s2, .error e) → s2 = s) ∧
    (∀ s2 e, setFocusedOp s id = (s2, .error e) → s2 = s) := by
  refine ⟨?_, ?_, ?_, ?_, ?_, ?_, ?_⟩
  · intro s2 e h
    exact createTaskOp_error_unchanged h
  · intro s2 e h
    exact deleteTaskOp_error_unchanged h
  · intro s2 e h
    exact createCategoryOp_error_unchanged h
  · intro s2 e h
    exact renameCategoryOp_error_unchanged h
  · intro s2 e h
    exact moveCategoryOp_error_unchanged h
  · intro s2 e h
    exact reorderCategoryTasksOp_error_unchanged h
  · intro s2 e h
    exact setFocusedOp_error_unchanged h

theorem C1_atomicity_amended_witness :
    (deleteTaskOp capBoard "nope").1 = capBoard ∧
    (createCategoryOp "z1" capBoard "One").1 = capBoard ∧
    (setFocusedOp capBoard "nope").1 = capBoard := by
  have h := C1_atomicity_amended capBoard "z1" "nope" "One"
    ⟨LocationBackburner, "", none, defaultTask⟩ ⟨LocationCategoryBoard, none⟩ []
  refine ⟨?_, ?_, ?_⟩
  · exact h.2.1 (deleteTaskOp capBoard "nope").1 .taskNotFound (by decide)
  · exact h.2.2.1 (createCategoryOp "z1" capBoard "One").1 .duplicateCategory (by decide)
  · exact h.2.2.2.2.2.2 (setFocusedOp capBoard "nope").1 .taskNotFound (by decide)

/-! ## Claim C3: capacity machinery -/

theorem taskSizesSum_map_size_eq {f : Task → Task} (hf : ∀ t, (f t).size = t.size)
    (ts : List Task) : taskSizesSum (ts.map f) = taskSizesSum ts := by
  simp only [taskSizesSum, List.map_map]
  have h2 : (Task.size ∘ f) = Task.size := funext hf
  rw [h2]

theorem catPoints_map_tasks {c : Category} {f : Task → Task}
    (hf : ∀ t, (f t).size = t.size) :
    catPoints { c with tasks := c.tasks.map f } = catPoints c := by
  simp only [catPoints]
  exact taskSizesSum_map_size_eq hf c.tasks

theorem catPoints_clearCategoryFocus (c : Category) :
    catPoints (clearCategoryFocus c) = catPoints c := by
  have hf : ∀ t : Task, ({ t with focused := false } : Task).size = t.size :=
    fun t => rfl
  exact catPoints_map_tasks hf

theorem taskSizesSum_eraseIdx_le {ts : List Task} (i : Nat)
    (hnn : ∀ t ∈ ts, 0 ≤ t.size) :
    taskSizesSum (ts.eraseIdx i) ≤ taskSizesSum ts := by
  induction ts generalizing i with
  | nil => simp [List.eraseIdx]
  | cons x xs ih =>
    cases i with
    | zero =>
      show taskSizesSum xs ≤ taskSizesSum (x :: xs)
      rw [taskSizesSum_cons]
      have hx : 0 ≤ x.size := hnn x (by simp)
      omega
    | succ n =>
      show taskSizesSum (x :: xs.eraseIdx n) ≤ taskSizesSum (x :: xs)
      rw [taskSizesSum_cons, taskSizesSum_cons]
      have h2 := ih n (fun t ht => hnn t (by simp [ht]))
      omega

theorem taskSizesSum_listInsertIdx (i : Nat) (t : Task) (ts : List Task) :
    taskSizesSum (listInsertIdx i t ts) = t.size + taskSizesSum ts := by
  induction i generalizing ts with
  | zero =>
    cases ts with
    | nil => rfl
    | cons x xs =>
      rw [show listInsertIdx 0 t (x :: xs) = t :: x :: xs from rfl, taskSizesSum_cons]
  | succ n ih =>
    cases ts with
    | nil => rfl
    | cons x xs =>
      rw [show listInsertIdx (n + 1) t (x :: xs) = x :: listInsertIdx n t xs from rfl,
        taskSizesSum_cons, taskSizesSum_cons, ih]
      omega

theorem taskSizesSum_perm {ts ts2 : List Task} (h : ts.Perm ts2) :
    taskSizesSum ts = taskSizesSum ts2 := by
  simp only [taskSizesSum]
  exact List.Perm.sum_eq (List.Perm.map Task.size h)

theorem capacityOK_update {s s2 : BoardState} (idx : Nat)
    (hcap : capacityOK s)
    (hoth : ∀ j, j ≠ idx → s2.categories.get? j = s.categories.get? j)
    (hidx : ∀ c, s2.categories.get? idx = some c → catPoints c ≤ ColumnCapacity) :
    capacityOK s2 := by
  intro c hm
  obtain ⟨j, hj⟩ := List.mem_iff_get?.mp hm
  by_cases hji : j = idx
  · exact hidx c (hji ▸ hj)
  · rw [hoth j hji] at hj
    exact hcap c (List.get?_mem hj)

theorem normalizeUrgent_categories (s : BoardState) (i : Nat) (u : String) :
    (normalizeUrgent s i u).categories =
      listModify (fun c => { c with tasks := c.tasks.map (fun t => { t with urgent := t.id == u }) }) i s.categories := rfl

theorem normalizeUrgent_capacityOK {s : BoardState} {i : Nat} {u : String}
    (hcap : capacityOK s) : capacityOK (normalizeUrgent s i u) := by
  refine capacityOK_update i hcap (fun j hj => ?_) (fun c hc => ?_)
  · rw [normalizeUrgent_categories, listModify_get_ne _ _ _ _ hj]
  · rw [normalizeUrgent_categories, listModify_get_i] at hc
    obtain ⟨c0, hc0, hfc⟩ := Option.map_eq_some'.mp hc
    rw [← hfc]
    have hf : ∀ t : Task, ({ t with urgent := t.id == u } : Task).size = t.size :=
      fun t => rfl
    rw [catPoints_map_tasks hf]
    exact hcap c0 (List.get?_mem hc0)

theorem normalizeFocus_capacityOK {s : BoardState} {u : String}
    (hcap : capacityOK s) : capacityOK (normalizeFocus s u) := by
  intro c hm
  rcases List.mem_map.mp hm with ⟨c0, hc0, hfc⟩
  rw [← hfc]
  have hf : ∀ t : Task, ({ t with focused := t.id == u && u != "" } : Task).size = t.size :=
    fun t => rfl
  rw [catPoints_map_tasks hf]
  exact hcap c0 hc0

theorem clearFocus_capacityOK {s : BoardState}
    (hcap : capacityOK s) : capacityOK (clearFocus s) := by
  intro c hm
  rcases List.mem_map.mp hm with ⟨c0, hc0, hfc⟩
  rw [← hfc]
  have hf : ∀ t : Task, ({ t with focused := false } : Task).size = t.size :=
    fun t => rfl
  rw [catPoints_map_tasks hf]
  exact hcap c0 hc0

theorem setTaskAt_categories_cat {s : BoardState} {loc : TaskLoc} (t : Task)
    (hk : (loc.kind == LocationCategory) = true) :
    (setTaskAt s loc t).categories =
      listModify (fun c => { c with tasks := c.tasks.set loc.taskIndex t }) loc.categoryIndex s.categories := by
  simp only [setTaskAt, hk, ite_true]

theorem setTaskAt_categories_noncat {s : BoardState} {loc : TaskLoc} (t : Task)
    (hk : (loc.kind == LocationCategory) = false) :
    (setTaskAt s loc t).categories = s.categories := by
  simp only [setTaskAt, hk, Bool.false_eq_true, ite_false]
  split
  · rfl
  · split
    · rfl
    · rfl

theorem removeTaskAt_categories_cat {s : BoardState} {loc : TaskLoc}
    (hk : (loc.kind == LocationCategory) = true) :
    (removeTaskAt s loc).categories =
      listModify (fun c => { c with tasks := c.tasks.eraseIdx loc.taskIndex }) loc.categoryIndex s.categories := by
  simp only [removeTaskAt, hk, ite_true]

theorem removeTaskAt_categories_noncat {s : BoardState} {loc : TaskLoc}
    (hk : (loc.kind == LocationCategory) = false) :
    (removeTaskAt s loc).categories = s.categories := by
  simp only [removeTaskAt, hk, Bool.false_eq_true, ite_false]
  split
  · rfl
  · split
    · rfl
    · rfl

theorem removeTaskAt_capacityOK {s : BoardState} {loc : TaskLoc}
    (hcap : capacityOK s) (hnn : activeSizesNonneg s) :
    capacityOK (removeTaskAt s loc) := by
  by_cases hk : (loc.kind == LocationCategory) = true
  · refine capacityOK_update loc.categoryIndex hcap (fun j hj => ?_) (fun c hc => ?_)
    · rw [removeTaskAt_categories_cat hk, listModify_get_ne _ _ _ _ hj]
    · rw [removeTaskAt_categories_cat hk, listModify_get_i] at hc
      obtain ⟨c0, hc0, hfc⟩ := Option.map_eq_some'.mp hc
      rw [← hfc]
      have hm0 : c0 ∈ s.categories := List.get?_mem hc0
      have h2 : catPoints { c0 with tasks := c0.tasks.eraseIdx loc.taskIndex } ≤ catPoints c0 :=
        taskSizesSum_eraseIdx_le loc.taskIndex (hnn c0 hm0)
      exact le_trans h2 (hcap c0 hm0)
  · have hk2 : (loc.kind == LocationCategory) = false := by simpa using hk
    intro c hm
    rw [removeTaskAt_categories_noncat hk2] at hm
    exact hcap c hm

theorem capacityOK_set_cat {s : BoardState} {idx : Nat} {c2 : Category}
    (hcap : capacityOK s) (hpts : catPoints c2 ≤ ColumnCapacity) :
    capacityOK { s with categories := s.categories.set idx c2 } := by
  refine capacityOK_update idx hcap (fun j hj => ?_) (fun c1 hc1 => ?_)
  · exact List.get?_set_ne _ _ (Ne.symm hj)
  · have hlt : idx < s.categories.length := by
      have h2 := get?_lt hc1
      show idx < s.categories.length
      rw [← List.length_set s.categories idx c2]
      exact h2
    rw [show ({ s with categories := s.categories.set idx c2 } : BoardState).categories = s.categories.set idx c2 from rfl] at hc1
    rw [get?_set_self_of_lt c2 hlt] at hc1
    injection hc1 with h3
    rw [← h3]
    exact hpts

theorem insertTaskInCategory_ok_capacity {s : BoardState} {task : Task}
    {req : CreateTaskRequest} {idx : Nat} {c : Category} {s2 : BoardState} {t2 : Task}
    (hg : s.categories.get? idx = some c) (hcap : capacityOK s)
    (h : insertTaskInCategory s task req idx = (s2, .ok t2)) : capacityOK s2 := by
  simp only [insertTaskInCategory, hg, Option.getD_some] at h
  split at h
  · exact absurd (congrArg Prod.snd h) (by simp)
  · rename_i hec
    have h4 := congrArg Prod.fst h
    simp only at h4
    rw [← h4]
    have hbase : capacityOK { s with categories := s.categories.set idx { c with tasks := listInsertIdx (insertIndexFor req.position c.tasks.length) task c.tasks } } :=
      capacityOK_set_cat hcap (ensureCapacity_none_points hec)
    split
    · refine normalizeFocus_capacityOK ?_
      split
      · exact normalizeUrgent_capacityOK hbase
      · exact hbase
    · split
      · exact normalizeUrgent_capacityOK hbase
      · exact hbase

theorem createTaskOp_ok_capacity {gen : String} {s : BoardState}
    {req : CreateTaskRequest} {s2 : BoardState} {t2 : Task}
    (hcap : capacityOK s)
    (h : createTaskOp gen s req = (s2, .ok t2)) : capacityOK s2 := by
  simp only [createTaskOp] at h
  split at h
  · exact absurd (congrArg Prod.snd h) (by simp)
  · rcases insertTask_cases gen s (createTaskReqNormalize req) with
      ⟨e, heq⟩ | ⟨idx, hci, heq⟩ | ⟨t3, -, heq⟩ | ⟨t3, -, heq⟩
    · rw [heq] at h
      exact absurd (congrArg Prod.snd h) (by simp)
    · rw [heq] at h
      obtain ⟨c, hc, -⟩ := findCategoryIndex_some hci
      exact insertTaskInCategory_ok_capacity hc hcap h
    · rw [heq] at h
      have h4 := (congrArg Prod.fst h).symm
      simp only at h4
      rw [h4]
      exact hcap
    · rw [heq] at h
      have h4 := (congrArg Prod.fst h).symm
      simp only at h4
      rw [h4]
      exact hcap

theorem placeTaskInCategory_ok_capacity {s : BoardState} {task : Task}
    {dest : MoveTaskRequest} {idx : Nat} {s2 : BoardState}
    (hcap : capacityOK s)
    (h : placeTaskInCategory s task dest idx = (s2, none)) : capacityOK s2 := by
  simp only [placeTaskInCategory] at h
  split at h
  · exact absurd (congrArg Prod.snd h) (by simp)
  · rename_i hec
    have h4 := congrArg Prod.fst h
    simp only at h4
    rw [← h4]
    refine capacityOK_set_cat ?_ (ensureCapacity_none_points hec)
    split
    · exact normalizeUrgent_capacityOK hcap
    · exact normalizeUrgent_capacityOK hcap

theorem placeTask_ok_capacity {s : BoardState} {task : Task}
    {dest : MoveTaskRequest} {s2 : BoardState}
    (hcap : capacityOK s)
    (h : placeTask s task dest = (s2, none)) : capacityOK s2 := by
  rcases placeTask_cases s task dest with
    ⟨e, heq⟩ | ⟨t3, idx, hci, heq⟩ | ⟨t3, -, heq⟩ | ⟨t3, -, heq⟩
  · rw [heq] at h
    exact absurd (congrArg Prod.snd h) (by simp)
  · rw [heq] at h
    exact placeTaskInCategory_ok_capacity hcap h
  · rw [heq] at h
    have h4 := (congrArg Prod.fst h).symm
    simp only at h4
    rw [h4]
    exact hcap
  · rw [heq] at h
    have h4 := (congrArg Prod.fst h).symm
    simp only at h4
    rw [h4]
    exact hcap

theorem moveTaskOp_ok_capacity {s : BoardState} {id : String}
    {dest : MoveTaskRequest} {s2 : BoardState} {t2 : Task}
    (hcap : capacityOK s) (hnn : activeSizesNonneg s)
    (h : moveTaskOp s id dest = (s2, .ok t2)) : capacityOK s2 := by
  simp only [moveTaskOp] at h
  split at h
  · exact absurd (congrArg Prod.snd h) (by simp)
  · rename_i task loc s1 heq
    have hs1 : s1 = removeTaskAt s loc := by
      simp only [removeTask] at heq
      split at heq
      · rename_i t0 loc0 heq2
        injection heq with h5
        injection h5 with h6 h7
        injection h7 with h8 h9
        subst h8
        rw [← h9]
      · exact Except.noConfusion heq
    have hcap1 : capacityOK s1 := by
      rw [hs1]
      exact removeTaskAt_capacityOK hcap hnn
    split at h
    · exact absurd (congrArg Prod.snd h) (by simp)
    · rename_i s3 heq2
      have h4 := (congrArg Prod.fst h).symm
      simp only at h4
      rw [h4]
      exact placeTask_ok_capacity hcap1 heq2

theorem deleteTaskOp_ok_capacity {s : BoardState} {id : String}
    {s2 : BoardState} {r : Unit}
    (hcap : capacityOK s) (hnn : activeSizesNonneg s)
    (h : deleteTaskOp s id = (s2, .ok r)) : capacityOK s2 := by
  simp only [deleteTaskOp] at h
  split at h
  · exact absurd (congrArg Prod.snd h) (by simp)
  · split at h
    · exact absurd (congrArg Prod.snd h) (by simp)
    · split at h
      · rename_i t0 loc0 s1 heq
        have hs1 : s1 = removeTaskAt s loc0 := by
          simp only [removeTask] at heq
          split at heq
          · rename_i t1 loc1 heq2
            injection heq with h5
            injection h5 with h6 h7
            injection h7 with h8 h9
            subst h8
            rw [← h9]
          · exact Except.noConfusion heq
        have h4 := (congrArg Prod.fst h).symm
        simp only at h4
        rw [h4, hs1]
        exact removeTaskAt_capacityOK hcap hnn
      · exact absurd (congrArg Prod.snd h) (by simp)

theorem updateTask_normalized_capacity {s : BoardState} {loc : TaskLoc}
    {r1 : Task} {u : String}
    (hcap : capacityOK s) (hk : (loc.kind == LocationCategory) = true)
    (hec : ensureCapacity (((normalizeUrgent (setTaskAt s loc r1) loc.categoryIndex u).categories.get? loc.categoryIndex).getD defaultCategory) = none) :
    capacityOK (normalizeUrgent (setTaskAt s loc r1) loc.categoryIndex u) := by
  refine capacityOK_update loc.categoryIndex hcap (fun j hj => ?_) (fun c1 hc1 => ?_)
  · rw [normalizeUrgent_categories, listModify_get_ne _ _ _ _ hj,
      setTaskAt_categories_cat _ hk, listModify_get_ne _ _ _ _ hj]
  · rw [hc1] at hec
    exact ensureCapacity_none_points hec

theorem updateTaskOp_ok_capacity {s : BoardState} {id : String} {p : TaskPatch}
    {s2 : BoardState} {t2 : Task}
    (hcap : capacityOK s)
    (h : updateTaskOp s id p = (s2, .ok t2)) : capacityOK s2 := by
  simp only [updateTaskOp] at h
  split at h
  · exact absurd (congrArg Prod.snd h) (by simp)
  · rename_i t loc heq
    split at h
    · exact absurd (congrArg Prod.snd h) (by simp)
    · by_cases hk : (loc.kind == LocationCategory) = true
      · simp only [hk, ite_true] at h
        split at h
        · exact absurd (congrArg Prod.snd h) (by simp)
        · rename_i hec
          have h4 := (congrArg Prod.fst h).symm
          simp only at h4
          rw [h4]
          split at hec
          · rename_i hu
            rw [if_pos hu]
            exact updateTask_normalized_capacity hcap hk hec
          · rename_i hu
            rw [if_neg hu]
            exact updateTask_normalized_capacity hcap hk hec
      · have hkb : (loc.kind == LocationCategory) = false := by simpa using hk
        simp only [hkb, Bool.false_eq_true, ite_false] at h
        have h4 := (congrArg Prod.fst h).symm
        simp only at h4
        rw [h4]
        intro c hm
        rw [setTaskAt_categories_noncat _ hkb] at hm
        exact hcap c hm

theorem createCategoryOp_ok_capacity {gen : String} {s : BoardState}
    {name : String} {s2 : BoardState} {c2 : Category}
    (hcap : capacityOK s)
    (h : createCategoryOp gen s name = (s2, .ok c2)) : capacityOK s2 := by
  simp only [createCategoryOp] at h
  split at h
  · exact absurd (congrArg Prod.snd h) (by simp)
  · split at h
    · exact absurd (congrArg Prod.snd h) (by simp)
    · split at h
      · exact absurd (congrArg Prod.snd h) (by simp)
      · split at h
        · exact absurd (congrArg Prod.snd h) (by simp)
        · split at h
          · exact absurd (congrArg Prod.snd h) (by simp)
          · have h4 := (congrArg Prod.fst h).symm
            simp only at h4
            rw [h4]
            intro c hm
            rcases List.mem_append.mp hm with hm1 | hm2
            · exact hcap c hm1
            · have hc : c = ⟨gen, trimSpace name, []⟩ := by simpa using hm2
              rw [hc]
              norm_num [catPoints, taskSizesSum, ColumnCapacity]

theorem renameCategoryOp_ok_capacity {s : BoardState} {id name : String}
    {s2 : BoardState} {c2 : Category}
    (hcap : capacityOK s)
    (h : renameCategoryOp s id name = (s2, .ok c2)) : capacityOK s2 := by
  simp only [renameCategoryOp] at h
  split at h
  · exact absurd (congrArg Prod.snd h) (by simp)
  · split at h
    · exact absurd (congrArg Prod.snd h) (by simp)
    · split at h
      · exact absurd (congrArg Prod.snd h) (by simp)
      · split at h
        · exact absurd (congrArg Prod.snd h) (by simp)
        · split at h
          · rename_i i heq
            have h4 := (congrArg Prod.fst h).symm
            simp only at h4
            rw [h4]
            refine capacityOK_update i hcap (fun j hj => ?_) (fun c1 hc1 => ?_)
            · exact listModify_get_ne _ _ _ _ hj
            · rw [listModify_get_i] at hc1
              obtain ⟨c0, hc0, hfc⟩ := Option.map_eq_some'.mp hc1
              rw [← hfc]
              show catPoints c0 ≤ ColumnCapacity
              exact hcap c0 (List.get?_mem hc0)
          · exact absurd (congrArg Prod.snd h) (by simp)

theorem mem_listInsertIdx {α : Type} {a b : α} {i : Nat} {l : List α}
    (h : a ∈ listInsertIdx i b l) : a = b ∨ a ∈ l := by
  induction i generalizing l with
  | zero =>
    cases l with
    | nil =>
      rcases List.mem_singleton.mp h with h1
      exact Or.inl h1
    | cons x xs =>
      rcases List.mem_cons.mp h with h1 | h2
      · exact Or.inl h1
      · exact Or.inr h2
  | succ n ih =>
    cases l with
    | nil =>
      rcases List.mem_singleton.mp h with h1
      exact Or.inl h1
    | cons x xs =>
      rcases List.mem_cons.mp h with h1 | h2
      · exact Or.inr (by simp [h1])
      · rcases ih h2 with h3 | h4
        · exact Or.inl h3
        · exact Or.inr (by simp [h4])

theorem moveCategoryOp_ok_capacity {s : BoardState} {id : String}
    {dest : MoveCategoryRequest} {s2 : BoardState} {c2 : Category}
    (hcap : capacityOK s)
    (h : moveCategoryOp s id dest = (s2, .ok c2)) : capacityOK s2 := by
  simp only [moveCategoryOp] at h
  split at h
  · exact absurd (congrArg Prod.snd h) (by simp)
  · split at h
    · exact absurd (congrArg Prod.snd h) (by simp)
    · rename_i cat loc s1 heq
      have hcap1 : capacityOK s1 := by
        rcases removeCategory_spec heq with ⟨-, -, -, hs⟩ | ⟨-, -, -, hs⟩ | ⟨-, -, -, hs⟩
        · rw [hs]
          intro c hm
          exact hcap c (List.mem_of_mem_eraseIdx hm)
        · rw [hs]
          intro c hm
          exact hcap c hm
        · rw [hs]
          intro c hm
          exact hcap c hm
      split at h
      · exact absurd (congrArg Prod.snd h) (by simp)
      · rename_i s3 heq2
        have h4 := (congrArg Prod.fst h).symm
        simp only at h4
        rw [h4]
        simp only [placeCategory] at heq2
        split at heq2
        · split at heq2
          · exact absurd (congrArg Prod.snd heq2) (by simp)
          · split at heq2
            · exact absurd (congrArg Prod.snd heq2) (by simp)
            · rename_i hlim x hec
              have h5 := (congrArg Prod.fst heq2).symm
              simp only at h5
              rw [h5]
              intro c hm
              rcases mem_listInsertIdx hm with h6 | h7
              · rw [h6]
                exact ensureCapacity_none_points hec
              · exact hcap1 c h7
        · split at heq2
          · have h5 := (congrArg Prod.fst heq2).symm
            simp only at h5
            rw [h5]
            intro c hm
            exact hcap1 c hm
          · split at heq2
            · have h5 := (congrArg Prod.fst heq2).symm
              simp only at h5
              rw [h5]
              intro c hm
              exact hcap1 c hm
            · exact absurd (congrArg Prod.snd heq2) (by simp)

theorem reorderCategoryTasksOp_ok_capacity {s : BoardState} {id : String}
    {order : List String} {s2 : BoardState} {c2 : Category}
    (hcap : capacityOK s)
    (hnd : ∀ c ∈ s.categories, (c.tasks.map Task.id).Nodup)
    (h : reorderCategoryTasksOp s id order = (s2, .ok c2)) : capacityOK s2 := by
  simp only [reorderCategoryTasksOp] at h
  split at h
  · rename_i cats found heq
    cases hci : findCategoryIndex s.categories id with
    | none =>
      rw [reorderInCats_none (o := order) hci] at heq
      exact Except.noConfusion heq
    | some ci =>
      obtain ⟨c, hc, -⟩ := findCategoryIndex_some hci
      rw [reorderInCats_found (o := order) hci hc] at heq
      split at heq
      · rename_i ts hrt
        injection heq with h5
        injection h5 with h6 h7
        have h4 := (congrArg Prod.fst h).symm
        simp only at h4
        rw [h4, ← h6]
        have hperm := (reorderTasks_ok_spec (hnd c (List.get?_mem hc)) hrt).2.2.1
        refine capacityOK_set_cat hcap ?_
        show catPoints { c with tasks := ts } ≤ ColumnCapacity
        have hpts : catPoints { c with tasks := ts } = catPoints c := by
          simp only [catPoints]
          exact taskSizesSum_perm hperm
        rw [hpts]
        exact hcap c (List.get?_mem hc)
      · exact Except.noConfusion heq
  · exact absurd (congrArg Prod.snd h) (by simp)

theorem taskSizesSum_set_focus (ts : List Task) (i : Nat) (d : Task) (b : Bool) :
    taskSizesSum (ts.set i { (ts.get? i).getD d with focused := b }) = taskSizesSum ts := by
  induction ts generalizing i with
  | nil => rfl
  | cons x xs ih =>
    cases i with
    | zero =>
      show taskSizesSum ({ (some x).getD d with focused := b } :: xs) = taskSizesSum (x :: xs)
      rw [taskSizesSum_cons, taskSizesSum_cons]
      rfl
    | succ n =>
      show taskSizesSum (x :: xs.set n { (xs.get? n).getD d with focused := b }) = taskSizesSum (x :: xs)
      rw [taskSizesSum_cons, taskSizesSum_cons, ih]

theorem setFocusedOp_ok_capacity {s : BoardState} {id : String}
    {s2 : BoardState} {t2 : Task}
    (hcap : capacityOK s)
    (h : setFocusedOp s id = (s2, .ok t2)) : capacityOK s2 := by
  simp only [setFocusedOp] at h
  split at h
  · have h4 := (congrArg Prod.fst h).symm
    simp only at h4
    rw [h4]
    exact clearFocus_capacityOK hcap
  · split at h
    · exact absurd (congrArg Prod.snd h) (by simp)
    · rename_i t loc heq
      have h4 := (congrArg Prod.fst h).symm
      simp only at h4
      rw [h4]
      have hcap1 : capacityOK (clearFocus s) := clearFocus_capacityOK hcap
      by_cases hk : (loc.kind == LocationCategory) = true
      · refine capacityOK_update loc.categoryIndex hcap1 (fun j hj => ?_) (fun c1 hc1 => ?_)
        · rw [setTaskAt_categories_cat _ hk, listModify_get_ne _ _ _ _ hj]
        · rw [setTaskAt_categories_cat _ hk, listModify_get_i] at hc1
          obtain ⟨c0, hc0, hfc⟩ := Option.map_eq_some'.mp hc1
          rw [← hfc]
          have hgt : getTaskAt (clearFocus s) loc = c0.tasks.get? loc.taskIndex := by
            simp only [getTaskAt, hk, ite_true, hc0, Option.map_some', Option.some_bind]
          show catPoints { c0 with tasks := c0.tasks.set loc.taskIndex { (getTaskAt (clearFocus s) loc).getD defaultTask with focused := true } } ≤ ColumnCapacity
          rw [hgt]
          have hpts : catPoints { c0 with tasks := c0.tasks.set loc.taskIndex { (c0.tasks.get? loc.taskIndex).getD defaultTask with focused := true } } = catPoints c0 := by
            simp only [catPoints]
            exact taskSizesSum_set_focus c0.tasks loc.taskIndex defaultTask true
          rw [hpts]
          exact hcap1 c0 (List.get?_mem hc0)
      · have hkb : (loc.kind == LocationCategory) = false := by simpa using hk
        intro c hm
        rw [setTaskAt_categories_noncat _ hkb] at hm
        exact hcap1 c hm

theorem createTaskReqValidate_none_spec {r : CreateTaskRequest}
    (h : createTaskReqValidate r = none) :
    validTaskState r.task.state = true ∧ 1 ≤ r.task.size ∧ r.task.size ≤ 5 := by
  simp only [createTaskReqValidate] at h
  split at h
  · exact Option.noConfusion h
  · rename_i hst
    split at h
    · exact Option.noConfusion h
    · rename_i hsz
      refine ⟨by simpa using hst, ?_, ?_⟩
      · simp only [Bool.or_eq_true, decide_eq_true_eq, not_or] at hsz
        omega
      · simp only [Bool.or_eq_true, decide_eq_true_eq, not_or] at hsz
        omega

theorem normalizedNewTask_state (gen : String) (t0 : Task) :
    (normalizedNewTask gen t0).state = t0.state := by
  simp only [normalizedNewTask]
  split
  · split
    · rfl
    · rfl
  · split
    · rfl
    · rfl

theorem normalizedNewTask_size_of_ne (gen : String) (t0 : Task)
    (h : (t0.size == 0) = false) :
    (normalizedNewTask gen t0).size = t0.size := by
  simp only [normalizedNewTask]
  split
  · split
    · rename_i h2
      rw [show ({ t0 with id := gen } : Task).size = t0.size from rfl, h] at h2
      exact Bool.noConfusion h2
    · rfl
  · split
    · rename_i h2
      rw [h] at h2
      exact Bool.noConfusion h2
    · rfl

theorem createTaskOp_overflow {gen : String} {s : BoardState} {req : CreateTaskRequest}
    {idx : Nat} {c : Category}
    (hval : createTaskReqValidate (createTaskReqNormalize req) = none)
    (hloc : (createTaskReqNormalize req).location = LocationCategory)
    (hci : findCategoryIndex s.categories (createTaskReqNormalize req).categoryId = some idx)
    (hg : s.categories.get? idx = some c)
    (hnnc : ∀ t ∈ c.tasks, 0 ≤ t.size)
    (hover : catPoints c + (normalizedNewTask gen (createTaskReqNormalize req).task).size > ColumnCapacity) :
    (createTaskOp gen s req).2 = .error .capacityExceeded := by
  obtain ⟨hst, hs1, hs5⟩ := createTaskReqValidate_none_spec hval
  have hszne : ((createTaskReqNormalize req).task.size == 0) = false := by
    simp only [beq_eq_false_iff_ne]
    omega
  have htsize : (normalizedNewTask gen (createTaskReqNormalize req).task).size
      = (createTaskReqNormalize req).task.size :=
    normalizedNewTask_size_of_ne _ _ hszne
  have htstate : (normalizedNewTask gen (createTaskReqNormalize req).task).state
      = (createTaskReqNormalize req).task.state :=
    normalizedNewTask_state _ _
  simp only [createTaskOp, hval]
  simp only [insertTask]
  split
  · rename_i hcond
    exfalso
    simp only [Bool.or_eq_true, decide_eq_true_eq] at hcond
    rw [htsize] at hcond
    rcases hcond with h6 | h6 <;> omega
  · split
    · rename_i hcond
      exfalso
      rw [htstate, hst] at hcond
      simp at hcond
    · split
      · rw [hci]
        have hec : ensureCapacity { c with tasks := listInsertIdx (insertIndexFor (createTaskReqNormalize req).position c.tasks.length) (normalizedNewTask gen (createTaskReqNormalize req).task) c.tasks } = some .capacityExceeded := by
          refine ensureCapacity_some_of ?_ ?_
          · intro t ht
            rcases mem_listInsertIdx ht with h6 | h7
            · rw [h6, htsize]
              omega
            · exact hnnc t h7
          · show taskSizesSum (listInsertIdx (insertIndexFor (createTaskReqNormalize req).position c.tasks.length) (normalizedNewTask gen (createTaskReqNormalize req).task) c.tasks) > ColumnCapacity
            rw [taskSizesSum_listInsertIdx]
            have h8 : catPoints c = taskSizesSum c.tasks := rfl
            rw [h8] at hover
            linarith
        simp only [insertTaskInCategory, hg, Option.getD_some, hec]
      · rename_i hcond
        exact absurd (by rw [hloc]; simp : ((createTaskReqNormalize req).location == LocationCategory) = true) hcond

theorem moveCategoryOp_overflow {s : BoardState} {id : String}
    {dest : MoveCategoryRequest} {cat : Category} {loc : CatLoc} {s1 : BoardState}
    (hv : moveCatReqValidate (moveCatReqNormalize dest) = none)
    (hloc : (moveCatReqNormalize dest).location = LocationCategoryBoard)
    (hrc : removeCategory s id = .ok (cat, loc, s1))
    (hlim : s1.categories.length < CategoryLimitN)
    (hnn : ∀ t ∈ cat.tasks, 0 ≤ t.size)
    (hover : catPoints cat > ColumnCapacity) :
    moveCategoryOp s id dest = (s, .error .capacityExceeded) := by
  have hec : ensureCapacity cat = some .capacityExceeded := ensureCapacity_some_of hnn hover
  have hb : ((moveCatReqNormalize dest).location == LocationCategoryBoard) = true := by
    rw [hloc]
    simp
  have hplace : placeCategory s1 cat (moveCatReqNormalize dest) = (s1, some .capacityExceeded) := by
    simp only [placeCategory, hb, ite_true, hec]
    rw [if_neg (Nat.not_le.mpr hlim)]
  simp only [moveCategoryOp, hv, hrc, hplace]
  rw [restoreCategory_undo hrc]

/-- Board with an overloaded category parked in the category backburner. -/
def ovBoard : BoardState :=
  ⟨[⟨"c1", "One", []⟩], [], [], [⟨"p9", "Over", [mkTask "z" 6]⟩], []⟩

/-- C3: from a state whose active categories are within capacity (with
non-negative sizes), every successful operation leaves every active
category's size sum at most 5; a CreateTask insertion that would push the
target category's sum above 5 is rejected with CapacityExceeded, and a
MoveCategory onto the board of a category whose own sum exceeds 5 is
rejected with CapacityExceeded, restoring the state.  (ReorderCategoryTasks
additionally assumes the data-model invariant of unique task IDs.) -/
theorem C3_capacity_invariant (s : BoardState) (gen id name : String)
    (req : CreateTaskRequest) (p : TaskPatch) (mreq : MoveTaskRequest)
    (dest : MoveCategoryRequest) (order : List String)
    (hcap : capacityOK s) (hnn : activeSizesNonneg s) :
    (∀ s2 r, createTaskOp gen s req = (s2, .ok r) → capacityOK s2) ∧
    (∀ s2 r, updateTaskOp s id p = (s2, .ok r) → capacityOK s2) ∧
    (∀ s2 r, moveTaskOp s id mreq = (s2, .ok r) → capacityOK s2) ∧
    (∀ s2 r, deleteTaskOp s id = (s2, .ok r) → capacityOK s2) ∧
    (∀ s2 r, createCategoryOp gen s name = (s2, .ok r) → capacityOK s2) ∧
    (∀ s2 r, renameCategoryOp s id name = (s2, .ok r) → capacityOK s2) ∧
    (∀ s2 r, moveCategoryOp s id dest = (s2, .ok r) → capacityOK s2) ∧
    ((∀ c ∈ s.categories, (c.tasks.map Task.id).Nodup) →
      ∀ s2 r, reorderCategoryTasksOp s id order = (s2, .ok r) → capacityOK s2) ∧
    (∀ s2 r, setFocusedOp s id = (s2, .ok r) → capacityOK s2) ∧
    (∀ idx c, createTaskReqValidate (createTaskReqNormalize req) = none →
      (createTaskReqNormalize req).location = LocationCategory →
      findCategoryIndex s.categories (createTaskReqNormalize req).categoryId = some idx →
      s.categories.get? idx = some c →
      catPoints c + (normalizedNewTask gen (createTaskReqNormalize req).task).size > ColumnCapacity →
      (createTaskOp gen s req).2 = .error .capacityExceeded) ∧
    (∀ cat loc s1, moveCatReqValidate (moveCatReqNormalize dest) = none →
      (moveCatReqNormalize dest).location = LocationCategoryBoard →
      removeCategory s id = .ok (cat, loc, s1) →
      s1.categories.length < CategoryLimitN →
      (∀ t ∈ cat.tasks, 0 ≤ t.size) →
      catPoints cat > ColumnCapacity →
      moveCategoryOp s id dest = (s, .error .capacityExceeded)) := by
  refine ⟨?_, ?_, ?_, ?_, ?_, ?_, ?_, ?_, ?_, ?_, ?_⟩
  · intro s2 r h
    exact createTaskOp_ok_capacity hcap h
  · intro s2 r h
    exact updateTaskOp_ok_capacity hcap h
  · intro s2 r h
    exact moveTaskOp_ok_capacity hcap hnn h
  · intro s2 r h
    exact deleteTaskOp_ok_capacity hcap hnn h
  · intro s2 r h
    exact createCategoryOp_ok_capacity hcap h
  · intro s2 r h
    exact renameCategoryOp_ok_capacity hcap h
  · intro s2 r h
    exact moveCategoryOp_ok_capacity hcap h
  · intro hnd s2 r h
    exact reorderCategoryTasksOp_ok_capacity hcap hnd h
  · intro s2 r h
    exact setFocusedOp_ok_capacity hcap h
  · intro idx c hval hloc hci hg hover
    exact createTaskOp_overflow hval hloc hci hg (hnn c (List.get?_mem hg)) hover
  · intro cat loc s1 hv hloc hrc hlim hnnc hover
    exact moveCategoryOp_overflow hv hloc hrc hlim hnnc hover

theorem C3_capacity_invariant_witness :
    capacityOK capBoard ∧ activeSizesNonneg capBoard ∧
    (createTaskOp "g1" capBoard ⟨LocationCategory, "c1", none, mkTask "x" 3⟩).2 =
      .error .capacityExceeded ∧
    moveCategoryOp ovBoard "p9" ⟨LocationCategoryBoard, none⟩ =
      (ovBoard, .error .capacityExceeded) := by
  have h1 := C3_capacity_invariant capBoard "g1" "a" "N"
    ⟨LocationCategory, "c1", none, mkTask "x" 3⟩ emptyPatch
    ⟨LocationBackburner, "", none, "", ""⟩ ⟨LocationCategoryBoard, none⟩ []
    (by unfold capacityOK; decide) (by unfold activeSizesNonneg; decide)
  have h2 := C3_capacity_invariant ovBoard "g1" "p9" "N"
    ⟨LocationCategory, "c1", none, mkTask "x" 3⟩ emptyPatch
    ⟨LocationBackburner, "", none, "", ""⟩ ⟨LocationCategoryBoard, none⟩ []
    (by unfold capacityOK; decide) (by unfold activeSizesNonneg; decide)
  refine ⟨by unfold capacityOK; decide, by unfold activeSizesNonneg; decide, ?_, ?_⟩
  · exact h1.2.2.2.2.2.2.2.2.2.1 0 ⟨"c1", "One", [mkTask "a" 3, mkTask "b" 2]⟩
      (by decide) (by decide) (by decide) (by decide) (by decide)
  · exact h2.2.2.2.2.2.2.2.2.2.2 ⟨"p9", "Over", [mkTask "z" 6]⟩
      ⟨LocationBackburner, 0⟩ { ovBoard with categoryBackburner := [] }
      (by decide) (by decide) (by decide) (by decide) (by decide) (by decide)

theorem C4_update_urgent_normalizes_witness :
    findTask urgBoard "e" = .ok (mkTask "e" 1, ⟨LocationCategory, 0, 0⟩) ∧
    (∀ c', (updateTaskOp urgBoard "e" namePatch).1.categories.get? 0 = some c' →
        ∀ x ∈ c'.tasks, x.urgent = (x.id == "")) := by
  have h := C4_update_urgent_normalizes urgBoard "e" namePatch (mkTask "e" 1)
    ⟨LocationCategory, 0, 0⟩ (by decide) (by decide) (by decide) (by decide)
  exact ⟨by decide, h.1⟩

/-! ## Claim C2: focus-count machinery -/

theorem sum_map_set {α : Type} (F : α → Nat) {l : List α} {i : Nat} {a0 : α} (a : α)
    (h : l.get? i = some a0) :
    ((l.set i a).map F).sum + F a0 = (l.map F).sum + F a := by
  induction l generalizing i with
  | nil => simp at h
  | cons x xs ih =>
    cases i with
    | zero =>
      rw [List.get?_cons_zero] at h
      injection h with h1
      subst h1
      show F a + ((xs.map F).sum) + F x = F x + (xs.map F).sum + F a
      omega
    | succ n =>
      rw [List.get?_cons_succ] at h
      show F x + (((xs.set n a).map F).sum) + F a0 = F x + ((xs.map F).sum) + F a
      have h2 := ih h
      omega

theorem sum_map_eraseIdx {α : Type} (F : α → Nat) {l : List α} {i : Nat} {a0 : α}
    (h : l.get? i = some a0) :
    ((l.eraseIdx i).map F).sum + F a0 = (l.map F).sum := by
  induction l generalizing i with
  | nil => simp at h
  | cons x xs ih =>
    cases i with
    | zero =>
      rw [List.get?_cons_zero] at h
      injection h with h1
      subst h1
      show (xs.map F).sum + F x = F x + (xs.map F).sum
      omega
    | succ n =>
      rw [List.get?_cons_succ] at h
      show F x + (((xs.eraseIdx n).map F).sum) + F a0 = F x + ((xs.map F).sum)
      have h2 := ih h
      omega

theorem sum_map_eraseIdx_le {α : Type} (F : α → Nat) (l : List α) (i : Nat) :
    ((l.eraseIdx i).map F).sum ≤ (l.map F).sum := by
  cases hg : l.get? i with
  | some a0 =>
    have h2 := sum_map_eraseIdx F hg
    omega
  | none =>
    have hge : l.length ≤ i := by
      by_contra hlt
      rcases List.get?_eq_get (Nat.lt_of_not_le hlt) with h2
      rw [h2] at hg
      exact Option.noConfusion hg
    rw [List.eraseIdx_of_length_le hge]

theorem sum_map_listInsertIdx {α : Type} (F : α → Nat) (i : Nat) (a : α) (l : List α) :
    ((listInsertIdx i a l).map F).sum = F a + (l.map F).sum := by
  induction i generalizing l with
  | zero =>
    cases l with
    | nil => rfl
    | cons x xs => rfl
  | succ n ih =>
    cases l with
    | nil => rfl
    | cons x xs =>
      show F x + (((listInsertIdx n a xs).map F).sum) = F a + (F x + (xs.map F).sum)
      have h2 := ih xs
      omega

theorem countP_listInsertIdx (p : Task → Bool) (i : Nat) (a : Task) (l : List Task) :
    (listInsertIdx i a l).countP p = l.countP p + (if p a then 1 else 0) := by
  induction i generalizing l with
  | zero =>
    cases l with
    | nil =>
      show (a :: ([] : List Task)).countP p = ([] : List Task).countP p + (if p a then 1 else 0)
      rw [List.countP_cons, List.countP_nil]
    | cons x xs =>
      show (a :: x :: xs).countP p = (x :: xs).countP p + (if p a then 1 else 0)
      rw [List.countP_cons]
  | succ n ih =>
    cases l with
    | nil =>
      show (a :: ([] : List Task)).countP p = ([] : List Task).countP p + (if p a then 1 else 0)
      rw [List.countP_cons, List.countP_nil]
    | cons x xs =>
      show (x :: listInsertIdx n a xs).countP p = (x :: xs).countP p + (if p a then 1 else 0)
      rw [List.countP_cons, List.countP_cons, ih]
      omega

theorem countP_set {p : Task → Bool} {l : List Task} {i : Nat} {t0 : Task} (t : Task)
    (h : l.get? i = some t0) :
    (l.set i t).countP p + (if p t0 then 1 else 0)
      = l.countP p + (if p t then 1 else 0) := by
  induction l generalizing i with
  | nil => simp at h
  | cons x xs ih =>
    cases i with
    | zero =>
      rw [List.get?_cons_zero] at h
      injection h with h1
      subst h1
      show (t :: xs).countP p + (if p x then 1 else 0)
        = (x :: xs).countP p + (if p t then 1 else 0)
      rw [List.countP_cons, List.countP_cons]
      omega
    | succ n =>
      rw [List.get?_cons_succ] at h
      show (x :: xs.set n t).countP p + (if p t0 then 1 else 0)
        = (x :: xs).countP p + (if p t then 1 else 0)
      rw [List.countP_cons, List.countP_cons]
      have h2 := ih h
      omega

theorem countP_eraseIdx {p : Task → Bool} {l : List Task} {i : Nat} {t0 : Task}
    (h : l.get? i = some t0) :
    (l.eraseIdx i).countP p + (if p t0 then 1 else 0) = l.countP p := by
  induction l generalizing i with
  | nil => simp at h
  | cons x xs ih =>
    cases i with
    | zero =>
      rw [List.get?_cons_zero] at h
      injection h with h1
      subst h1
      show xs.countP p + (if p x then 1 else 0) = (x :: xs).countP p
      rw [List.countP_cons]
    | succ n =>
      rw [List.get?_cons_succ] at h
      show (x :: xs.eraseIdx n).countP p + (if p t0 then 1 else 0) = (x :: xs).countP p
      rw [List.countP_cons, List.countP_cons]
      have h2 := ih h
      omega

theorem tasksFocusedCount_map_clear (ts : List Task) :
    tasksFocusedCount (ts.map (fun t => { t with focused := false })) = 0 := by
  induction ts with
  | nil => rfl
  | cons x xs ih =>
    show tasksFocusedCount ({ x with focused := false } :: xs.map _) = 0
    simp only [tasksFocusedCount, List.countP_cons] at ih ⊢
    rw [ih]
    norm_num

theorem catsFocusedCount_map_clear (cs : List Category) :
    catsFocusedCount (cs.map (fun c =>
      { c with tasks := c.tasks.map (fun t => { t with focused := false }) })) = 0 := by
  induction cs with
  | nil => rfl
  | cons x xs ih =>
    show tasksFocusedCount (x.tasks.map (fun t => { t with focused := false }))
      + catsFocusedCount (xs.map _) = 0
    rw [tasksFocusedCount_map_clear, ih]

theorem focusedCount_clearFocus (s : BoardState) : focusedCount (clearFocus s) = 0 := by
  show catsFocusedCount (s.categories.map _) + tasksFocusedCount (s.backburner.map _)
    + tasksFocusedCount (s.archives.map _) + catsFocusedCount (s.categoryBackburner.map _)
    + catsFocusedCount (s.categoryArchives.map _) = 0
  rw [catsFocusedCount_map_clear, tasksFocusedCount_map_clear,
    tasksFocusedCount_map_clear, catsFocusedCount_map_clear, catsFocusedCount_map_clear]

theorem parkedUnfocused_clearFocus (s : BoardState) : parkedUnfocused (clearFocus s) := by
  constructor
  · intro c hc t ht
    rcases List.mem_map.mp hc with ⟨c0, -, hc0⟩
    rw [← hc0] at ht
    rcases List.mem_map.mp ht with ⟨t0, -, ht0⟩
    rw [← ht0]
  · intro c hc t ht
    rcases List.mem_map.mp hc with ⟨c0, -, hc0⟩
    rw [← hc0] at ht
    rcases List.mem_map.mp ht with ⟨t0, -, ht0⟩
    rw [← ht0]

theorem tfc_eq_zero {ts : List Task} (h : ∀ t ∈ ts, t.focused = false) :
    tasksFocusedCount ts = 0 := by
  refine List.countP_eq_zero.mpr ?_
  intro t ht
  simp [h t ht]

theorem tfc_append_singleton (l : List Task) (t : Task) :
    tasksFocusedCount (l ++ [t]) = tasksFocusedCount l + (if t.focused then 1 else 0) := by
  simp only [tasksFocusedCount, List.countP_append, List.countP_cons, List.countP_nil]
  omega

theorem cfc_append_singleton (cs : List Category) (c : Category) :
    catsFocusedCount (cs ++ [c]) = catsFocusedCount cs + tasksFocusedCount c.tasks := by
  simp only [catsFocusedCount, List.map_append, List.sum_append, List.map_cons,
    List.map_nil, List.sum_cons, List.sum_nil]
  omega

theorem tfc_map_urgent (u : String) (ts : List Task) :
    tasksFocusedCount (ts.map (fun t => { t with urgent := t.id == u })) = tasksFocusedCount ts := by
  induction ts with
  | nil => rfl
  | cons x xs ih =>
    show tasksFocusedCount ({ x with urgent := x.id == u } :: xs.map _) = tasksFocusedCount (x :: xs)
    simp only [tasksFocusedCount, List.countP_cons] at ih ⊢
    rw [ih]

theorem tfc_map_focus (u : String) (ts : List Task) :
    tasksFocusedCount (ts.map (fun t => { t with focused := t.id == u && u != "" }))
      = ts.countP (fun t => t.id == u && u != "") := by
  induction ts with
  | nil => rfl
  | cons x xs ih =>
    show tasksFocusedCount ({ x with focused := x.id == u && u != "" } :: xs.map _)
      = (x :: xs).countP _
    simp only [tasksFocusedCount, List.countP_cons] at ih ⊢
    rw [ih]

theorem cfc_map_focus (u : String) (cs : List Category) :
    catsFocusedCount (cs.map (fun c =>
      { c with tasks := c.tasks.map (fun t => { t with focused := t.id == u && u != "" }) }))
      = (cs.map (fun c => c.tasks.countP (fun t => t.id == u && u != ""))).sum := by
  induction cs with
  | nil => rfl
  | cons x xs ih =>
    show tasksFocusedCount (x.tasks.map _) + catsFocusedCount (xs.map _)
      = x.tasks.countP _ + (xs.map _).sum
    rw [tfc_map_focus, ih]

theorem listModify_of_get?_none {α : Type} (f : α → α) {i : Nat} {l : List α}
    (h : l.get? i = none) : listModify f i l = l := by
  induction l generalizing i with
  | nil => cases i <;> rfl
  | cons x xs ih =>
    cases i with
    | zero =>
      rw [List.get?_cons_zero] at h
      exact Option.noConfusion h
    | succ n =>
      rw [List.get?_cons_succ] at h
      show x :: listModify f n xs = x :: xs
      rw [ih h]

theorem sum_map_zero {α : Type} (F : α → Nat) {l : List α}
    (h : ∀ j aj, l.get? j = some aj → F aj = 0) : (l.map F).sum = 0 := by
  induction l with
  | nil => rfl
  | cons x xs ih =>
    show F x + (xs.map F).sum = 0
    rw [h 0 x rfl, ih (fun j aj hj => h (j + 1) aj hj)]

theorem sum_map_le_single {α : Type} (F : α → Nat) (l : List α) (idx : Nat)
    (h : ∀ j aj, l.get? j = some aj → F aj ≤ (if j = idx then 1 else 0)) :
    (l.map F).sum ≤ 1 := by
  induction l generalizing idx with
  | nil => simp
  | cons x xs ih =>
    show F x + (xs.map F).sum ≤ 1
    cases idx with
    | zero =>
      have hx := h 0 x rfl
      rw [if_pos rfl] at hx
      have htail : (xs.map F).sum = 0 := by
        refine sum_map_zero F (fun j aj hj => ?_)
        have h2 := h (j + 1) aj hj
        rw [if_neg (Nat.succ_ne_zero j)] at h2
        omega
      omega
    | succ k =>
      have hx := h 0 x rfl
      rw [if_neg (by omega)] at hx
      have htail := ih k (fun j aj hj => by
        have h2 := h (j + 1) aj hj
        by_cases hjk : j = k
        · rw [if_pos (by omega)] at h2
          rw [if_pos hjk]
          exact h2
        · rw [if_neg (by omega)] at h2
          rw [if_neg hjk]
          exact h2)
      omega

theorem parkedUnfocused_normalizeUrgent {s : BoardState} {i : Nat} {u : String}
    (h : parkedUnfocused s) : parkedUnfocused (normalizeUrgent s i u) := h

theorem parkedUnfocused_setTaskAt {s : BoardState} {loc : TaskLoc} {t : Task}
    (h : parkedUnfocused s) : parkedUnfocused (setTaskAt s loc t) := by
  simp only [setTaskAt]
  split
  · exact h
  · split
    · exact h
    · split
      · exact h
      · exact h

theorem parkedUnfocused_removeTaskAt {s : BoardState} {loc : TaskLoc}
    (h : parkedUnfocused s) : parkedUnfocused (removeTaskAt s loc) := by
  simp only [removeTaskAt]
  split
  · exact h
  · split
    · exact h
    · split
      · exact h
      · exact h

theorem parkedUnfocused_normalizeFocus (s : BoardState) (u : String) :
    parkedUnfocused (normalizeFocus s u) := by
  constructor
  · intro c hc t ht
    rcases List.mem_map.mp hc with ⟨c0, -, hc0⟩
    rw [← hc0] at ht
    rcases List.mem_map.mp ht with ⟨t0, -, ht0⟩
    rw [← ht0]
  · intro c hc t ht
    rcases List.mem_map.mp hc with ⟨c0, -, hc0⟩
    rw [← hc0] at ht
    rcases List.mem_map.mp ht with ⟨t0, -, ht0⟩
    rw [← ht0]

theorem focusedCount_normalizeUrgent (s : BoardState) (i : Nat) (u : String) :
    focusedCount (normalizeUrgent s i u) = focusedCount s := by
  show catsFocusedCount (listModify _ i s.categories) + tasksFocusedCount s.backburner
    + tasksFocusedCount s.archives + catsFocusedCount s.categoryBackburner
    + catsFocusedCount s.categoryArchives = focusedCount s
  cases hg : s.categories.get? i with
  | none =>
    rw [listModify_of_get?_none _ hg]
    rfl
  | some c0 =>
    rw [listModify_eq_set _ _ _ _ hg]
    have e1 := sum_map_set (fun c => tasksFocusedCount c.tasks)
      { c0 with tasks := c0.tasks.map (fun t => { t with urgent := t.id == u }) } hg
    simp only at e1
    have e2 : tasksFocusedCount (c0.tasks.map (fun t => { t with urgent := t.id == u })) = tasksFocusedCount c0.tasks := tfc_map_urgent u c0.tasks
    show ((s.categories.set i { c0 with tasks := c0.tasks.map (fun t => { t with urgent := t.id == u }) }).map (fun c => tasksFocusedCount c.tasks)).sum
      + tasksFocusedCount s.backburner + tasksFocusedCount s.archives
      + catsFocusedCount s.categoryBackburner + catsFocusedCount s.categoryArchives
      = (s.categories.map (fun c => tasksFocusedCount c.tasks)).sum
      + tasksFocusedCount s.backburner + tasksFocusedCount s.archives
      + catsFocusedCount s.categoryBackburner + catsFocusedCount s.categoryArchives
    rw [e2] at e1
    omega

theorem focusedCount_normalizeFocus (s : BoardState) (u : String) :
    focusedCount (normalizeFocus s u)
      = (s.categories.map (fun c => c.tasks.countP (fun t => t.id == u && u != ""))).sum := by
  show catsFocusedCount (s.categories.map _) + tasksFocusedCount (s.backburner.map _)
    + tasksFocusedCount (s.archives.map _) + catsFocusedCount (s.categoryBackburner.map _)
    + catsFocusedCount (s.categoryArchives.map _) = _
  rw [cfc_map_focus, tasksFocusedCount_map_clear, tasksFocusedCount_map_clear,
    catsFocusedCount_map_clear, catsFocusedCount_map_clear]
  omega

theorem normalizedNewTask_id (gen : String) (t0 : Task) :
    (normalizedNewTask gen t0).id = (if (t0.id == "") = true then gen else t0.id) := by
  by_cases hid : (t0.id == "") = true
  · rw [if_pos hid]
    simp only [normalizedNewTask, hid, ite_true]
    split
    · rfl
    · rfl
  · rw [if_neg hid]
    have hidf : (t0.id == "") = false := by simpa using hid
    simp only [normalizedNewTask, hidf, Bool.false_eq_true, ite_false]
    split
    · rfl
    · rfl

theorem focusedCount_parts (s : BoardState) :
    focusedCount s = (s.categories.map (fun c => tasksFocusedCount c.tasks)).sum
      + tasksFocusedCount s.backburner + tasksFocusedCount s.archives
      + (s.categoryBackburner.map (fun c => tasksFocusedCount c.tasks)).sum
      + (s.categoryArchives.map (fun c => tasksFocusedCount c.tasks)).sum := rfl

theorem setTaskAt_focusedCount {s : BoardState} {loc : TaskLoc} {t0 : Task} (t : Task)
    (hget : getTaskAt s loc = some t0) :
    focusedCount (setTaskAt s loc t) + (if t0.focused then 1 else 0)
      = focusedCount s + (if t.focused then 1 else 0) := by
  by_cases hk : (loc.kind == LocationCategory) = true
  · obtain ⟨c0, hc0, ht0⟩ := getTaskAt_category hget (by simpa using hk)
    have heq : setTaskAt s loc t = { s with categories := listModify (fun c => { c with tasks := c.tasks.set loc.taskIndex t }) loc.categoryIndex s.categories } := by
      simp only [setTaskAt, hk, ite_true]
    rw [heq]
    simp only [focusedCount_parts]
    rw [listModify_eq_set _ _ _ _ hc0]
    have e1 := sum_map_set (fun c => tasksFocusedCount c.tasks) { c0 with tasks := c0.tasks.set loc.taskIndex t } hc0
    simp only at e1
    have e2 : tasksFocusedCount (c0.tasks.set loc.taskIndex t) + (if t0.focused then 1 else 0)
        = tasksFocusedCount c0.tasks + (if t.focused then 1 else 0) := countP_set t ht0
    omega
  · by_cases hb : (loc.kind == LocationBackburner) = true
    · have heq : setTaskAt s loc t = { s with backburner := s.backburner.set loc.taskIndex t } := by
        simp only [setTaskAt, hk, Bool.false_eq_true, ite_false, hb, ite_true]
      have hgt : s.backburner.get? loc.taskIndex = some t0 := by
        simp only [getTaskAt, hk, Bool.false_eq_true, ite_false, hb, ite_true] at hget
        exact hget
      rw [heq]
      simp only [focusedCount_parts]
      have e2 : tasksFocusedCount (s.backburner.set loc.taskIndex t) + (if t0.focused then 1 else 0)
          = tasksFocusedCount s.backburner + (if t.focused then 1 else 0) := countP_set t hgt
      omega
    · by_cases ha : (loc.kind == LocationArchive) = true
      · have heq : setTaskAt s loc t = { s with archives := s.archives.set loc.taskIndex t } := by
          simp only [setTaskAt, hk, hb, Bool.false_eq_true, ite_false, ha, ite_true]
        have hgt : s.archives.get? loc.taskIndex = some t0 := by
          simp only [getTaskAt, hk, hb, Bool.false_eq_true, ite_false, ha, ite_true] at hget
          exact hget
        rw [heq]
        simp only [focusedCount_parts]
        have e2 : tasksFocusedCount (s.archives.set loc.taskIndex t) + (if t0.focused then 1 else 0)
            = tasksFocusedCount s.archives + (if t.focused then 1 else 0) := countP_set t hgt
        omega
      · exfalso
        simp only [getTaskAt, hk, hb, ha, Bool.false_eq_true, ite_false] at hget
        exact Option.noConfusion hget

theorem removeTaskAt_focusedCount {s : BoardState} {loc : TaskLoc} {t0 : Task}
    (hget : getTaskAt s loc = some t0) :
    focusedCount (removeTaskAt s loc) + (if t0.focused then 1 else 0) = focusedCount s := by
  by_cases hk : (loc.kind == LocationCategory) = true
  · obtain ⟨c0, hc0, ht0⟩ := getTaskAt_category hget (by simpa using hk)
    have heq : removeTaskAt s loc = { s with categories := listModify (fun c => { c with tasks := c.tasks.eraseIdx loc.taskIndex }) loc.categoryIndex s.categories } := by
      simp only [removeTaskAt, hk, ite_true]
    rw [heq]
    simp only [focusedCount_parts]
    rw [listModify_eq_set _ _ _ _ hc0]
    have e1 := sum_map_set (fun c => tasksFocusedCount c.tasks) { c0 with tasks := c0.tasks.eraseIdx loc.taskIndex } hc0
    simp only at e1
    have e2 : tasksFocusedCount (c0.tasks.eraseIdx loc.taskIndex) + (if t0.focused then 1 else 0)
        = tasksFocusedCount c0.tasks := countP_eraseIdx ht0
    omega
  · by_cases hb : (loc.kind == LocationBackburner) = true
    · have heq : removeTaskAt s loc = { s with backburner := s.backburner.eraseIdx loc.taskIndex } := by
        simp only [removeTaskAt, hk, Bool.false_eq_true, ite_false, hb, ite_true]
      have hgt : s.backburner.get? loc.taskIndex = some t0 := by
        simp only [getTaskAt, hk, Bool.false_eq_true, ite_false, hb, ite_true] at hget
        exact hget
      rw [heq]
      simp only [focusedCount_parts]
      have e2 : tasksFocusedCount (s.backburner.eraseIdx loc.taskIndex) + (if t0.focused then 1 else 0)
          = tasksFocusedCount s.backburner := countP_eraseIdx hgt
      omega
    · by_cases ha : (loc.kind == LocationArchive) = true
      · have heq : removeTaskAt s loc = { s with archives := s.archives.eraseIdx loc.taskIndex } := by
          simp only [removeTaskAt, hk, hb, Bool.false_eq_true, ite_false, ha, ite_true]
        have hgt : s.archives.get? loc.taskIndex = some t0 := by
          simp only [getTaskAt, hk, hb, Bool.false_eq_true, ite_false, ha, ite_true] at hget
          exact hget
        rw [heq]
        simp only [focusedCount_parts]
        have e2 : tasksFocusedCount (s.archives.eraseIdx loc.taskIndex) + (if t0.focused then 1 else 0)
            = tasksFocusedCount s.archives := countP_eraseIdx hgt
        omega
      · exfalso
        simp only [getTaskAt, hk, hb, ha, Bool.false_eq_true, ite_false] at hget
        exact Option.noConfusion hget

theorem patchTextFields_focused (p : TaskPatch) (t : Task) :
    (patchTextFields p t).focused = t.focused := by
  obtain ⟨pn, pd, pno, ps, psz, pl, pc, pu⟩ := p
  cases pn <;> cases pd <;> cases pno <;> rfl

theorem patchTailFields_focused (p : TaskPatch) (t : Task) :
    (patchTailFields p t).focused = t.focused := by
  obtain ⟨pn, pd, pno, ps, psz, pl, pc, pu⟩ := p
  cases pl <;> cases pc <;> cases pu <;> rfl

theorem applyPatchSize_focused (p : TaskPatch) (t : Task) :
    ((applyPatchSize p t).1).focused = t.focused := by
  simp only [applyPatchSize]
  split
  · split
    · rfl
    · exact patchTailFields_focused p _
  · exact patchTailFields_focused p t

theorem applyPatch_focused (p : TaskPatch) (t : Task) :
    ((applyPatch p t).1).focused = t.focused := by
  simp only [applyPatch]
  split
  · split
    · rw [applyPatchSize_focused]
      exact patchTextFields_focused p t
    · exact patchTextFields_focused p t
  · rw [applyPatchSize_focused]
    exact patchTextFields_focused p t

theorem getTaskAt_clearFocus {s : BoardState} {loc : TaskLoc} {t : Task}
    (h : getTaskAt s loc = some t) :
    getTaskAt (clearFocus s) loc = some { t with focused := false } := by
  by_cases hk : (loc.kind == LocationCategory) = true
  · obtain ⟨c0, hc0, ht0⟩ := getTaskAt_category h (by simpa using hk)
    simp only [getTaskAt, hk, ite_true]
    show ((((clearFocus s).categories.get? loc.categoryIndex).map Category.tasks).bind
      (fun ts => ts.get? loc.taskIndex)) = _
    have h2 : (clearFocus s).categories.get? loc.categoryIndex
        = ((s.categories.get? loc.categoryIndex).map (fun c =>
          { c with tasks := c.tasks.map (fun t => { t with focused := false }) })) := by
      show (s.categories.map _).get? _ = _
      rw [List.get?_map]
    rw [h2, hc0]
    simp only [Option.map_some', Option.some_bind]
    rw [List.get?_map, ht0]
    rfl
  · by_cases hb : (loc.kind == LocationBackburner) = true
    · simp only [getTaskAt, hk, Bool.false_eq_true, ite_false, hb, ite_true] at h ⊢
      show (s.backburner.map _).get? _ = _
      rw [List.get?_map, h]
      rfl
    · by_cases ha : (loc.kind == LocationArchive) = true
      · simp only [getTaskAt, hk, hb, Bool.false_eq_true, ite_false, ha, ite_true] at h ⊢
        show (s.archives.map _).get? _ = _
        rw [List.get?_map, h]
        rfl
      · simp only [getTaskAt, hk, hb, ha, Bool.false_eq_true, ite_false] at h
        exact Option.noConfusion h

theorem setFocusedOp_ok_focus {s : BoardState} {id : String} {s2 : BoardState} {t2 : Task}
    (h : setFocusedOp s id = (s2, .ok t2)) :
    focusedCount s2 ≤ 1 ∧ parkedUnfocused s2 ∧ (id ≠ "" → focusedCount s2 = 1) := by
  simp only [setFocusedOp] at h
  split at h
  · rename_i hid
    have h4 := (congrArg Prod.fst h).symm
    simp only at h4
    rw [h4]
    refine ⟨by rw [focusedCount_clearFocus]; omega, parkedUnfocused_clearFocus s, fun hne => ?_⟩
    exact absurd (by simpa using hid) hne
  · split at h
    · exact absurd (congrArg Prod.snd h) (by simp)
    · rename_i t loc heq
      have h4 := (congrArg Prod.fst h).symm
      simp only at h4
      obtain ⟨hget, -, -⟩ := findTask_ok_spec heq
      have hget2 := getTaskAt_clearFocus hget
      have e1 := setTaskAt_focusedCount (s := clearFocus s)
        { (getTaskAt (clearFocus s) loc).getD defaultTask with focused := true } hget2
      rw [focusedCount_clearFocus] at e1
      have hcnt : focusedCount (setTaskAt (clearFocus s)
          loc { (getTaskAt (clearFocus s) loc).getD defaultTask with focused := true }) = 1 := by
        simp only at e1
        norm_num at e1
        exact e1
      rw [h4]
      refine ⟨le_of_eq hcnt, parkedUnfocused_setTaskAt (parkedUnfocused_clearFocus s), fun hne => hcnt⟩

theorem updateTaskOp_ok_focus {s : BoardState} {id : String} {p : TaskPatch}
    {s2 : BoardState} {t2 : Task}
    (hfoc : focusedCount s ≤ 1) (hpark : parkedUnfocused s)
    (h : updateTaskOp s id p = (s2, .ok t2)) :
    focusedCount s2 ≤ 1 ∧ parkedUnfocused s2 := by
  simp only [updateTaskOp] at h
  split at h
  · exact absurd (congrArg Prod.snd h) (by simp)
  · rename_i t loc heq
    split at h
    · exact absurd (congrArg Prod.snd h) (by simp)
    · obtain ⟨hget, -, -⟩ := findTask_ok_spec heq
      have e1 := setTaskAt_focusedCount (applyPatch p t).1 hget
      rw [applyPatch_focused] at e1
      have hc1 : focusedCount (setTaskAt s loc (applyPatch p t).1) = focusedCount s := by
        omega
      have hinv1 : focusedCount (setTaskAt s loc (applyPatch p t).1) ≤ 1 ∧
          parkedUnfocused (setTaskAt s loc (applyPatch p t).1) := by
        rw [hc1]
        exact ⟨hfoc, parkedUnfocused_setTaskAt hpark⟩
      by_cases hk : (loc.kind == LocationCategory) = true
      · simp only [hk, ite_true] at h
        split at h
        · exact absurd (congrArg Prod.snd h) (by simp)
        · have h4 := (congrArg Prod.fst h).symm
          simp only at h4
          rw [h4]
          split
          · constructor
            · rw [focusedCount_normalizeUrgent]
              exact hinv1.1
            · exact parkedUnfocused_normalizeUrgent hinv1.2
          · constructor
            · rw [focusedCount_normalizeUrgent]
              exact hinv1.1
            · exact parkedUnfocused_normalizeUrgent hinv1.2
      · have hkb : (loc.kind == LocationCategory) = false := by simpa using hk
        simp only [hkb, Bool.false_eq_true, ite_false] at h
        have h4 := (congrArg Prod.fst h).symm
        simp only at h4
        rw [h4]
        exact hinv1

theorem deleteTaskOp_ok_focus {s : BoardState} {id : String}
    {s2 : BoardState} {r : Unit}
    (hfoc : focusedCount s ≤ 1) (hpark : parkedUnfocused s)
    (h : deleteTaskOp s id = (s2, .ok r)) :
    focusedCount s2 ≤ 1 ∧ parkedUnfocused s2 := by
  simp only [deleteTaskOp] at h
  split at h
  · exact absurd (congrArg Prod.snd h) (by simp)
  · split at h
    · exact absurd (congrArg Prod.snd h) (by simp)
    · split at h
      · rename_i t0 loc0 s1 heq
        have hs1 : s1 = removeTaskAt s loc0 ∧ findTask s id = .ok (t0, loc0) := by
          simp only [removeTask] at heq
          split at heq
          · rename_i t1 loc1 heq2
            injection heq with h5
            injection h5 with h6 h7
            injection h7 with h8 h9
            subst h6
            subst h8
            exact ⟨h9.symm, heq2⟩
          · exact Except.noConfusion heq
        have h4 := (congrArg Prod.fst h).symm
        simp only at h4
        obtain ⟨hget, -, -⟩ := findTask_ok_spec hs1.2
        have e1 := removeTaskAt_focusedCount hget
        rw [h4, hs1.1]
        constructor
        · omega
        · exact parkedUnfocused_removeTaskAt hpark
      · exact absurd (congrArg Prod.snd h) (by simp)

theorem createCategoryOp_ok_focus {gen : String} {s : BoardState} {name : String}
    {s2 : BoardState} {c2 : Category}
    (hfoc : focusedCount s ≤ 1) (hpark : parkedUnfocused s)
    (h : createCategoryOp gen s name = (s2, .ok c2)) :
    focusedCount s2 ≤ 1 ∧ parkedUnfocused s2 := by
  simp only [createCategoryOp] at h
  split at h
  · exact absurd (congrArg Prod.snd h) (by simp)
  · split at h
    · exact absurd (congrArg Prod.snd h) (by simp)
    · split at h
      · exact absurd (congrArg Prod.snd h) (by simp)
      · split at h
        · exact absurd (congrArg Prod.snd h) (by simp)
        · split at h
          · exact absurd (congrArg Prod.snd h) (by simp)
          · have h4 := (congrArg Prod.fst h).symm
            simp only at h4
            rw [h4]
            constructor
            · simp only [focusedCount_parts, List.map_append, List.sum_append,
                List.map_cons, List.map_nil, List.sum_cons, List.sum_nil]
              have hz : tasksFocusedCount ([] : List Task) = 0 := rfl
              simp only [focusedCount_parts] at hfoc
              omega
            · exact hpark

theorem renameCategoryOp_ok_focus {s : BoardState} {id name : String}
    {s2 : BoardState} {c2 : Category}
    (hfoc : focusedCount s ≤ 1) (hpark : parkedUnfocused s)
    (h : renameCategoryOp s id name = (s2, .ok c2)) :
    focusedCount s2 ≤ 1 ∧ parkedUnfocused s2 := by
  simp only [renameCategoryOp] at h
  split at h
  · exact absurd (congrArg Prod.snd h) (by simp)
  · split at h
    · exact absurd (congrArg Prod.snd h) (by simp)
    · split at h
      · exact absurd (congrArg Prod.snd h) (by simp)
      · split at h
        · exact absurd (congrArg Prod.snd h) (by simp)
        · split at h
          · rename_i i heq
            obtain ⟨c0, hc0, -⟩ := findCategoryIndex_some heq
            have h4 := (congrArg Prod.fst h).symm
            simp only at h4
            rw [h4]
            constructor
            · simp only [focusedCount_parts]
              rw [listModify_eq_set _ _ _ _ hc0]
              have e1 := sum_map_set (fun c => tasksFocusedCount c.tasks)
                { c0 with name := trimSpace name } hc0
              simp only at e1
              simp only [focusedCount_parts] at hfoc
              omega
            · exact hpark
          · exact absurd (congrArg Prod.snd h) (by simp)

theorem reorderCategoryTasksOp_ok_focus {s : BoardState} {id : String}
    {order : List String} {s2 : BoardState} {c2 : Category}
    (hfoc : focusedCount s ≤ 1) (hpark : parkedUnfocused s)
    (hnd : ∀ c ∈ s.categories, (c.tasks.map Task.id).Nodup)
    (h : reorderCategoryTasksOp s id order = (s2, .ok c2)) :
    focusedCount s2 ≤ 1 ∧ parkedUnfocused s2 := by
  simp only [reorderCategoryTasksOp] at h
  split at h
  · rename_i cats found heq
    cases hci : findCategoryIndex s.categories id with
    | none =>
      rw [reorderInCats_none (o := order) hci] at heq
      exact Except.noConfusion heq
    | some ci =>
      obtain ⟨c, hc, -⟩ := findCategoryIndex_some hci
      rw [reorderInCats_found (o := order) hci hc] at heq
      split at heq
      · rename_i ts hrt
        injection heq with h5
        injection h5 with h6 h7
        have h4 := (congrArg Prod.fst h).symm
        simp only at h4
        rw [h4, ← h6]
        have hperm := (reorderTasks_ok_spec (hnd c (List.get?_mem hc)) hrt).2.2.1
        constructor
        · simp only [focusedCount_parts]
          have e1 := sum_map_set (fun c => tasksFocusedCount c.tasks)
            { c with tasks := ts } hc
          simp only at e1
          have e2 : tasksFocusedCount ts = tasksFocusedCount c.tasks :=
            List.Perm.countP_eq _ hperm
          simp only [focusedCount_parts] at hfoc
          omega
        · exact hpark
      · exact Except.noConfusion heq
  · exact absurd (congrArg Prod.snd h) (by simp)

theorem list_set_of_length_le {α : Type} {l : List α} {i : Nat} (a : α)
    (h : l.length ≤ i) : l.set i a = l := by
  induction l generalizing i with
  | nil => rfl
  | cons x xs ih =>
    cases i with
    | zero => simp at h
    | succ n =>
      show x :: xs.set n a = x :: xs
      rw [ih (by simpa using h)]

theorem set_insert_focus_le {sb : BoardState} (idx ii : Nat) {task : Task}
    (hfoc : focusedCount sb ≤ 1) (hf : task.focused = false) :
    focusedCount { sb with categories := sb.categories.set idx { (sb.categories.get? idx).getD defaultCategory with tasks := listInsertIdx ii task ((sb.categories.get? idx).getD defaultCategory).tasks } } ≤ 1 := by
  cases hq : sb.categories.get? idx with
  | none =>
    have hlen : sb.categories.length ≤ idx := by
      by_contra hlt
      rcases List.get?_eq_get (Nat.lt_of_not_le hlt) with h2
      rw [h2] at hq
      exact Option.noConfusion hq
    rw [list_set_of_length_le _ hlen]
    exact hfoc
  | some c0 =>
    simp only [Option.getD_some]
    simp only [focusedCount_parts]
    have e1 := sum_map_set (fun c => tasksFocusedCount c.tasks)
      { c0 with tasks := listInsertIdx ii task c0.tasks } hq
    simp only at e1
    have e2 : tasksFocusedCount (listInsertIdx ii task c0.tasks)
        = tasksFocusedCount c0.tasks + (if task.focused then 1 else 0) :=
      countP_listInsertIdx _ ii task c0.tasks
    rw [hf] at e2
    simp only [Bool.false_eq_true, if_false] at e2
    simp only [focusedCount_parts] at hfoc
    omega

theorem placeTaskInCategory_ok_focus {s : BoardState} {task0 : Task}
    {dest : MoveTaskRequest} {idx : Nat} {s2 : BoardState}
    (hfoc : focusedCount s ≤ 1) (hpark : parkedUnfocused s)
    (hf : task0.focused = false)
    (h : placeTaskInCategory s task0 dest idx = (s2, none)) :
    focusedCount s2 ≤ 1 ∧ parkedUnfocused s2 := by
  simp only [placeTaskInCategory] at h
  split at h
  · exact absurd (congrArg Prod.snd h) (by simp)
  · have h4 := (congrArg Prod.fst h).symm
    simp only at h4
    rw [h4]
    constructor
    · split
      · refine set_insert_focus_le idx _ ?_ hf
        rw [focusedCount_normalizeUrgent]
        exact hfoc
      · refine set_insert_focus_le idx _ ?_ hf
        rw [focusedCount_normalizeUrgent]
        exact hfoc
    · split
      · exact hpark
      · exact hpark

theorem placeTask_ok_focus {s : BoardState} {task0 : Task}
    {dest : MoveTaskRequest} {s2 : BoardState}
    (hfoc : focusedCount s ≤ 1) (hpark : parkedUnfocused s)
    (h : placeTask s task0 dest = (s2, none)) :
    focusedCount s2 ≤ 1 ∧ parkedUnfocused s2 := by
  simp only [placeTask] at h
  split at h
  · exact absurd (congrArg Prod.snd h) (by simp)
  · split at h
    · split at h
      · exact absurd (congrArg Prod.snd h) (by simp)
      · exact placeTaskInCategory_ok_focus hfoc hpark rfl h
    · split at h
      · have h4 := (congrArg Prod.fst h).symm
        simp only at h4
        rw [h4]
        constructor
        · simp only [focusedCount_parts]
          have e1 := tfc_append_singleton s.backburner { task0 with focused := false, urgent := false, sourceId := (moveReqNormalize dest).sourceId, source := (moveReqNormalize dest).source }
          simp only [focusedCount_parts] at hfoc
          rw [tfc_append_singleton]
          norm_num
          omega
        · exact hpark
      · split at h
        · have h4 := (congrArg Prod.fst h).symm
          simp only at h4
          rw [h4]
          constructor
          · simp only [focusedCount_parts]
            rw [tfc_append_singleton]
            simp only [focusedCount_parts] at hfoc
            norm_num
            omega
          · exact hpark
        · exact absurd (congrArg Prod.snd h) (by simp)

theorem moveTaskOp_ok_focus {s : BoardState} {id : String}
    {dest : MoveTaskRequest} {s2 : BoardState} {t2 : Task}
    (hfoc : focusedCount s ≤ 1) (hpark : parkedUnfocused s)
    (h : moveTaskOp s id dest = (s2, .ok t2)) :
    focusedCount s2 ≤ 1 ∧ parkedUnfocused s2 := by
  simp only [moveTaskOp] at h
  split at h
  · exact absurd (congrArg Prod.snd h) (by simp)
  · rename_i task loc s1 heq
    have hs1 : s1 = removeTaskAt s loc ∧ findTask s id = .ok (task, loc) := by
      simp only [removeTask] at heq
      split at heq
      · rename_i t1 loc1 heq2
        injection heq with h5
        injection h5 with h6 h7
        injection h7 with h8 h9
        subst h6
        subst h8
        exact ⟨h9.symm, heq2⟩
      · exact Except.noConfusion heq
    obtain ⟨hget, -, -⟩ := findTask_ok_spec hs1.2
    have e1 := removeTaskAt_focusedCount hget
    have hfoc1 : focusedCount s1 ≤ 1 := by
      rw [hs1.1]
      omega
    have hpark1 : parkedUnfocused s1 := by
      rw [hs1.1]
      exact parkedUnfocused_removeTaskAt hpark
    split at h
    · exact absurd (congrArg Prod.snd h) (by simp)
    · rename_i s3 heq2
      have h4 := (congrArg Prod.fst h).symm
      simp only at h4
      rw [h4]
      exact placeTask_ok_focus hfoc1 hpark1 heq2

theorem countP_map_pred_id (u : String) (l : List Task) :
    (l.map (fun t => { t with urgent := t.id == u })).countP (fun t' => t'.id == u && u != "")
      = l.countP (fun t' => t'.id == u && u != "") := by
  induction l with
  | nil => rfl
  | cons x xs ih =>
    show ({ x with urgent := x.id == u } :: xs.map _).countP _ = (x :: xs).countP _
    rw [List.countP_cons, List.countP_cons, ih]

theorem insertTaskInCategory_ok_focus {s : BoardState} {task : Task}
    {req : CreateTaskRequest} {idx : Nat} {c : Category} {s2 : BoardState} {t2 : Task}
    (hg : s.categories.get? idx = some c)
    (hfoc : focusedCount s ≤ 1) (hpark : parkedUnfocused s)
    (hfresh : ∀ c' ∈ s.categories, ∀ t' ∈ c'.tasks, (t'.id == task.id) = false)
    (h : insertTaskInCategory s task req idx = (s2, .ok t2)) :
    focusedCount s2 ≤ 1 ∧ parkedUnfocused s2 := by
  have hlt : idx < s.categories.length := get?_lt hg
  have hcz : c.tasks.countP (fun t' => t'.id == task.id && task.id != "") = 0 := by
    refine List.countP_eq_zero.mpr (fun t' ht' => ?_)
    simp [hfresh c (List.get?_mem hg) t' ht']
  simp only [insertTaskInCategory, hg, Option.getD_some] at h
  split at h
  · exact absurd (congrArg Prod.snd h) (by simp)
  · have h4 := (congrArg Prod.fst h).symm
    simp only at h4
    rw [h4]
    split
    · rename_i hfu
      constructor
      · rw [focusedCount_normalizeFocus]
        refine sum_map_le_single _ _ idx (fun j cj hj => ?_)
        by_cases hji : j = idx
        · subst hji
          rw [if_pos rfl]
          split at hj
          · rw [normalizeUrgent_categories, listModify_get_i,
              get?_set_self_of_lt _ hlt] at hj
            simp only [Option.map_some', Option.some.injEq] at hj
            rw [← hj]
            show ((listInsertIdx (insertIndexFor req.position c.tasks.length) task c.tasks).map (fun t => { t with urgent := t.id == task.id })).countP (fun t' => t'.id == task.id && task.id != "") ≤ 1
            rw [countP_map_pred_id, countP_listInsertIdx, hcz]
            split <;> omega
          · rw [get?_set_self_of_lt _ hlt] at hj
            injection hj with hj2
            rw [← hj2]
            show (listInsertIdx (insertIndexFor req.position c.tasks.length) task c.tasks).countP (fun t' => t'.id == task.id && task.id != "") ≤ 1
            rw [countP_listInsertIdx, hcz]
            split <;> omega
        · rw [if_neg hji]
          have hjs : s.categories.get? j = some cj := by
            split at hj
            · rw [normalizeUrgent_categories, listModify_get_ne _ _ _ _ hji,
                List.get?_set_ne _ _ (Ne.symm hji)] at hj
              exact hj
            · rw [List.get?_set_ne _ _ (Ne.symm hji)] at hj
              exact hj
          have hz : cj.tasks.countP (fun t' => t'.id == task.id && task.id != "") = 0 := by
            refine List.countP_eq_zero.mpr (fun t' ht' => ?_)
            simp [hfresh cj (List.get?_mem hjs) t' ht']
          omega
      · exact parkedUnfocused_normalizeFocus _ _
    · rename_i hfu
      have hff : task.focused = false := by simpa using hfu
      have hbase : focusedCount { s with categories := s.categories.set idx { c with tasks := listInsertIdx (insertIndexFor req.position c.tasks.length) task c.tasks } } ≤ 1 := by
        simp only [focusedCount_parts]
        have e1 := sum_map_set (fun c2 => tasksFocusedCount c2.tasks)
          { c with tasks := listInsertIdx (insertIndexFor req.position c.tasks.length) task c.tasks } hg
        simp only at e1
        have e2 : tasksFocusedCount (listInsertIdx (insertIndexFor req.position c.tasks.length) task c.tasks)
            = tasksFocusedCount c.tasks + (if task.focused then 1 else 0) :=
          countP_listInsertIdx _ _ task c.tasks
        rw [hff] at e2
        simp only [Bool.false_eq_true, if_false] at e2
        simp only [focusedCount_parts] at hfoc
        omega
      constructor
      · split
        · rw [focusedCount_normalizeUrgent]
          exact hbase
        · exact hbase
      · split
        · exact hpark
        · exact hpark

theorem createTaskOp_ok_focus {gen : String} {s : BoardState}
    {req : CreateTaskRequest} {s2 : BoardState} {t2 : Task}
    (hfoc : focusedCount s ≤ 1) (hpark : parkedUnfocused s)
    (hfresh : ∀ c ∈ s.categories, ∀ t ∈ c.tasks,
      (t.id == effTaskId gen (createTaskReqNormalize req)) = false)
    (h : createTaskOp gen s req = (s2, .ok t2)) :
    focusedCount s2 ≤ 1 ∧ parkedUnfocused s2 := by
  have hid : (normalizedNewTask gen (createTaskReqNormalize req).task).id
      = effTaskId gen (createTaskReqNormalize req) := by
    rw [normalizedNewTask_id]
    rfl
  simp only [createTaskOp] at h
  split at h
  · exact absurd (congrArg Prod.snd h) (by simp)
  · rcases insertTask_cases gen s (createTaskReqNormalize req) with
      ⟨e, heq⟩ | ⟨idx, hci, heq⟩ | ⟨t3, hf3, heq⟩ | ⟨t3, hf3, heq⟩
    · rw [heq] at h
      exact absurd (congrArg Prod.snd h) (by simp)
    · rw [heq] at h
      obtain ⟨c, hc, -⟩ := findCategoryIndex_some hci
      refine insertTaskInCategory_ok_focus hc hfoc hpark (fun c' hc' t' ht' => ?_) h
      rw [hid]
      exact hfresh c' hc' t' ht'
    · rw [heq] at h
      have h4 := (congrArg Prod.fst h).symm
      simp only at h4
      rw [h4]
      constructor
      · simp only [focusedCount_parts]
        rw [tfc_append_singleton, hf3]
        simp only [Bool.false_eq_true, if_false]
        simp only [focusedCount_parts] at hfoc
        omega
      · exact hpark
    · rw [heq] at h
      have h4 := (congrArg Prod.fst h).symm
      simp only at h4
      rw [h4]
      constructor
      · simp only [focusedCount_parts]
        rw [tfc_append_singleton, hf3]
        simp only [Bool.false_eq_true, if_false]
        simp only [focusedCount_parts] at hfoc
        omega
      · exact hpark

theorem moveCategoryOp_ok_focus {s : BoardState} {id : String}
    {dest : MoveCategoryRequest} {s2 : BoardState} {c2 : Category}
    (hfoc : focusedCount s ≤ 1) (hpark : parkedUnfocused s)
    (h : moveCategoryOp s id dest = (s2, .ok c2)) :
    focusedCount s2 ≤ 1 ∧ parkedUnfocused s2 := by
  simp only [moveCategoryOp] at h
  split at h
  · exact absurd (congrArg Prod.snd h) (by simp)
  · split at h
    · exact absurd (congrArg Prod.snd h) (by simp)
    · rename_i cat loc s1 heq
      have hrem : focusedCount s1 + tasksFocusedCount cat.tasks = focusedCount s
          ∧ parkedUnfocused s1 := by
        rcases removeCategory_spec heq with ⟨-, -, hg, hs⟩ | ⟨-, -, hg, hs⟩ | ⟨-, -, hg, hs⟩
        · subst hs
          constructor
          · simp only [focusedCount_parts]
            have e1 := sum_map_eraseIdx (fun c => tasksFocusedCount c.tasks) hg
            simp only at e1
            omega
          · exact hpark
        · subst hs
          constructor
          · simp only [focusedCount_parts]
            have e1 := sum_map_eraseIdx (fun c => tasksFocusedCount c.tasks) hg
            simp only at e1
            omega
          · constructor
            · intro c hc t ht
              exact hpark.1 c (List.mem_of_mem_eraseIdx hc) t ht
            · exact hpark.2
        · subst hs
          constructor
          · simp only [focusedCount_parts]
            have e1 := sum_map_eraseIdx (fun c => tasksFocusedCount c.tasks) hg
            simp only at e1
            omega
          · constructor
            · exact hpark.1
            · intro c hc t ht
              exact hpark.2 c (List.mem_of_mem_eraseIdx hc) t ht
      obtain ⟨hcnt1, hpark1⟩ := hrem
      split at h
      · exact absurd (congrArg Prod.snd h) (by simp)
      · rename_i s3 heq2
        have h4 := (congrArg Prod.fst h).symm
        simp only at h4
        rw [h4]
        simp only [placeCategory] at heq2
        split at heq2
        · split at heq2
          · exact absurd (congrArg Prod.snd heq2) (by simp)
          · split at heq2
            · exact absurd (congrArg Prod.snd heq2) (by simp)
            · have h5 := (congrArg Prod.fst heq2).symm
              simp only at h5
              rw [h5]
              constructor
              · simp only [focusedCount_parts]
                rw [sum_map_listInsertIdx]
                simp only [focusedCount_parts] at hcnt1 hfoc
                omega
              · exact hpark1
        · split at heq2
          · have h5 := (congrArg Prod.fst heq2).symm
            simp only at h5
            rw [h5]
            constructor
            · simp only [focusedCount_parts]
              rw [List.map_append, List.sum_append]
              have hz : tasksFocusedCount (clearCategoryFocus cat).tasks = 0 :=
                tasksFocusedCount_map_clear cat.tasks
              simp only [List.map_cons, List.map_nil, List.sum_cons, List.sum_nil]
              simp only [focusedCount_parts] at hcnt1 hfoc
              omega
            · constructor
              · intro c hc t ht
                rcases List.mem_append.mp hc with hc1 | hc2
                · exact hpark1.1 c hc1 t ht
                · have hceq : c = clearCategoryFocus cat := by simpa using hc2
                  rw [hceq] at ht
                  rcases List.mem_map.mp ht with ⟨t0, -, ht0⟩
                  rw [← ht0]
              · exact hpark1.2
          · split at heq2
            · have h5 := (congrArg Prod.fst heq2).symm
              simp only at h5
              rw [h5]
              constructor
              · simp only [focusedCount_parts]
                rw [List.map_append, List.sum_append]
                have hz : tasksFocusedCount (clearCategoryFocus cat).tasks = 0 :=
                  tasksFocusedCount_map_clear cat.tasks
                simp only [List.map_cons, List.map_nil, List.sum_cons, List.sum_nil]
                simp only [focusedCount_parts] at hcnt1 hfoc
                omega
              · constructor
                · exact hpark1.1
                · intro c hc t ht
                  rcases List.mem_append.mp hc with hc1 | hc2
                  · exact hpark1.2 c hc1 t ht
                  · have hceq : c = clearCategoryFocus cat := by simpa using hc2
                    rw [hceq] at ht
                    rcases List.mem_map.mp ht with ⟨t0, -, ht0⟩
                    rw [← ht0]
            · exact absurd (congrArg Prod.snd heq2) (by simp)

/-- Board whose only task sits in the flat backburner. -/
def bbBoard : BoardState := ⟨[], [mkTask "x" 1], [], [], []⟩

/-- C2 counterexample.  SetFocused on a task that lives in the flat
Backburner container succeeds and focuses it THERE: a task outside the
active categories ends up with focused = true, contradicting the claim
that the focused task is always inside an active-board category and that
tasks stored outside Categories are never focused. -/
theorem C2_focus_counterexample :
    (setFocusedOp bbBoard "x").2 = .ok { mkTask "x" 1 with focused := true } ∧
    (setFocusedOp bbBoard "x").1.backburner = [{ mkTask "x" 1 with focused := true }] ∧
    focusedCount (setFocusedOp bbBoard "x").1 = 1 := by
  refine ⟨by decide, by decide, by decide⟩

/-- C2 (amended).  From a state with at most one focused task and no
focused task parked inside CategoryBackburner/CategoryArchives, every
successful operation keeps at most one task focused board-wide and keeps
parked-category tasks unfocused (CreateTask under the data-model freshness
of the new task's ID, ReorderCategoryTasks under unique task IDs); a
successful SetFocused with a non-empty ID leaves EXACTLY one focused task —
but that task may live in the flat Backburner or Archives, not only in an
active category (see the counterexample). -/
theorem C2_focus_amended (s : BoardState) (gen id name : String)
    (req : CreateTaskRequest) (p : TaskPatch) (mreq : MoveTaskRequest)
    (dest : MoveCategoryRequest) (order : List String)
    (hfoc : focusedCount s ≤ 1) (hpark : parkedUnfocused s) :
    ((∀ c ∈ s.categories, ∀ t ∈ c.tasks,
        (t.id == effTaskId gen (createTaskReqNormalize req)) = false) →
      ∀ s2 r, createTaskOp gen s req = (s2, .ok r) →
        focusedCount s2 ≤ 1 ∧ parkedUnfocused s2) ∧
    (∀ s2 r, updateTaskOp s id p = (s2, .ok r) →
      focusedCount s2 ≤ 1 ∧ parkedUnfocused s2) ∧
    (∀ s2 r, moveTaskOp s id mreq = (s2, .ok r) →
      focusedCount s2 ≤ 1 ∧ parkedUnfocused s2) ∧
    (∀ s2 r, deleteTaskOp s id = (s2, .ok r) →
      focusedCount s2 ≤ 1 ∧ parkedUnfocused s2) ∧
    (∀ s2 r, createCategoryOp gen s name = (s2, .ok r) →
      focusedCount s2 ≤ 1 ∧ parkedUnfocused s2) ∧
    (∀ s2 r, renameCategoryOp s id name = (s2, .ok r) →
      focusedCount s2 ≤ 1 ∧ parkedUnfocused s2) ∧
    (∀ s2 r, moveCategoryOp s id dest = (s2, .ok r) →
      focusedCount s2 ≤ 1 ∧ parkedUnfocused s2) ∧
    ((∀ c ∈ s.categories, (c.tasks.map Task.id).Nodup) →
      ∀ s2 r, reorderCategoryTasksOp s id order = (s2, .ok r) →
        focusedCount s2 ≤ 1 ∧ parkedUnfocused s2) ∧
    (∀ s2 r, setFocusedOp s id = (s2, .ok r) →
      (focusedCount s2 ≤ 1 ∧ parkedUnfocused s2) ∧ (id ≠ "" → focusedCount s2 = 1)) := by
  refine ⟨?_, ?_, ?_, ?_, ?_, ?_, ?_, ?_, ?_⟩
  · intro hfresh s2 r h
    exact createTaskOp_ok_focus hfoc hpark hfresh h
  · intro s2 r h
    exact updateTaskOp_ok_focus hfoc hpark h
  · intro s2 r h
    exact moveTaskOp_ok_focus hfoc hpark h
  · intro s2 r h
    exact deleteTaskOp_ok_focus hfoc hpark h
  · intro s2 r h
    exact createCategoryOp_ok_focus hfoc hpark h
  · intro s2 r h
    exact renameCategoryOp_ok_focus hfoc hpark h
  · intro s2 r h
    exact moveCategoryOp_ok_focus hfoc hpark h
  · intro hnd s2 r h
    exact reorderCategoryTasksOp_ok_focus hfoc hpark hnd h
  · intro s2 r h
    obtain ⟨h1, h2, h3⟩ := setFocusedOp_ok_focus h
    exact ⟨⟨h1, h2⟩, h3⟩

theorem C2_focus_amended_witness :
    focusedCount capBoard ≤ 1 ∧ parkedUnfocused capBoard ∧
    focusedCount (setFocusedOp capBoard "a").1 = 1 ∧
    parkedUnfocused (setFocusedOp capBoard "a").1 := by
  have h := C2_focus_amended capBoard "g1" "a" "N"
    ⟨LocationBackburner, "", none, defaultTask⟩ emptyPatch
    ⟨LocationBackburner, "", none, "", ""⟩ ⟨LocationCategoryBoard, none⟩ []
    (by decide) (by unfold parkedUnfocused; decide)
  have h9 := h.2.2.2.2.2.2.2.2 (setFocusedOp capBoard "a").1
    { mkTask "a" 3 with focused := true } (by decide)
  exact ⟨by decide, by unfold parkedUnfocused; decide,
    h9.2 (by decide), h9.1.2⟩

end TwentyFive








